import Mathlib

/-!
Verification of the editing-session engine of the Interactive-Blog-Platform
repository (src/App.jsx): content normalization (cleanHtml), formatting
(handleFormat), link insertion (openLinkModal / handleInsertLink), image
drag-move (drop handler), resize-size normalization (normalizeSizeValue) and
the debounced draft autosave (useAutoSaveDraft and the immediate image-list
persistence effect).

The document model follows the Quill API as the source uses it: a document is
a linear sequence of one-offset units (characters or embedded images), each
carrying a format-attribute record.  Machine-level JS details that the source
relies on (truthiness of strings, regex semantics, timer scheduling) are made
explicit in the corresponding definitions.
-/

namespace Blog

/-! ## JS string helpers

JS `\s` (and `String.prototype.trim`) use the ECMAScript WhiteSpace and
LineTerminator sets.  The definitions below reproduce that character set. -/

/-- The ECMAScript whitespace set used by `\\s` and `String.prototype.trim`:
TAB LF VT FF CR SP NBSP OGHAM-SP, U+2000-U+200A, LS, PS, NNBSP, MMSP,
IDEOGRAPHIC-SP, ZWNBSP. -/
def isJsWs (c : Char) : Bool :=
  c.toNat = 0x9 || c.toNat = 0xa || c.toNat = 0xb || c.toNat = 0xc ||
  c.toNat = 0xd || c.toNat = 0x20 || c.toNat = 0xa0 || c.toNat = 0x1680 ||
  (0x2000 <= c.toNat && c.toNat <= 0x200a) ||
  c.toNat = 0x2028 || c.toNat = 0x2029 || c.toNat = 0x202f ||
  c.toNat = 0x205f || c.toNat = 0x3000 || c.toNat = 0xfeff

/-- `String.prototype.trim` on the character-list view. -/
def jsTrimList (l : List Char) : List Char :=
  ((l.dropWhile isJsWs).reverse.dropWhile isJsWs).reverse

/-- `String.prototype.trim`. -/
def jsTrim (s : String) : String :=
  String.mk (jsTrimList s.data)

/-! ## Resize size normalization (`normalizeSizeValue` in src/App.jsx)

```js
const normalizeSizeValue = (raw) => {
  if (!raw) return "";
  const v = String(raw).trim();
  if (v.endsWith("%")) return v;
  if (/^[0-9]+$/.test(v)) return `${v}px`;
  return v;
};
```
-/

/-- `s.startsWith(p)`. -/
def jsStartsWith (s p : String) : Bool :=
  p.data.isPrefixOf s.data

/-- `v.endsWith("%")`: the last character is `%`. -/
def endsWithPercent (v : String) : Bool :=
  v.data.getLast? = some '%'

/-- `/^[0-9]+$/.test v`: one or more ASCII digits and nothing else. -/
def isIntString (v : String) : Bool :=
  v ≠ "" && v.data.all Char.isDigit

/-- `normalizeSizeValue` from src/App.jsx: bare integers get a `px` suffix,
percentages and explicit unit strings pass through unchanged. -/
def normalizeSizeValue (raw : String) : String :=
  if raw = "" then ""
  else
    let v := jsTrim raw
    if endsWithPercent v then v
    else if isIntString v then v ++ "px"
    else v

/-! ## Document model

The rendering surface is Quill as the source uses it: a document is a linear
sequence of one-offset units — characters and embedded images — each carrying
a record of inline format attributes.  `getLength` counts Quill's invisible
trailing newline, hence the `+ 1`. -/

/-- The four boolean character formats toggled by `handleFormat`. -/
inductive CharFmt where
  | bold | italic | underline | strike
deriving DecidableEq, Repr

/-- Inline format attributes of one document unit.  Absent attributes are
`false`/`none`, matching Quill's representation where only applied formats are
present. -/
structure Attrs where
  bold : Bool := false
  italic : Bool := false
  underline : Bool := false
  strike : Bool := false
  size : Option String := none
  listKind : Option String := none
  link : Option String := none
deriving DecidableEq, Repr

/-- A one-offset document unit: a character or an embedded image. -/
inductive DocUnit where
  | ch (c : Char) (attrs : Attrs)
  | embed (src : String) (attrs : Attrs)
deriving DecidableEq, Repr

/-- The document: the ordered unit sequence of the editing surface. -/
abbrev Doc := List DocUnit

/-- Attribute record of a unit. -/
def DocUnit.attrs : DocUnit → Attrs
  | .ch _ a => a
  | .embed _ a => a

/-- Is this unit an embedded image? -/
def DocUnit.isEmbed : DocUnit → Bool
  | .ch _ _ => false
  | .embed _ _ => true

/-- Read one of the four boolean character formats. -/
def Attrs.getChar (a : Attrs) : CharFmt → Bool
  | .bold => a.bold
  | .italic => a.italic
  | .underline => a.underline
  | .strike => a.strike

/-- Set one of the four boolean character formats. -/
def Attrs.setChar (a : Attrs) (f : CharFmt) (v : Bool) : Attrs :=
  match f with
  | .bold => { a with bold := v }
  | .italic => { a with italic := v }
  | .underline => { a with underline := v }
  | .strike => { a with strike := v }

/-- Update a unit's attributes. -/
def DocUnit.mapAttrs (u : DocUnit) (g : Attrs → Attrs) : DocUnit :=
  match u with
  | .ch c a => .ch c (g a)
  | .embed s a => .embed s (g a)

/-- A Quill selection `{index, length}`. -/
structure Sel where
  index : Nat
  length : Nat
deriving DecidableEq, Repr

/-- `editor.getLength()`: unit count plus Quill's trailing newline. -/
def docLength (d : Doc) : Nat := d.length + 1

/-- `editor.formatText(index, length, ...)` restricted to an attribute
update `g`: applies `g` to every unit in `[index, index+length)` and leaves
the rest of the document unchanged. -/
def formatText (d : Doc) (index length : Nat) (g : Attrs → Attrs) : Doc :=
  match d, index with
  | [], _ => []
  | u :: rest, i + 1 => u :: formatText rest i length g
  | u :: rest, 0 =>
    match length with
    | 0 => u :: rest
    | n + 1 => u.mapAttrs g :: formatText rest 0 n g

/-- `editor.getFormat(index, length)` projected to one boolean character
format.  Quill reports an attribute only when it is present on every leaf of
the range, so a mixed range reads as not-enabled (`!!currentFormats[format]`
is `false`). -/
def getFormatChar (d : Doc) (index length : Nat) (f : CharFmt) : Bool :=
  ((d.drop index).take length).all fun u => u.attrs.getChar f

/-- All link-attribute values present in the document. -/
def linkValues (d : Doc) : List String :=
  d.filterMap fun u => u.attrs.link

/-- `editor.insertText(index, text, formats)`: text units inserted at
`index`, each carrying the given attributes. -/
def insertText (d : Doc) (index : Nat) (text : List Char) (a : Attrs) : Doc :=
  d.take index ++ text.map (fun c => DocUnit.ch c a) ++ d.drop index

/-- `editor.insertEmbed(index, "image", src)`. -/
def insertEmbed (d : Doc) (index : Nat) (src : String) : Doc :=
  d.take index ++ [DocUnit.embed src {}] ++ d.drop index

/-- `editor.deleteText(index, length)`. -/
def deleteText (d : Doc) (index length : Nat) : Doc :=
  d.take index ++ d.drop (index + length)

/-- Number of embed units in the document. -/
def embedCount (d : Doc) : Nat := d.countP DocUnit.isEmbed

/-! ## Formatting engine (`handleFormat` in src/App.jsx)

State of the pieces of `App` that the handlers touch: the document, the live
selection (`editor.getSelection()`), and the selection snapshot
`lastSelectionRef.current`. -/

/-- App-level editing state used by the handlers. -/
structure EditorState where
  doc : Doc
  sel : Option Sel
  lastSel : Option Sel
deriving Repr

/-- The toolbar commands `handleFormat` dispatches on.  `size none` is the
`false` clearing sentinel.  (The source's final fall-through branch
`editor.format(format, value)` is reachable for no toolbar command and is not
modelled.) -/
inductive FormatCmd where
  | list (value : String)
  | size (value : Option String)
  | char (f : CharFmt)
deriving DecidableEq, Repr

/-- Advisory outcome of `handleFormat`: either the format was applied, or the
operation was rejected with a user-facing `toast.info` message because the
selection was empty. -/
inductive FormatOutcome where
  | applied
  | emptySelection (msg : String)
deriving DecidableEq, Repr

/-- `handleFormat(format, value)` from src/App.jsx.

* list: `if (!range || range.length === 0) { toast.info(...); return; }`
  then `editor.format("list", value)` — a line-level attribute applied over
  the selection (modelled as an attribute update on the selected range).
* size: same guard, then `formatText(range.index, range.length, "size", v)`
  (`false` clears), caret moved after the range, pending format cleared.
* bold/italic/underline/strike: same guard, then the toggle policy:
  `currentlyEnabled = !!getFormat(range.index, range.length)[format]`, and
  `formatText(range.index, range.length, format, !currentlyEnabled)`.

`editor.format(..., false)` at the collapsed caret only sets the typing
format and mutates no document unit. -/
def handleFormat (st : EditorState) (cmd : FormatCmd) : EditorState × FormatOutcome :=
  match cmd with
  | .list value =>
    match st.sel with
    | none => (st, .emptySelection "Select the text you want to turn into a list.")
    | some range =>
      if range.length = 0 then
        (st, .emptySelection "Select the text you want to turn into a list.")
      else
        ({ st with
            doc := formatText st.doc range.index range.length
              (fun a => { a with listKind := some value }) },
          .applied)
  | .size value =>
    match st.sel with
    | none => (st, .emptySelection "Select text to apply the heading size.")
    | some range =>
      if range.length = 0 then
        (st, .emptySelection "Select text to apply the heading size.")
      else
        ({ st with
            doc := formatText st.doc range.index range.length
              (fun a => { a with size := value }),
            sel := some ⟨range.index + range.length, 0⟩ },
          .applied)
  | .char f =>
    match st.sel with
    | none => (st, .emptySelection "Select text to apply formatting.")
    | some range =>
      if range.length = 0 then
        (st, .emptySelection "Select text to apply formatting.")
      else
        let currentlyEnabled := getFormatChar st.doc range.index range.length f
        ({ st with
            doc := formatText st.doc range.index range.length
              (fun a => a.setChar f (!currentlyEnabled)),
            sel := some ⟨range.index + range.length, 0⟩ },
          .applied)

/-! ## Link insertion (`openLinkModal` / `handleInsertLink` in src/App.jsx) -/

/-- The scheme guard shared by `LinkModal.handleSubmit` and
`handleInsertLink`:
`if (!u.startsWith("http://") && !u.startsWith("https://")) u = "https://"+u`. -/
def ensureHttpScheme (u : String) : String :=
  if !jsStartsWith u "http://" && !jsStartsWith u "https://" then "https://" ++ u
  else u

/-- `LinkModal.handleSubmit`: a blank URL is rejected with a warning
(`none`), otherwise the trimmed URL, scheme-completed, is passed to
`onInsert`. -/
def linkModalSubmit (url : String) : Option String :=
  if jsTrim url = "" then none
  else some (ensureHttpScheme (jsTrim url))

/-- `openLinkModal`: snapshot the live selection into
`lastSelectionRef.current` (kept unchanged when the live selection is null),
then open the modal. -/
def openLinkModal (st : EditorState) : EditorState :=
  match st.sel with
  | some sel => { st with lastSel := some sel }
  | none => st

/-- Focus moving to the modal dialog: the live selection becomes null. -/
def loseFocus (st : EditorState) : EditorState :=
  { st with sel := none }

/-- `handleInsertLink(url)` from src/App.jsx: resolve index and length from
the live selection, else the saved snapshot, else caret at end of document;
format the range as a link when the resolved length is positive, otherwise
insert the URL text linked to itself.  The snapshot is consumed
(`lastSelectionRef.current = null`). -/
def handleInsertLink (st : EditorState) (url : String) : EditorState :=
  let finalUrl := ensureHttpScheme url
  let useIndex : Nat :=
    match st.sel with
    | some range => range.index
    | none =>
      match st.lastSel with
      | some saved => saved.index
      | none => docLength st.doc - 1
  let useLength : Nat :=
    match st.sel with
    | some range => range.length
    | none =>
      match st.lastSel with
      | some saved => saved.length
      | none => 0
  if useLength > 0 then
    { st with
        doc := formatText st.doc useIndex useLength
          (fun a => { a with link := some finalUrl }),
        sel := some ⟨useIndex + useLength, 0⟩,
        lastSel := none }
  else
    { st with
        doc := insertText st.doc useIndex finalUrl.data { link := some finalUrl },
        sel := some ⟨useIndex + finalUrl.length, 0⟩,
        lastSel := none }

/-! ## Image drag-move (drop handler of `insertImageIntoEditor`,
src/unnamed/part_000)

On drop the source inserts a copy of the dragged image at the drop index and
then deletes the original at `editor.getIndex(dragged.draggedBlot)` — the
blot's position resolved *after* the insertion.  A blot sitting at `src`
before `insertEmbed(drop, ...)` sits at `src` afterwards when `src < drop`,
and at `src + 1` otherwise (the insertion shifts it right).  The computed
`adjustedDropIndex` is never used by the source. -/

/-- The completed drag-move of the embed at `srcPos` to `dropIndex`:
`insertEmbed(dropIndex, "image", src)` followed by
`deleteText(getIndex(draggedBlot), 1)`. -/
def dragMoveImage (d : Doc) (imgSrc : String) (srcPos dropIndex : Nat) : Doc :=
  let d1 := insertEmbed d dropIndex imgSrc
  let originalIndex := if srcPos < dropIndex then srcPos else srcPos + 1
  deleteText d1 originalIndex 1

/-! ## Draft persistence (`useAutoSaveDraft` and the images effect,
src/App.jsx)

```js
function useAutoSaveDraft(draft, delay = 30000) {
  useEffect(() => {
    const hasContent = (draft.title && draft.title.trim()) || ... ;
    if (!hasContent) return;
    const t = setTimeout(() => { localStorage.setItem(DRAFT_KEY, ...); }, delay);
    return () => clearTimeout(t);
  }, [draft, delay]);
}
...
useEffect(() => {
  try { localStorage.setItem(DRAFT_KEY, JSON.stringify({title,content,tags,images})); }
  catch (_) {}
}, [images]);
```

The machine below replays the render/timer behaviour: every render caused by
a draft change first runs the previous effect's cleanup (cancelling the
pending timer), then — when the draft has content — schedules a store write
`delay` time units later.  A render caused by an image-list change
additionally runs the `[images]` effect, which writes the full draft snapshot
at once and without any content guard.  A pending timer whose deadline has
passed fires before the next event is processed, and an outstanding timer
fires at its deadline once the event sequence is exhausted. -/

/-- One uploaded-image metadata entry (`{id, name, url}` at creation; resize
fills the size fields). -/
structure ImageRecord where
  id : Nat
  name : String
  url : String
  width : Option String := none
  height : Option String := none
deriving DecidableEq, Repr

/-- The draft `{title, content, tags, images}`. -/
structure Draft where
  title : String
  content : String
  tags : List String
  images : List ImageRecord
deriving DecidableEq, Repr

/-- The `hasContent` guard of `useAutoSaveDraft`: JS truthiness of
`(title && title.trim()) || (content && content.trim()) ||
(tags && tags.length > 0) || (images && images.length > 0)`. -/
def hasContent (d : Draft) : Bool :=
  jsTrim d.title ≠ "" || jsTrim d.content ≠ "" ||
  d.tags.length > 0 || d.images.length > 0

/-- Which code path produced a draft-store write. -/
inductive WriteSrc where
  | debounce
  | immediate
deriving DecidableEq, Repr

/-- A recorded `localStorage.setItem(DRAFT_KEY, ...)`: time, payload,
originating path. -/
structure Write where
  time : Nat
  payload : Draft
  src : WriteSrc
deriving DecidableEq, Repr

/-- Renders that touch the draft store: a title/content/tags change
re-renders with a new draft value; an image-list change does the same and
also fires the immediate `[images]` persistence effect. -/
inductive DraftEv where
  | draftChange (d : Draft)
  | imagesChange (d : Draft)
deriving DecidableEq, Repr

/-- Machine state: the pending debounce timer (deadline and payload captured
by the scheduled callback) and the writes performed so far. -/
structure SaveState where
  pending : Option (Nat × Draft)
  writes : List Write
deriving DecidableEq, Repr

/-- Fire the pending debounce timer if its deadline is at or before `t`. -/
def fireDue (s : SaveState) (t : Nat) : SaveState :=
  match s.pending with
  | some (tf, d) =>
    if tf ≤ t then { pending := none, writes := s.writes ++ [⟨tf, d, .debounce⟩] }
    else s
  | none => s

/-- Process one render event at time `t`: let an expired timer fire first;
the effect cleanup cancels any still-pending timer; an image-list change
writes the snapshot immediately; the autosave effect schedules a new timer
`delay` later only when the draft has content. -/
def saveStep (delay : Nat) (s : SaveState) (t : Nat) (e : DraftEv) : SaveState :=
  let s := fireDue s t
  match e with
  | .draftChange d =>
    { s with pending := if hasContent d then some (t + delay, d) else none }
  | .imagesChange d =>
    { pending := if hasContent d then some (t + delay, d) else none,
      writes := s.writes ++ [⟨t, d, .immediate⟩] }

/-- An outstanding timer fires at its own deadline after the last event. -/
def flushPending (s : SaveState) : SaveState :=
  match s.pending with
  | some (tf, d) => { pending := none, writes := s.writes ++ [⟨tf, d, .debounce⟩] }
  | none => s

/-- Replay a time-ordered event sequence from the idle initial state. -/
def runAutosave (delay : Nat) (evs : List (Nat × DraftEv)) : SaveState :=
  flushPending (evs.foldl (fun s te => saveStep delay s te.1 te.2) ⟨none, []⟩)

/-- The all-empty draft. -/
def emptyDraft : Draft := ⟨"", "", [], []⟩

/-! ## Content normalizer (`cleanHtml` in src/App.jsx and src/unnamed/part_000)

```js
function cleanHtml(rawHtml) {
  if (!rawHtml) return "";
  let html = rawHtml.trim();
  html = html.replace(/<p>(\s|&nbsp;|<br\s*\/?>)*<\/p>/gi, "<p></p>");
  html = html.replace(/(<p>\s*<\/p>\s*){2,}/gi, "<p></p>");
  html = html.replace(/^(<p>\s*<\/p>\s*)+/i, "");
  html = html.replace(/(<p>\s*<\/p>\s*)+$/i, "");
  html = html.replace(/(<br\s*\/?>\s*){2,}/gi, "<br/>");
  return html.trim();
}
```

Every regex above is deterministic once JS's leftmost-greedy match rule is
fixed: the alternatives of each group have pairwise distinct first characters
(`\s` versus `&` versus `<`, and after `<` the next character separates
`<br`, `<p>` and `</p>`), and every optional/starred piece is followed by a
character it cannot itself match, so greedy matching never needs to backtrack
into a shorter alternative to succeed.  The scanners below therefore
implement each `replace` exactly: try the pattern at the current position
(greedy, case-insensitively via the `is*ch` character classes, with `\s` as
`isJsWs`); on success emit the replacement and continue after the match, on
failure emit one character and move on.  The anchored third and fourth
replaces strip the maximal run at the start, respectively the run at the
leftmost position whose entire suffix is a run. -/

/-- Case-insensitive `p` (the letter of `<p>` and `</p>` under the `i` flag). -/
def isPch (c : Char) : Bool := c = 'p' || c = 'P'

/-- Case-insensitive `b`. -/
def isBch (c : Char) : Bool := c = 'b' || c = 'B'

/-- Case-insensitive `r`. -/
def isRch (c : Char) : Bool := c = 'r' || c = 'R'

/-- Case-insensitive `n`. -/
def isNch (c : Char) : Bool := c = 'n' || c = 'N'

/-- Case-insensitive `s`. -/
def isSch (c : Char) : Bool := c = 's' || c = 'S'

/-- Match `<p>` (case-insensitive); returns the rest. -/
def pOpen? : List Char → Option (List Char)
  | '<' :: c :: '>' :: rest => if isPch c then some rest else none
  | _ => none

/-- Match `</p>` (case-insensitive); returns the rest. -/
def pClose? : List Char → Option (List Char)
  | '<' :: '/' :: c :: '>' :: rest => if isPch c then some rest else none
  | _ => none

/-- Match `&nbsp;` (case-insensitive letters); returns the rest. -/
def nbsp? : List Char → Option (List Char)
  | '&' :: c1 :: c2 :: c3 :: c4 :: ';' :: rest =>
    if isNch c1 && isBch c2 && isSch c3 && isPch c4 then some rest else none
  | _ => none

/-- Match `<br\s*\/?>` (case-insensitive); returns the rest. -/
def brTag? : List Char → Option (List Char)
  | '<' :: b :: r :: rest =>
    if isBch b && isRch r then
      match rest.dropWhile isJsWs with
      | '/' :: '>' :: rest2 => some rest2
      | '>' :: rest2 => some rest2
      | _ => none
    else none
  | _ => none

/-- One iteration of the group `(\s|&nbsp;|<br\s*\/?>)`. -/
def eStep? : List Char → Option (List Char)
  | [] => none
  | c :: rest =>
    if isJsWs c then some rest
    else
      match nbsp? (c :: rest) with
      | some r => some r
      | none => brTag? (c :: rest)

theorem dropWhile_length_le (p : Char → Bool) (l : List Char) :
    (l.dropWhile p).length ≤ l.length := by
  induction l with
  | nil => simp
  | cons c cs ih =>
    by_cases h : p c = true <;> simp [List.dropWhile_cons, h]
    omega

theorem pOpen?_lt (l r : List Char) (h : pOpen? l = some r) :
    r.length + 3 = l.length := by
  unfold pOpen? at h
  split at h
  · split at h
    · cases h
      simp
    · exact Option.noConfusion h
  · exact Option.noConfusion h

theorem pClose?_lt (l r : List Char) (h : pClose? l = some r) :
    r.length + 4 = l.length := by
  unfold pClose? at h
  split at h
  · split at h
    · cases h
      simp
    · exact Option.noConfusion h
  · exact Option.noConfusion h

theorem nbsp?_lt (l r : List Char) (h : nbsp? l = some r) :
    r.length + 6 = l.length := by
  unfold nbsp? at h
  split at h
  · split at h
    · cases h
      simp
    · exact Option.noConfusion h
  · exact Option.noConfusion h

theorem brTag?_lt (l r : List Char) (h : brTag? l = some r) :
    r.length + 4 ≤ l.length := by
  unfold brTag? at h
  split at h
  case h_2 => exact Option.noConfusion h
  case h_1 x b rr rest =>
    split at h
    · rename_i hbr
      have hd : (rest.dropWhile isJsWs).length ≤ rest.length :=
        dropWhile_length_le isJsWs rest
      split at h
      · cases h
        rename_i heq
        have := congrArg List.length heq
        simp at this
        simp
        omega
      · cases h
        rename_i heq
        have := congrArg List.length heq
        simp at this
        simp
        omega
      · exact Option.noConfusion h
    · exact Option.noConfusion h

theorem eStep?_lt (l r : List Char) (h : eStep? l = some r) :
    r.length < l.length := by
  unfold eStep? at h
  split at h
  · exact Option.noConfusion h
  · rename_i c rest
    split at h
    · cases h
      simp
    · revert h
      split
      · intro h
        cases h
        rename_i hn
        have := nbsp?_lt _ _ hn
        simp at this ⊢
        omega
      · intro h
        have := brTag?_lt _ _ h
        simp at this ⊢
        omega

/-- The greedy run of the group `(\s|&nbsp;|<br\s*\/?>)*`. -/
def eLoop (l : List Char) : List Char :=
  match h : eStep? l with
  | some r => eLoop r
  | none => l
termination_by l.length
decreasing_by exact eStep?_lt _ _ h

/-- Match `<p>(\s|&nbsp;|<br\s*\/?>)*<\/p>` at the head; returns the rest. -/
def emptyishP? (l : List Char) : Option (List Char) :=
  match pOpen? l with
  | none => none
  | some r1 => pClose? (eLoop r1)

/-- Match one `<p>\s*<\/p>\s*` at the head (greedy `\s*`); returns the rest. -/
def emptyP? (l : List Char) : Option (List Char) :=
  match pOpen? l with
  | none => none
  | some r1 =>
    match pClose? (r1.dropWhile isJsWs) with
    | none => none
    | some r2 => some (r2.dropWhile isJsWs)

/-- Match one `<br\s*\/?>\s*` at the head (greedy `\s*`); returns the rest. -/
def brTok? (l : List Char) : Option (List Char) :=
  match brTag? l with
  | none => none
  | some r => some (r.dropWhile isJsWs)

theorem eLoop_length (l : List Char) : (eLoop l).length ≤ l.length := by
  unfold eLoop
  split
  · rename_i r h
    have h1 := eStep?_lt _ _ h
    have h2 := eLoop_length r
    omega
  · exact Nat.le_refl _
termination_by l.length
decreasing_by exact eStep?_lt _ _ (by assumption)

theorem emptyishP?_lt (l r : List Char) (h : emptyishP? l = some r) :
    r.length + 7 ≤ l.length := by
  unfold emptyishP? at h
  split at h
  · exact Option.noConfusion h
  · rename_i r1 h1
    have ho := pOpen?_lt _ _ h1
    have hc := pClose?_lt _ _ h
    have he := eLoop_length r1
    omega

theorem emptyP?_lt (l r : List Char) (h : emptyP? l = some r) :
    r.length + 7 ≤ l.length := by
  unfold emptyP? at h
  split at h
  · exact Option.noConfusion h
  · rename_i r1 h1
    split at h
    · exact Option.noConfusion h
    · cases h
      rename_i r2 h2
      have ho := pOpen?_lt _ _ h1
      have hc := pClose?_lt _ _ h2
      have hd1 : (r1.dropWhile isJsWs).length ≤ r1.length :=
        dropWhile_length_le isJsWs r1
      have hd2 : (r2.dropWhile isJsWs).length ≤ r2.length :=
        dropWhile_length_le isJsWs r2
      omega

theorem brTok?_lt (l r : List Char) (h : brTok? l = some r) :
    r.length + 4 ≤ l.length := by
  unfold brTok? at h
  split at h
  · exact Option.noConfusion h
  · cases h
    rename_i r1 h1
    have hb := brTag?_lt _ _ h1
    have hd : (r1.dropWhile isJsWs).length ≤ r1.length :=
      dropWhile_length_le isJsWs r1
    omega

/-- The greedy run `(<p>\s*<\/p>\s*)*`: iteration count and rest. -/
def xRun (l : List Char) : Nat × List Char :=
  match h : emptyP? l with
  | some r => ((xRun r).1 + 1, (xRun r).2)
  | none => (0, l)
termination_by l.length
decreasing_by
  have := emptyP?_lt _ _ h
  omega

/-- The greedy run `(<br\s*\/?>\s*)*`: iteration count and rest. -/
def brRun (l : List Char) : Nat × List Char :=
  match h : brTok? l with
  | some r => ((brRun r).1 + 1, (brRun r).2)
  | none => (0, l)
termination_by l.length
decreasing_by
  have := brTok?_lt _ _ h
  omega

/-- The canonical empty paragraph `"<p></p>"`, the replacement of the first
and second replaces. -/
def canonP : List Char := ['<', 'p', '>', '<', '/', 'p', '>']

/-- The canonical line break `"<br/>"`, the replacement of the fifth
replace. -/
def canonBr : List Char := ['<', 'b', 'r', '/', '>']

theorem xRun_length (l : List Char) :
    (xRun l).2.length + 7 * (xRun l).1 ≤ l.length := by
  unfold xRun
  split
  · rename_i r hr
    have h1 := emptyP?_lt _ _ hr
    have h2 := xRun_length r
    simp only
    omega
  · simp
termination_by l.length
decreasing_by
  have := emptyP?_lt _ _ (by assumption)
  omega

theorem xRun_rest_lt (l : List Char) (h : 1 ≤ (xRun l).1) :
    (xRun l).2.length < l.length := by
  have := xRun_length l
  omega

theorem brRun_length (l : List Char) :
    (brRun l).2.length + 4 * (brRun l).1 ≤ l.length := by
  unfold brRun
  split
  · rename_i r hr
    have h1 := brTok?_lt _ _ hr
    have h2 := brRun_length r
    simp only
    omega
  · simp
termination_by l.length
decreasing_by
  have := brTok?_lt _ _ (by assumption)
  omega

theorem brRun_rest_lt (l : List Char) (h : 1 ≤ (brRun l).1) :
    (brRun l).2.length < l.length := by
  have := brRun_length l
  omega

/-- First replace: `/<p>(\s|&nbsp;|<br\s*\/?>)*<\/p>/gi` by `"<p></p>"`. -/
def repl1 : List Char → List Char
  | [] => []
  | c :: cs =>
    match h : emptyishP? (c :: cs) with
    | some r => canonP ++ repl1 r
    | none => c :: repl1 cs
termination_by l => l.length
decreasing_by
  · have := emptyishP?_lt _ _ h
    simp only [List.length_cons] at this ⊢
    omega
  · simp

/-- Second replace: `/(<p>\s*<\/p>\s*){2,}/gi` by `"<p></p>"`. -/
def repl2 : List Char → List Char
  | [] => []
  | c :: cs =>
    if h : 2 ≤ (xRun (c :: cs)).1 then canonP ++ repl2 (xRun (c :: cs)).2
    else c :: repl2 cs
termination_by l => l.length
decreasing_by
  · exact xRun_rest_lt _ (by omega)
  · simp

/-- Third replace: `/^(<p>\s*<\/p>\s*)+/i` by `""` — drop the greedy run at
the start (no match, no change). -/
def dropXRun (l : List Char) : List Char := (xRun l).2

/-- Does the whole string parse as `(<p>\s*<\/p>\s*)+` (greedy, to the
end)? -/
def isXRunToEnd (l : List Char) : Bool :=
  1 ≤ (xRun l).1 && (xRun l).2.isEmpty

/-- Fourth replace: `/(<p>\s*<\/p>\s*)+$/i` by `""` — the match starts at the
leftmost position whose entire suffix is a run. -/
def repl4 : List Char → List Char
  | [] => []
  | c :: cs => if isXRunToEnd (c :: cs) then [] else c :: repl4 cs

/-- Fifth replace: `/(<br\s*\/?>\s*){2,}/gi` by `"<br/>"`. -/
def repl5 : List Char → List Char
  | [] => []
  | c :: cs =>
    if h : 2 ≤ (brRun (c :: cs)).1 then canonBr ++ repl5 (brRun (c :: cs)).2
    else c :: repl5 cs
termination_by l => l.length
decreasing_by
  · exact brRun_rest_lt _ (by omega)
  · simp

/-- The full `cleanHtml` pipeline on the character-list view. -/
def cleanHtmlList (l : List Char) : List Char :=
  jsTrimList (repl5 (repl4 (dropXRun (repl2 (repl1 (jsTrimList l))))))

/-- `cleanHtml` from src/App.jsx: trim, the five regex replaces, trim. -/
def cleanHtml (s : String) : String :=
  if s = "" then "" else String.mk (cleanHtmlList s.data)

/-! ### Languages of the five regexes

The idempotence proof works with declarative descriptions of the matched
words and relates them to the scanners above. -/

/-- Words of `\s*`. -/
def WsStr (w : List Char) : Prop := ∀ c ∈ w, isJsWs c = true

/-- Words matched by `<p>` (case-insensitive). -/
def POpenStr (u : List Char) : Prop :=
  ∃ c, isPch c = true ∧ u = ['<', c, '>']

/-- Words matched by `<\/p>` (case-insensitive). -/
def PCloseStr (u : List Char) : Prop :=
  ∃ c, isPch c = true ∧ u = ['<', '/', c, '>']

/-- Words matched by `&nbsp;` (case-insensitive). -/
def NbspStr (u : List Char) : Prop :=
  ∃ c1 c2 c3 c4, isNch c1 = true ∧ isBch c2 = true ∧ isSch c3 = true ∧
    isPch c4 = true ∧ u = ['&', c1, c2, c3, c4, ';']

/-- Words matched by `<br\s*\/?>` (case-insensitive). -/
def BrStr (u : List Char) : Prop :=
  ∃ b r w opt, isBch b = true ∧ isRch r = true ∧ WsStr w ∧
    (opt = ['>'] ∨ opt = ['/', '>']) ∧ u = '<' :: b :: r :: (w ++ opt)

/-- Words of the group `(\s|&nbsp;|<br\s*\/?>)*`. -/
inductive EMid : List Char → Prop where
  | nil : EMid []
  | ws (c : Char) (rest : List Char) :
      isJsWs c = true → EMid rest → EMid (c :: rest)
  | nbsp (u rest : List Char) : NbspStr u → EMid rest → EMid (u ++ rest)
  | br (u rest : List Char) : BrStr u → EMid rest → EMid (u ++ rest)

/-- Words matched by the first regex `<p>(\s|&nbsp;|<br\s*\/?>)*<\/p>`. -/
def EmptyishStr (u : List Char) : Prop :=
  ∃ op mid cl, POpenStr op ∧ EMid mid ∧ PCloseStr cl ∧ u = op ++ mid ++ cl

/-- Words matched by one iteration `<p>\s*<\/p>\s*`. -/
def XStr (u : List Char) : Prop :=
  ∃ op w1 cl w2, POpenStr op ∧ WsStr w1 ∧ PCloseStr cl ∧ WsStr w2 ∧
    u = op ++ (w1 ++ (cl ++ w2))

/-- Words of `(<p>\s*<\/p>\s*)+`. -/
inductive XPlus : List Char → Prop where
  | one (u : List Char) : XStr u → XPlus u
  | cons (u v : List Char) : XStr u → XPlus v → XPlus (u ++ v)

/-- Words of `(<p>\s*<\/p>\s*){2,}`. -/
def X2Str (m : List Char) : Prop :=
  ∃ u v, XStr u ∧ XPlus v ∧ m = u ++ v

/-- Exactly `n` concatenated `<p>\s*<\/p>\s*` words. -/
inductive XChain : Nat → List Char → Prop where
  | zero : XChain 0 []
  | succ (n : Nat) (u v : List Char) :
      XStr u → XChain n v → XChain (n + 1) (u ++ v)

/-- Words matched by one iteration `<br\s*\/?>\s*`. -/
def BrTokStr (u : List Char) : Prop :=
  ∃ b w, BrStr b ∧ WsStr w ∧ u = b ++ w

/-- Words of `(<br\s*\/?>\s*)+`. -/
inductive BrTokPlus : List Char → Prop where
  | one (u : List Char) : BrTokStr u → BrTokPlus u
  | cons (u v : List Char) : BrTokStr u → BrTokPlus v → BrTokPlus (u ++ v)

/-- Words of `(<br\s*\/?>\s*){2,}`. -/
def Br2Str (m : List Char) : Prop :=
  ∃ u v, BrTokStr u ∧ BrTokPlus v ∧ m = u ++ v

/-- Exactly `n` concatenated `<br\s*\/?>\s*` words. -/
inductive BrChain : Nat → List Char → Prop where
  | zero : BrChain 0 []
  | succ (n : Nat) (u v : List Char) :
      BrTokStr u → BrChain n v → BrChain (n + 1) (u ++ v)

/-- Zone-substitution: the output arises from the source by replacing
non-overlapping words of `W` by `ρ` and keeping all other characters. -/
inductive Subst (W : List Char → Prop) (ρ : List Char) :
    List Char → List Char → Prop where
  | nil : Subst W ρ [] []
  | keep (c : Char) (s t : List Char) :
      Subst W ρ s t → Subst W ρ (c :: s) (c :: t)
  | repl (m s t : List Char) :
      W m → Subst W ρ s t → Subst W ρ (m ++ s) (ρ ++ t)

/-! ### Normal-form predicates

The fixed points of the five replaces, stated on the languages. -/

/-- Every occurrence of an emptyish-paragraph word is the canonical
`"<p></p>"` — the first replace changes nothing. -/
def CanonEmptyish (l : List Char) : Prop :=
  ∀ i u r, EmptyishStr u → l.drop i = u ++ r → u = canonP

/-- No occurrence of two consecutive `<p>\s*<\/p>\s*` words — the second
replace changes nothing. -/
def NoXX (l : List Char) : Prop :=
  ∀ i u v r, XStr u → XStr v → l.drop i ≠ u ++ (v ++ r)

/-- No `<p>\s*<\/p>\s*` word at the start — the third replace changes
nothing. -/
def NoXHead (l : List Char) : Prop := ∀ u r, XStr u → l ≠ u ++ r

/-- No suffix is a complete `(<p>\s*<\/p>\s*)+` run — the fourth replace
changes nothing. -/
def NoXSuffix (l : List Char) : Prop := ∀ i, ¬ XPlus (l.drop i)

/-- No occurrence of two consecutive `<br\s*\/?>\s*` words — the fifth
replace changes nothing. -/
def NoBrBr (l : List Char) : Prop :=
  ∀ i u v r, BrTokStr u → BrTokStr v → l.drop i ≠ u ++ (v ++ r)

/-- The first character, when present, is not whitespace. -/
def HeadNW (l : List Char) : Prop :=
  ∀ c rest, l = c :: rest → isJsWs c = false

/-! ## Supporting lemmas -/

theorem formatText_nil (index length : Nat) (g : Attrs → Attrs) :
    formatText [] index length g = [] := rfl

theorem formatText_zero_len (d : Doc) (index : Nat) (g : Attrs → Attrs) :
    formatText d index 0 g = d := by
  induction d generalizing index with
  | nil => rfl
  | cons u rest ih =>
    cases index with
    | zero => rfl
    | succ i => simpa [formatText] using ih i

theorem formatText_out_of_range (d : Doc) (index length : Nat)
    (g : Attrs → Attrs) (h : d.length ≤ index) :
    formatText d index length g = d := by
  induction d generalizing index with
  | nil => rfl
  | cons u rest ih =>
    cases index with
    | zero => exact absurd h (by simp)
    | succ i =>
      simp only [List.length_cons, Nat.succ_le_succ_iff] at h
      simpa [formatText] using ih i h

theorem formatText_formatText (d : Doc) (index length : Nat)
    (g₁ g₂ : Attrs → Attrs) :
    formatText (formatText d index length g₁) index length g₂ =
      formatText d index length (fun a => g₂ (g₁ a)) := by
  induction d generalizing index length with
  | nil => rfl
  | cons u rest ih =>
    cases index with
    | succ i => simpa [formatText] using ih i length
    | zero =>
      cases length with
      | zero => rfl
      | succ n => simp [formatText, DocUnit.mapAttrs, ih 0 n]; cases u <;> rfl

theorem formatText_congr (d : Doc) (index length : Nat) (g : Attrs → Attrs)
    (h : ∀ u ∈ (d.drop index).take length, u.mapAttrs g = u) :
    formatText d index length g = d := by
  induction d generalizing index length with
  | nil => rfl
  | cons u rest ih =>
    cases index with
    | succ i =>
      simp only [List.drop_succ_cons] at h
      simpa [formatText] using ih i length h
    | zero =>
      cases length with
      | zero => rfl
      | succ n =>
        simp only [List.drop_zero, List.take_succ_cons, List.mem_cons] at h
        simp only [formatText, h u (Or.inl rfl)]
        exact congrArg _ (ih 0 n (by simpa using fun v hv => h v (Or.inr hv)))

theorem formatText_slice (d : Doc) (index length : Nat) (g : Attrs → Attrs) :
    ((formatText d index length g).drop index).take length =
      (((d.drop index).take length).map fun u => u.mapAttrs g) := by
  induction d generalizing index length with
  | nil => simp [formatText]
  | cons u rest ih =>
    cases index with
    | succ i => simpa [formatText] using ih i length
    | zero =>
      cases length with
      | zero => simp
      | succ n => simpa [formatText] using ih 0 n

theorem formatText_getElem? (d : Doc) (index length : Nat) (g : Attrs → Attrs)
    (j : Nat) :
    (formatText d index length g)[j]? =
      if index ≤ j ∧ j < index + length then (d[j]?).map (fun u => u.mapAttrs g)
      else d[j]? := by
  induction d generalizing index length j with
  | nil => simp [formatText]
  | cons u rest ih =>
    cases index with
    | succ i =>
      cases j with
      | zero => simp [formatText]
      | succ j' =>
        simp only [formatText, List.getElem?_cons_succ]
        rw [ih i length j']
        by_cases h : i ≤ j' ∧ j' < i + length <;>
          simp [h, Nat.succ_le_succ_iff, Nat.succ_add, Nat.succ_lt_succ_iff]
    | zero =>
      cases length with
      | zero => simp [formatText]
      | succ n =>
        cases j with
        | zero => simp [formatText]
        | succ j' =>
          simp only [formatText, List.getElem?_cons_succ]
          rw [ih 0 n j']
          by_cases h : j' < n <;>
            simp [h, Nat.succ_lt_succ_iff, Nat.add_comm, Nat.succ_add]

theorem Attrs.setChar_getChar_self (a : Attrs) (f : CharFmt) :
    a.setChar f (a.getChar f) = a := by
  cases f <;> rfl

theorem Attrs.getChar_setChar_self (a : Attrs) (f : CharFmt) (v : Bool) :
    (a.setChar f v).getChar f = v := by
  cases f <;> rfl

theorem Attrs.setChar_setChar (a : Attrs) (f : CharFmt) (v w : Bool) :
    (a.setChar f v).setChar f w = a.setChar f w := by
  cases f <;> rfl

theorem DocUnit.attrs_mapAttrs (u : DocUnit) (g : Attrs → Attrs) :
    (u.mapAttrs g).attrs = g u.attrs := by
  cases u <;> rfl

theorem DocUnit.mapAttrs_isEmbed (u : DocUnit) (g : Attrs → Attrs) :
    (u.mapAttrs g).isEmbed = u.isEmbed := by
  cases u <;> rfl

theorem getFormatChar_formatText_setChar (d : Doc) (i n : Nat) (f : CharFmt)
    (v : Bool) (hne : (d.drop i).take n ≠ []) :
    getFormatChar (formatText d i n fun a => a.setChar f v) i n f = v := by
  unfold getFormatChar
  rw [formatText_slice]
  rcases hs : (d.drop i).take n with _ | ⟨u, rest⟩
  · exact absurd hs hne
  · cases v <;>
      simp [List.all_eq_true, DocUnit.attrs_mapAttrs, Attrs.getChar_setChar_self]

/-! ## Claim theorems -/

/-- C3: for a null or caret (`length = 0`) selection, every range-requiring
format command (bold, italic, underline, strike, heading size, ordered or
bullet list) is rejected with an `EmptySelection` advisory, the editor state
is unchanged, and the document length is unchanged. -/
theorem handleFormat_rejects_empty_selection
    (st : EditorState) (cmd : FormatCmd)
    (h : st.sel = none ∨ ∃ i, st.sel = some ⟨i, 0⟩) :
    (handleFormat st cmd).1 = st ∧
    (∃ msg, (handleFormat st cmd).2 = .emptySelection msg) ∧
    docLength (handleFormat st cmd).1.doc = docLength st.doc := by
  rcases h with h | ⟨i, h⟩ <;> cases cmd <;> simp [handleFormat, h]

/-- Witness for C3 at a concrete caret selection and command. -/
theorem handleFormat_rejects_empty_selection_witness :
    (handleFormat ⟨[DocUnit.ch 'a' {}], some ⟨0, 0⟩, none⟩ (.char .bold)).1 =
        ⟨[DocUnit.ch 'a' {}], some ⟨0, 0⟩, none⟩ ∧
    (∃ msg, (handleFormat ⟨[DocUnit.ch 'a' {}], some ⟨0, 0⟩, none⟩
        (.char .bold)).2 = .emptySelection msg) ∧
    docLength (handleFormat ⟨[DocUnit.ch 'a' {}], some ⟨0, 0⟩, none⟩
        (.char .bold)).1.doc =
      docLength ([DocUnit.ch 'a' {}] : Doc) :=
  handleFormat_rejects_empty_selection
    ⟨[DocUnit.ch 'a' {}], some ⟨0, 0⟩, none⟩ (.char .bold) (Or.inr ⟨0, rfl⟩)

/-- C2 (amended): toggling a character format twice over the same re-selected
non-empty range restores the original formats when the format is uniform
across the range (all enabled or all disabled).  A mixed range is not
restored — see the counterexample. -/
theorem handleFormat_toggle_twice_uniform
    (st : EditorState) (i n : Nat) (f : CharFmt)
    (hsel : st.sel = some ⟨i, n⟩) (hn : 0 < n)
    (huni : (∀ u ∈ (st.doc.drop i).take n, u.attrs.getChar f = true) ∨
            (∀ u ∈ (st.doc.drop i).take n, u.attrs.getChar f = false)) :
    (handleFormat
      { (handleFormat st (.char f)).1 with sel := st.sel } (.char f)).1.doc =
      st.doc := by
  obtain ⟨n', rfl⟩ : ∃ n', n = n' + 1 := ⟨n - 1, by omega⟩
  simp only [handleFormat, hsel]
  simp only [reduceCtorEq, ↓reduceIte, Nat.add_eq_zero, and_false]
  by_cases hempty : (st.doc.drop i).take (n' + 1) = []
  · have hlen : st.doc.length ≤ i := by
      rcases Nat.lt_or_ge i st.doc.length with hlt | hge
      · exfalso
        have : st.doc.drop i ≠ [] := by
          simp [List.drop_eq_nil_iff]
          omega
        rcases List.exists_cons_of_ne_nil this with ⟨u, rest, hu⟩
        simp [hu] at hempty
      · exact hge
    rw [formatText_out_of_range _ _ _ _ hlen, formatText_out_of_range _ _ _ _ hlen]
  · rw [formatText_formatText]
    rcases huni with huni | huni
    · have he : getFormatChar st.doc i (n' + 1) f = true := by
        unfold getFormatChar
        simpa [List.all_eq_true] using huni
      rw [he]
      have he2 : getFormatChar
          (formatText st.doc i (n' + 1) fun a => a.setChar f (!true)) i (n' + 1) f
          = false := by
        simpa using getFormatChar_formatText_setChar st.doc i (n' + 1) f false hempty
      rw [he2]
      apply formatText_congr
      intro u hu
      have : u.attrs.getChar f = true := huni u hu
      cases u with
      | ch c a =>
        simp only [DocUnit.attrs] at this
        simp [DocUnit.mapAttrs, Attrs.setChar_setChar, ← this,
          Attrs.setChar_getChar_self]
      | embed s a =>
        simp only [DocUnit.attrs] at this
        simp [DocUnit.mapAttrs, Attrs.setChar_setChar, ← this,
          Attrs.setChar_getChar_self]
    · have he : getFormatChar st.doc i (n' + 1) f = false := by
        unfold getFormatChar
        rcases List.exists_cons_of_ne_nil hempty with ⟨u, rest, hu⟩
        have := huni u (by simp [hu])
        simp [hu, this]
      rw [he]
      have he2 : getFormatChar
          (formatText st.doc i (n' + 1) fun a => a.setChar f (!false)) i (n' + 1) f
          = true := by
        simpa using getFormatChar_formatText_setChar st.doc i (n' + 1) f true hempty
      rw [he2]
      apply formatText_congr
      intro u hu
      have : u.attrs.getChar f = false := huni u hu
      cases u with
      | ch c a =>
        simp only [DocUnit.attrs] at this
        simp [DocUnit.mapAttrs, Attrs.setChar_setChar, ← this,
          Attrs.setChar_getChar_self]
      | embed s a =>
        simp only [DocUnit.attrs] at this
        simp [DocUnit.mapAttrs, Attrs.setChar_setChar, ← this,
          Attrs.setChar_getChar_self]

/-- Witness for C2 (amended) on a uniformly bold two-character range. -/
theorem handleFormat_toggle_twice_uniform_witness :
    (handleFormat
      { (handleFormat
          ⟨[DocUnit.ch 'a' { bold := true }, DocUnit.ch 'b' { bold := true }],
            some ⟨0, 2⟩, none⟩ (.char .bold)).1 with
          sel := (⟨[DocUnit.ch 'a' { bold := true },
            DocUnit.ch 'b' { bold := true }], some ⟨0, 2⟩, none⟩ :
              EditorState).sel }
      (.char .bold)).1.doc =
      [DocUnit.ch 'a' { bold := true }, DocUnit.ch 'b' { bold := true }] :=
  handleFormat_toggle_twice_uniform
    ⟨[DocUnit.ch 'a' { bold := true }, DocUnit.ch 'b' { bold := true }],
      some ⟨0, 2⟩, none⟩ 0 2 .bold rfl (by decide) (Or.inl (by decide))

/-- C2 counterexample: on the mixed range `[bold 'a', plain 'b']` with
selection `{index: 0, length: 2}`, toggling bold twice yields the all-plain
document, not the original mixed formats — the first toggle enables bold
everywhere (mixed reads as not-enabled), the second disables it everywhere. -/
theorem handleFormat_toggle_twice_mixed_cex :
    (handleFormat
      { (handleFormat
          ⟨[DocUnit.ch 'a' { bold := true }, DocUnit.ch 'b' {}],
            some ⟨0, 2⟩, none⟩ (.char .bold)).1 with
          sel := some ⟨0, 2⟩ }
      (.char .bold)).1.doc =
        [DocUnit.ch 'a' {}, DocUnit.ch 'b' {}] ∧
    (handleFormat
      { (handleFormat
          ⟨[DocUnit.ch 'a' { bold := true }, DocUnit.ch 'b' {}],
            some ⟨0, 2⟩, none⟩ (.char .bold)).1 with
          sel := some ⟨0, 2⟩ }
      (.char .bold)).1.doc ≠
        [DocUnit.ch 'a' { bold := true }, DocUnit.ch 'b' {}] := by
  constructor
  · rfl
  · decide

/-- C4: when selection `{index: 2, length: 3}` is cached at the moment the
link modal opens and the live selection is null by the time the dialog's
insertion runs, the link format is applied to offsets 2–5 (`formatText` at
index 2 with length 3) of the original document, not at the document end or a
caret default. -/
theorem handleInsertLink_uses_cached_selection
    (st : EditorState) (url : String) (hsel : st.sel = some ⟨2, 3⟩) :
    ((handleInsertLink (loseFocus (openLinkModal st)) url).doc =
      formatText st.doc 2 3 fun a =>
        { a with link := some (ensureHttpScheme url) }) ∧
    (∀ j : Nat,
      (handleInsertLink (loseFocus (openLinkModal st)) url).doc[j]? =
        if 2 ≤ j ∧ j < 5 then
          (st.doc[j]?).map fun u =>
            u.mapAttrs fun a => { a with link := some (ensureHttpScheme url) }
        else st.doc[j]?) := by
  have hdoc : (handleInsertLink (loseFocus (openLinkModal st)) url).doc =
      formatText st.doc 2 3 fun a =>
        { a with link := some (ensureHttpScheme url) } := by
    simp [openLinkModal, loseFocus, handleInsertLink, hsel]
  refine ⟨hdoc, fun j => ?_⟩
  rw [hdoc, formatText_getElem? st.doc 2 3 _ j]

/-- Witness for C4 on a concrete six-unit document. -/
theorem handleInsertLink_uses_cached_selection_witness :
    ((handleInsertLink (loseFocus (openLinkModal
        ⟨[DocUnit.ch 'a' {}, DocUnit.ch 'b' {}, DocUnit.ch 'c' {},
          DocUnit.ch 'd' {}, DocUnit.ch 'e' {}, DocUnit.ch 'f' {}],
          some ⟨2, 3⟩, none⟩)) "example.com").doc =
      formatText
        [DocUnit.ch 'a' {}, DocUnit.ch 'b' {}, DocUnit.ch 'c' {},
          DocUnit.ch 'd' {}, DocUnit.ch 'e' {}, DocUnit.ch 'f' {}] 2 3
        fun a => { a with link := some (ensureHttpScheme "example.com") }) ∧
    ((handleInsertLink (loseFocus (openLinkModal
        ⟨[DocUnit.ch 'a' {}, DocUnit.ch 'b' {}, DocUnit.ch 'c' {},
          DocUnit.ch 'd' {}, DocUnit.ch 'e' {}, DocUnit.ch 'f' {}],
          some ⟨2, 3⟩, none⟩)) "example.com").doc[3]? =
      if 2 ≤ 3 ∧ 3 < 5 then
        (([DocUnit.ch 'a' {}, DocUnit.ch 'b' {}, DocUnit.ch 'c' {},
          DocUnit.ch 'd' {}, DocUnit.ch 'e' {}, DocUnit.ch 'f' {}] :
            Doc)[3]?).map fun u =>
          u.mapAttrs fun a =>
            { a with link := some (ensureHttpScheme "example.com") }
      else ([DocUnit.ch 'a' {}, DocUnit.ch 'b' {}, DocUnit.ch 'c' {},
        DocUnit.ch 'd' {}, DocUnit.ch 'e' {}, DocUnit.ch 'f' {}] :
          Doc)[3]?) :=
  ⟨(handleInsertLink_uses_cached_selection _ "example.com" rfl).1,
   (handleInsertLink_uses_cached_selection _ "example.com" rfl).2 3⟩

/-- Elements of a formatted document come from the original document, either
unchanged or with the update applied. -/
theorem mem_formatText (d : Doc) (i n : Nat) (g : Attrs → Attrs) :
    ∀ u' ∈ formatText d i n g, ∃ u ∈ d, u' = u ∨ u' = u.mapAttrs g := by
  induction d generalizing i n with
  | nil => simp [formatText]
  | cons u rest ih =>
    cases i with
    | succ i' =>
      intro u' hu'
      simp only [formatText, List.mem_cons] at hu'
      rcases hu' with rfl | hu'
      · exact ⟨u', by simp⟩
      · rcases ih i' n u' hu' with ⟨w, hw, hor⟩
        exact ⟨w, by simp [hw], hor⟩
    | zero =>
      cases n with
      | zero =>
        intro u' hu'
        exact ⟨u', hu', Or.inl rfl⟩
      | succ n' =>
        intro u' hu'
        simp only [formatText, List.mem_cons] at hu'
        rcases hu' with rfl | hu'
        · exact ⟨u, by simp, Or.inr rfl⟩
        · rcases ih 0 n' u' hu' with ⟨w, hw, hor⟩
          exact ⟨w, by simp [hw], hor⟩

theorem isPrefixOf_append_self (p t : List Char) :
    p.isPrefixOf (p ++ t) = true := by
  induction p with
  | nil => simp [List.isPrefixOf]
  | cons c cs ih => simp [List.isPrefixOf, ih]

/-- Every URL leaving the scheme guard has an http/https scheme. -/
theorem ensureHttpScheme_scheme (url : String) :
    jsStartsWith (ensureHttpScheme url) "http://" = true ∨
    jsStartsWith (ensureHttpScheme url) "https://" = true := by
  unfold ensureHttpScheme
  by_cases h1 : jsStartsWith url "http://" = true
  · simp [h1]
  · by_cases h2 : jsStartsWith url "https://" = true
    · simp [h2]
    · right
      simp only [Bool.not_eq_true] at h1 h2
      simp only [h1, h2, Bool.not_false, Bool.and_self, if_pos]
      unfold jsStartsWith
      rw [String.data_append]
      exact isPrefixOf_append_self _ _

/-- C10 (implicit): every link URL applied or inserted by the link-insertion
handler begins with `http://` or `https://`: an input without either prefix
has `https://` prepended before the range is formatted or the link text
inserted, so every link value present in the resulting document is either one
that was already present or scheme-safe. -/
theorem handleInsertLink_scheme_safe :
    (∀ url : String,
      jsStartsWith url "http://" = false → jsStartsWith url "https://" = false →
      ensureHttpScheme url = "https://" ++ url) ∧
    (∀ (st : EditorState) (url l : String),
      l ∈ linkValues (handleInsertLink st url).doc →
      l ∈ linkValues st.doc ∨
        jsStartsWith l "http://" = true ∨ jsStartsWith l "https://" = true) := by
  constructor
  · intro url h1 h2
    simp [ensureHttpScheme, h1, h2]
  · intro st url l hl
    have hscheme := ensureHttpScheme_scheme url
    unfold handleInsertLink at hl
    by_cases hlen : (match st.sel with
      | some range => range.length
      | none => match st.lastSel with
        | some saved => saved.length
        | none => 0) > 0
    · simp only [hlen, if_pos] at hl
      unfold linkValues at hl
      rcases List.mem_filterMap.mp hl with ⟨u', hu', hlink⟩
      rcases mem_formatText _ _ _ _ u' hu' with ⟨u, hu, heq | heq⟩
      · rw [heq] at hlink
        exact Or.inl (List.mem_filterMap.mpr ⟨u, hu, hlink⟩)
      · rw [heq, DocUnit.attrs_mapAttrs] at hlink
        simp only [Option.some_inj] at hlink
        subst hlink
        exact Or.inr hscheme
    · simp only [hlen, if_neg, if_false] at hl
      unfold linkValues insertText at hl
      rcases List.mem_filterMap.mp hl with ⟨u', hu', hlink⟩
      rcases List.mem_append.mp hu' with hu' | hu'
      rcases List.mem_append.mp hu' with hu' | hu'
      · exact Or.inl (List.mem_filterMap.mpr
          ⟨u', List.mem_of_mem_take hu', hlink⟩)
      · rcases List.mem_map.mp hu' with ⟨c, _, rfl⟩
        simp only [DocUnit.attrs, Option.some_inj] at hlink
        subst hlink
        exact Or.inr hscheme
      · exact Or.inl (List.mem_filterMap.mpr
          ⟨u', List.mem_of_mem_drop hu', hlink⟩)

/-- Witness for C10: inserting `example.com` over a selected character links
it to `https://example.com`. -/
theorem handleInsertLink_scheme_safe_witness :
    "https://example.com" ∈
        linkValues ([DocUnit.ch 'a' {}] : Doc) ∨
      jsStartsWith "https://example.com" "http://" = true ∨
      jsStartsWith "https://example.com" "https://" = true :=
  handleInsertLink_scheme_safe.2
    ⟨[DocUnit.ch 'a' {}], some ⟨0, 1⟩, none⟩ "example.com"
    "https://example.com" (by decide)

/-- Deleting the single unit at a valid position removes exactly its
contribution to a `countP`. -/
theorem countP_deleteText_one (l : Doc) (oi : Nat) (u : DocUnit)
    (hu : l[oi]? = some u) :
    embedCount (deleteText l oi 1) + (if u.isEmbed then 1 else 0) =
      embedCount l := by
  have hoi : oi < l.length := by
    by_contra hge
    rw [List.getElem?_eq_none (by omega)] at hu
    exact Option.noConfusion hu
  have hdrop : l.drop oi = u :: l.drop (oi + 1) := by
    rw [← List.getElem_cons_drop l oi hoi]
    have : l[oi] = u := by
      have := List.getElem?_eq_getElem hoi
      rw [this] at hu
      exact Option.some_inj.mp hu
    rw [this]
  unfold deleteText embedCount
  conv_rhs => rw [← List.take_append_drop oi l]
  rw [hdrop, List.countP_append, List.countP_append, List.countP_cons]
  cases h : u.isEmbed <;> simp [h]
  omega

/-- C8: a completed drag-move of an embedded image (insert the copy at the
drop index, then delete the original at its post-insert position) leaves the
total embed count of the document unchanged, for every source position
holding an embed and every in-range drop index, on either side of the
source. -/
theorem dragMoveImage_preserves_embedCount
    (d : Doc) (imgSrc : String) (srcPos dropIndex : Nat) (u : DocUnit)
    (hu : d[srcPos]? = some u) (hembed : u.isEmbed = true)
    (hdrop : dropIndex ≤ d.length) :
    embedCount (dragMoveImage d imgSrc srcPos dropIndex) = embedCount d := by
  have hsrc : srcPos < d.length := by
    by_contra hge
    rw [List.getElem?_eq_none (by omega)] at hu
    exact Option.noConfusion hu
  have hlen_take : (d.take dropIndex).length = dropIndex := by
    simp [List.length_take]
    omega
  have hins : embedCount (insertEmbed d dropIndex imgSrc) = embedCount d + 1 := by
    unfold insertEmbed embedCount
    rw [List.countP_append, List.countP_append]
    conv_rhs => rw [← List.take_append_drop dropIndex d, List.countP_append]
    simp only [List.countP_cons, List.countP_nil, DocUnit.isEmbed, if_pos]
    omega
  have horig : (insertEmbed d dropIndex imgSrc)[if srcPos < dropIndex then
      srcPos else srcPos + 1]? = some u := by
    unfold insertEmbed
    have hlen1 : (d.take dropIndex ++ [DocUnit.embed imgSrc {}]).length =
        dropIndex + 1 := by
      simp [hlen_take]
    by_cases hlt : srcPos < dropIndex
    · simp only [hlt, if_pos]
      rw [List.getElem?_append, if_pos (by omega),
        List.getElem?_append, if_pos (by omega), List.getElem?_take,
        if_pos hlt]
      exact hu
    · simp only [hlt, if_neg, if_false]
      rw [List.getElem?_append_right (by omega)]
      have h1 : srcPos + 1 - (d.take dropIndex ++
          [DocUnit.embed imgSrc {}]).length = srcPos - dropIndex := by
        omega
      rw [h1, List.getElem?_drop]
      have h2 : dropIndex + (srcPos - dropIndex) = srcPos := by omega
      rw [h2]
      exact hu
  have hkey := countP_deleteText_one (insertEmbed d dropIndex imgSrc)
    (if srcPos < dropIndex then srcPos else srcPos + 1) u horig
  rw [hembed] at hkey
  simp only [if_pos] at hkey
  show embedCount (deleteText (insertEmbed d dropIndex imgSrc)
    (if srcPos < dropIndex then srcPos else srcPos + 1) 1) = embedCount d
  omega

/-- Witness for C8 in both directions (drop after and before the source). -/
theorem dragMoveImage_preserves_embedCount_witness :
    embedCount (dragMoveImage
        [DocUnit.embed "i" {}, DocUnit.ch 'a' {}, DocUnit.ch 'b' {}] "i" 0 3) =
      embedCount [DocUnit.embed "i" {}, DocUnit.ch 'a' {}, DocUnit.ch 'b' {}] ∧
    embedCount (dragMoveImage
        [DocUnit.ch 'a' {}, DocUnit.ch 'b' {}, DocUnit.embed "i" {}] "i" 2 0) =
      embedCount [DocUnit.ch 'a' {}, DocUnit.ch 'b' {}, DocUnit.embed "i" {}] :=
  ⟨dragMoveImage_preserves_embedCount _ "i" 0 3 (DocUnit.embed "i" {})
      (by decide) (by decide) (by decide),
   dragMoveImage_preserves_embedCount _ "i" 2 0 (DocUnit.embed "i" {})
      (by decide) (by decide) (by decide)⟩

/-- C9: the resize size-normalization maps a bare integer string to the same
value with a `px` suffix and leaves percentage strings and explicit unit
strings unchanged. -/
theorem normalizeSizeValue_spec :
    (∀ raw : String, raw ≠ "" →
      endsWithPercent (jsTrim raw) = true →
      normalizeSizeValue raw = jsTrim raw) ∧
    (∀ raw : String, raw ≠ "" →
      endsWithPercent (jsTrim raw) = false →
      isIntString (jsTrim raw) = true →
      normalizeSizeValue raw = jsTrim raw ++ "px") ∧
    (∀ raw : String, raw ≠ "" →
      endsWithPercent (jsTrim raw) = false →
      isIntString (jsTrim raw) = false →
      normalizeSizeValue raw = jsTrim raw) := by
  refine ⟨fun raw h1 h2 => ?_, fun raw h1 h2 h3 => ?_, fun raw h1 h2 h3 => ?_⟩
  · simp [normalizeSizeValue, h1, h2]
  · simp [normalizeSizeValue, h1, h2, h3]
  · simp [normalizeSizeValue, h1, h2, h3]

/-- Witness for C9: `"300" ↦ "300px"`, `"50%" ↦ "50%"`, `"auto" ↦ "auto"`. -/
theorem normalizeSizeValue_spec_witness :
    normalizeSizeValue "300" = "300px" ∧
    normalizeSizeValue "50%" = "50%" ∧
    normalizeSizeValue "auto" = "auto" :=
  ⟨(normalizeSizeValue_spec.2.1 "300" (by decide) (by decide)
      (by decide)).trans (by decide),
   (normalizeSizeValue_spec.1 "50%" (by decide) (by decide)).trans (by decide),
   (normalizeSizeValue_spec.2.2 "auto" (by decide) (by decide)
      (by decide)).trans (by decide)⟩

/-- C5 (amended): with delay 30 and draft changes at t = 0 and t = 10, the
t = 0 timer is canceled, no store write happens strictly before t = 40, and —
provided the t = 10 draft passes the `hasContent` guard — exactly one write
happens, at t = 40, carrying the t = 10 draft.  (An all-empty t = 10 draft
produces no write at all; see the counterexample.) -/
theorem autosave_debounce_scenario (d0 d1 : Draft)
    (h1 : hasContent d1 = true) :
    (runAutosave 30 [(0, .draftChange d0), (10, .draftChange d1)]).writes =
      [⟨40, d1, .debounce⟩] := by
  unfold runAutosave
  simp only [List.foldl_cons, List.foldl_nil]
  cases h0 : hasContent d0 <;>
    simp [saveStep, fireDue, flushPending, h0, h1]

/-- Witness for C5 (amended) with concrete drafts. -/
theorem autosave_debounce_scenario_witness :
    (runAutosave 30 [(0, .draftChange ⟨"a", "", [], []⟩),
        (10, .draftChange ⟨"b", "", [], []⟩)]).writes =
      [⟨40, ⟨"b", "", [], []⟩, .debounce⟩] :=
  autosave_debounce_scenario ⟨"a", "", [], []⟩ ⟨"b", "", [], []⟩ (by decide)

/-- C5 counterexample: when the t = 10 change empties the draft, the code
writes nothing at all — there is no write at t = 40, contrary to the claim's
unconditional "exactly one write occurs at t = 40". -/
theorem autosave_debounce_scenario_cex :
    (runAutosave 30 [(0, .draftChange ⟨"draft", "", [], []⟩),
        (10, .draftChange emptyDraft)]).writes = [] := by
  decide

/-- C6: an image-list change is persisted at once: the `[images]` effect
appends an immediate write of the full draft snapshot at the event's own
time, which is strictly before the deadline of any still-pending debounce
timer (title/content/tag changes mid-debounce included). -/
theorem imagesChange_immediate_write
    (delay : Nat) (s : SaveState) (t : Nat) (d : Draft) (tf : Nat) (dp : Draft)
    (hp : s.pending = some (tf, dp)) (ht : t < tf) :
    (saveStep delay s t (.imagesChange d)).writes =
      s.writes ++ [⟨t, d, .immediate⟩] ∧ t < tf := by
  refine ⟨?_, ht⟩
  unfold saveStep fireDue
  rw [hp]
  simp only [if_neg (by omega : ¬tf ≤ t)]

/-- Witness for C6: an image append at t = 20 is written at t = 20 while a
debounce timer is still pending for t = 35. -/
theorem imagesChange_immediate_write_witness :
    (saveStep 30 ⟨some (35, ⟨"t", "", [], []⟩), []⟩ 20
        (.imagesChange ⟨"t", "", [], [⟨1, "img", "u", none, none⟩]⟩)).writes =
      [] ++ [⟨20, ⟨"t", "", [], [⟨1, "img", "u", none, none⟩]⟩, .immediate⟩] ∧
    20 < 35 :=
  imagesChange_immediate_write 30 ⟨some (35, ⟨"t", "", [], []⟩), []⟩ 20
    ⟨"t", "", [], [⟨1, "img", "u", none, none⟩]⟩ 35 ⟨"t", "", [], []⟩
    rfl (by omega)

/-- Debounce-path invariant: pending payloads and debounce writes always pass
the `hasContent` guard. -/
def SaveInv (s : SaveState) : Prop :=
  (∀ tf d, s.pending = some (tf, d) → hasContent d = true) ∧
  (∀ w ∈ s.writes, w.src = WriteSrc.debounce → hasContent w.payload = true)

theorem saveInv_fireDue (s : SaveState) (t : Nat) (h : SaveInv s) :
    SaveInv (fireDue s t) := by
  obtain ⟨hp, hw⟩ := h
  unfold fireDue
  cases hpend : s.pending with
  | none => exact ⟨hp, hw⟩
  | some td =>
    obtain ⟨tf, dd⟩ := td
    by_cases hle : tf ≤ t
    · simp only [hle, if_pos]
      refine ⟨by simp, fun w hw' hsrc => ?_⟩
      rcases List.mem_append.mp hw' with h' | h'
      · exact hw w h' hsrc
      · simp only [List.mem_singleton] at h'
        subst h'
        exact hp tf dd hpend
    · simp only [hle, if_neg, if_false]
      exact ⟨hp, hw⟩

theorem saveInv_step (delay : Nat) (s : SaveState) (t : Nat) (e : DraftEv)
    (h : SaveInv s) : SaveInv (saveStep delay s t e) := by
  have hf := saveInv_fireDue s t h
  obtain ⟨hp, hw⟩ := hf
  unfold saveStep
  cases e with
  | draftChange d =>
    refine ⟨fun tf d' h' => ?_, hw⟩
    by_cases hc : hasContent d = true
    · simp only [hc, if_pos] at h'
      obtain ⟨-, h2⟩ := Prod.mk.injEq .. ▸ Option.some_inj.mp h'
      exact h2 ▸ hc
    · simp only [hc, if_neg, if_false] at h'
      exact Option.noConfusion h'
  | imagesChange d =>
    refine ⟨fun tf d' h' => ?_, fun w hw' hsrc => ?_⟩
    · by_cases hc : hasContent d = true
      · simp only [hc, if_pos] at h'
        obtain ⟨-, h2⟩ := Prod.mk.injEq .. ▸ Option.some_inj.mp h'
        exact h2 ▸ hc
      · simp only [hc, if_neg, if_false] at h'
        exact Option.noConfusion h'
    · simp only [List.mem_append, List.mem_singleton] at hw'
      rcases hw' with h' | h'
      · exact hw w h' hsrc
      · subst h'
        simp only at hsrc
        exact absurd hsrc (by simp)

theorem saveInv_flush (s : SaveState) (h : SaveInv s) :
    SaveInv (flushPending s) := by
  obtain ⟨hp, hw⟩ := h
  unfold flushPending
  cases hpend : s.pending with
  | none => exact ⟨hp, hw⟩
  | some td =>
    obtain ⟨tf, dd⟩ := td
    refine ⟨by simp, fun w hw' hsrc => ?_⟩
    rcases List.mem_append.mp hw' with h' | h'
    · exact hw w h' hsrc
    · simp only [List.mem_singleton] at h'
      subst h'
      exact hp tf dd hpend

theorem saveInv_foldl (delay : Nat) (evs : List (Nat × DraftEv))
    (s : SaveState) (h : SaveInv s) :
    SaveInv (evs.foldl (fun s te => saveStep delay s te.1 te.2) s) := by
  induction evs generalizing s with
  | nil => exact h
  | cons te rest ih =>
    exact ih _ (saveInv_step delay s te.1 te.2 h)

/-- C7 (amended): the debounced autosave path never writes an all-empty
draft — every write produced by a debounce timer carries a draft passing the
`hasContent` guard, over every event sequence.  The unguarded immediate
image-list path can write an all-empty draft; see the counterexample. -/
theorem debounce_writes_have_content
    (delay : Nat) (evs : List (Nat × DraftEv)) (w : Write)
    (hw : w ∈ (runAutosave delay evs).writes)
    (hsrc : w.src = WriteSrc.debounce) :
    hasContent w.payload = true := by
  have hinv : SaveInv (runAutosave delay evs) := by
    unfold runAutosave
    exact saveInv_flush _
      (saveInv_foldl delay evs ⟨none, []⟩ ⟨by simp, by simp⟩)
  exact hinv.2 w hw hsrc

/-- Witness for C7 (amended): the one debounce write of a concrete run has
content. -/
theorem debounce_writes_have_content_witness :
    hasContent (⟨40, ⟨"b", "", [], []⟩, .debounce⟩ : Write).payload = true :=
  debounce_writes_have_content 30
    [(0, .draftChange ⟨"a", "", [], []⟩), (10, .draftChange ⟨"b", "", [], []⟩)]
    ⟨40, ⟨"b", "", [], []⟩, .debounce⟩ (by decide) (by decide)

/-- C7 counterexample: the immediate image-list effect has no content guard —
a run consisting of one image-list change to the all-empty draft (e.g. the
user removes the last image with every other field empty) writes the
all-empty draft to the store. -/
theorem autosave_writes_empty_draft_cex :
    (runAutosave 30 [(5, .imagesChange emptyDraft)]).writes =
      [⟨5, emptyDraft, .immediate⟩] ∧
    hasContent emptyDraft = false := by
  decide

/-! ### Idempotence of `cleanHtml`: token lemmas -/

theorem dropWhile_ws_append (w z : List Char) (hw : WsStr w) :
    (w ++ z).dropWhile isJsWs = z.dropWhile isJsWs := by
  induction w with
  | nil => rfl
  | cons c cs ih =>
    have hc : isJsWs c = true := hw c (by simp)
    have hcs : WsStr cs := fun d hd => hw d (by simp [hd])
    simp [List.dropWhile_cons, hc, ih hcs]

theorem dropWhile_head_false (c : Char) (z : List Char) (h : isJsWs c = false) :
    (c :: z).dropWhile isJsWs = c :: z := by
  simp [List.dropWhile_cons, h]

theorem WsStr_takeWhile (l : List Char) : WsStr (l.takeWhile isJsWs) :=
  fun c hc => List.mem_takeWhile_imp hc

theorem WsStr_nil : WsStr [] := fun c hc => absurd hc (List.not_mem_nil c)

theorem WsStr_append (u v : List Char) (hu : WsStr u) (hv : WsStr v) :
    WsStr (u ++ v) := by
  intro c hc
  rcases List.mem_append.mp hc with h | h
  · exact hu c h
  · exact hv c h

theorem pOpen?_sc (u r : List Char) (h : POpenStr u) :
    pOpen? (u ++ r) = some r := by
  obtain ⟨c, hc, rfl⟩ := h
  simp [pOpen?, hc]

theorem pOpen?_conv (l r : List Char) (h : pOpen? l = some r) :
    ∃ u, POpenStr u ∧ l = u ++ r := by
  unfold pOpen? at h
  split at h
  · rename_i x c rest
    split at h
    · cases h
      rename_i hp
      exact ⟨['<', c, '>'], ⟨c, hp, rfl⟩, rfl⟩
    · exact Option.noConfusion h
  · exact Option.noConfusion h

theorem pClose?_sc (u r : List Char) (h : PCloseStr u) :
    pClose? (u ++ r) = some r := by
  obtain ⟨c, hc, rfl⟩ := h
  simp [pClose?, hc]

theorem pClose?_conv (l r : List Char) (h : pClose? l = some r) :
    ∃ u, PCloseStr u ∧ l = u ++ r := by
  unfold pClose? at h
  split at h
  · rename_i x c rest
    split at h
    · cases h
      rename_i hp
      exact ⟨['<', '/', c, '>'], ⟨c, hp, rfl⟩, rfl⟩
    · exact Option.noConfusion h
  · exact Option.noConfusion h

theorem nbsp?_sc (u r : List Char) (h : NbspStr u) :
    nbsp? (u ++ r) = some r := by
  obtain ⟨c1, c2, c3, c4, h1, h2, h3, h4, rfl⟩ := h
  simp [nbsp?, h1, h2, h3, h4]

theorem nbsp?_conv (l r : List Char) (h : nbsp? l = some r) :
    ∃ u, NbspStr u ∧ l = u ++ r := by
  unfold nbsp? at h
  split at h
  · rename_i x c1 c2 c3 c4 rest
    split at h
    · cases h
      rename_i hp
      simp only [Bool.and_eq_true] at hp
      exact ⟨['&', c1, c2, c3, c4, ';'],
        ⟨c1, c2, c3, c4, hp.1.1.1, hp.1.1.2, hp.1.2, hp.2, rfl⟩, rfl⟩
    · exact Option.noConfusion h
  · exact Option.noConfusion h

theorem brTag?_sc (u r : List Char) (h : BrStr u) :
    brTag? (u ++ r) = some r := by
  obtain ⟨b, rr, w, opt, hb, hr, hw, hopt, rfl⟩ := h
  rcases hopt with rfl | rfl
  · simp only [brTag?, List.cons_append, List.append_assoc]
    rw [if_pos (by simp [hb, hr])]
    rw [dropWhile_ws_append w _ hw]
    rfl
  · simp only [brTag?, List.cons_append, List.append_assoc]
    rw [if_pos (by simp [hb, hr])]
    rw [dropWhile_ws_append w _ hw]
    rfl

theorem brTag?_conv (l r : List Char) (h : brTag? l = some r) :
    ∃ u, BrStr u ∧ l = u ++ r := by
  unfold brTag? at h
  split at h
  case h_2 => exact Option.noConfusion h
  case h_1 x b rr rest =>
    split at h
    case isFalse => exact Option.noConfusion h
    case isTrue hbr =>
      simp only [Bool.and_eq_true] at hbr
      have hsplit := List.takeWhile_append_dropWhile isJsWs rest
      split at h
      · cases h
        rename_i heq
        refine ⟨'<' :: b :: rr :: (rest.takeWhile isJsWs ++ ['/', '>']),
          ⟨b, rr, rest.takeWhile isJsWs, ['/', '>'], hbr.1, hbr.2,
            WsStr_takeWhile rest, Or.inr rfl, rfl⟩, ?_⟩
        have hr2 : rest = rest.takeWhile isJsWs ++ ('/' :: '>' :: r) := by
          rw [heq] at hsplit
          exact hsplit.symm
        conv_lhs => rw [hr2]
        simp
      · cases h
        rename_i heq
        refine ⟨'<' :: b :: rr :: (rest.takeWhile isJsWs ++ ['>']),
          ⟨b, rr, rest.takeWhile isJsWs, ['>'], hbr.1, hbr.2,
            WsStr_takeWhile rest, Or.inl rfl, rfl⟩, ?_⟩
        have hr2 : rest = rest.takeWhile isJsWs ++ ('>' :: r) := by
          rw [heq] at hsplit
          exact hsplit.symm
        conv_lhs => rw [hr2]
        simp
      · exact Option.noConfusion h

theorem dropWhile_headnw (v : List Char) (hv : HeadNW v) :
    v.dropWhile isJsWs = v := by
  cases v with
  | nil => rfl
  | cons c rest => exact dropWhile_head_false c rest (hv c rest rfl)

theorem nbsp?_ne (c : Char) (z : List Char) (hc : c ≠ '&') :
    nbsp? (c :: z) = none := by
  unfold nbsp?
  split
  · rename_i heq
    simp only [List.cons.injEq] at heq
    exact absurd heq.1 hc
  · rfl

theorem brTag?_ne1 (c : Char) (z : List Char) (hc : c ≠ '<') :
    brTag? (c :: z) = none := by
  unfold brTag?
  split
  · rename_i heq
    simp only [List.cons.injEq] at heq
    exact absurd heq.1 hc
  · rfl

theorem brTag?_ne2 (c₁ c₂ : Char) (z : List Char) (h : isBch c₂ = false) :
    brTag? (c₁ :: c₂ :: z) = none := by
  unfold brTag?
  split
  · rename_i heq
    simp only [List.cons.injEq] at heq
    rw [if_neg]
    rw [heq.2.1] at h
    simp [h]
  · rfl

theorem eStep?_ws (c : Char) (t : List Char) (h : isJsWs c = true) :
    eStep? (c :: t) = some t := by
  simp [eStep?, h]

theorem eStep?_nbsp (u t : List Char) (h : NbspStr u) :
    eStep? (u ++ t) = some t := by
  have hn := nbsp?_sc u t h
  obtain ⟨c1, c2, c3, c4, h1, h2, h3, h4, rfl⟩ := h
  simp only [List.cons_append, List.nil_append] at hn ⊢
  simp only [eStep?]
  rw [if_neg (by decide)]
  rw [hn]

theorem eStep?_br (u t : List Char) (h : BrStr u) :
    eStep? (u ++ t) = some t := by
  have hb := brTag?_sc u t h
  obtain ⟨b, r, w, opt, h1, h2, h3, h4, rfl⟩ := h
  simp only [List.cons_append, List.nil_append] at hb ⊢
  simp only [eStep?]
  rw [if_neg (by decide)]
  rw [nbsp?_ne _ _ (by decide), hb]

theorem eStep?_pclose (u t : List Char) (h : PCloseStr u) :
    eStep? (u ++ t) = none := by
  obtain ⟨c, hc, rfl⟩ := h
  simp only [List.cons_append, List.nil_append]
  simp only [eStep?]
  rw [if_neg (by decide)]
  rw [nbsp?_ne _ _ (by decide), brTag?_ne2 _ _ _ (by decide)]

theorem eLoop_step (l r : List Char) (h : eStep? l = some r) :
    eLoop l = eLoop r := by
  rw [eLoop]
  split
  · rename_i r' h'
    rw [h] at h'
    cases h'
    rfl
  · rename_i h'
    rw [h'] at h
    exact Option.noConfusion h

theorem eLoop_stop (l : List Char) (h : eStep? l = none) : eLoop l = l := by
  rw [eLoop]
  split
  · rename_i r' h'
    rw [h'] at h
    exact Option.noConfusion h
  · rfl

theorem eLoop_emid (m z : List Char) (h : EMid m) :
    eLoop (m ++ z) = eLoop z := by
  induction h with
  | nil => rfl
  | ws c rest hc _ ih =>
    rw [List.cons_append, eLoop_step _ _ (eStep?_ws c _ hc), ih]
  | nbsp u rest hu _ ih =>
    rw [List.append_assoc, eLoop_step _ _ (eStep?_nbsp u _ hu), ih]
  | br u rest hu _ ih =>
    rw [List.append_assoc, eLoop_step _ _ (eStep?_br u _ hu), ih]

theorem emptyishP?_sc (u r : List Char) (h : EmptyishStr u) :
    emptyishP? (u ++ r) = some r := by
  obtain ⟨op, mid, cl, hop, hmid, hcl, rfl⟩ := h
  unfold emptyishP?
  rw [List.append_assoc, List.append_assoc, pOpen?_sc _ _ hop]
  show pClose? (eLoop (mid ++ (cl ++ r))) = some r
  rw [eLoop_emid _ _ hmid, eLoop_stop _ (eStep?_pclose _ _ hcl)]
  exact pClose?_sc _ _ hcl

theorem eStep?_conv (l r : List Char) (h : eStep? l = some r) :
    (∃ c, isJsWs c = true ∧ l = c :: r) ∨
    (∃ u, NbspStr u ∧ l = u ++ r) ∨ (∃ u, BrStr u ∧ l = u ++ r) := by
  unfold eStep? at h
  split at h
  · exact Option.noConfusion h
  · rename_i c rest
    split at h
    · rename_i hws
      cases h
      exact Or.inl ⟨c, hws, rfl⟩
    · revert h
      split
      · intro h
        cases h
        rename_i hn
        exact Or.inr (Or.inl (nbsp?_conv _ _ hn))
      · intro h
        exact Or.inr (Or.inr (brTag?_conv _ _ h))

theorem eLoop_conv (l : List Char) : ∃ m, EMid m ∧ l = m ++ eLoop l := by
  rcases hs : eStep? l with - | r
  · exact ⟨[], EMid.nil, by rw [eLoop_stop _ hs]; rfl⟩
  · have hlt := eStep?_lt _ _ hs
    obtain ⟨m, hm, hr⟩ := eLoop_conv r
    rw [eLoop_step _ _ hs]
    rcases eStep?_conv _ _ hs with ⟨c, hc, rfl⟩ | ⟨u, hu, rfl⟩ | ⟨u, hu, rfl⟩
    · exact ⟨c :: m, EMid.ws c m hc hm, by rw [List.cons_append, ← hr]⟩
    · exact ⟨u ++ m, EMid.nbsp u m hu hm, by rw [List.append_assoc, ← hr]⟩
    · exact ⟨u ++ m, EMid.br u m hu hm, by rw [List.append_assoc, ← hr]⟩
termination_by l.length

theorem emptyishP?_conv (l r : List Char) (h : emptyishP? l = some r) :
    ∃ u, EmptyishStr u ∧ l = u ++ r := by
  unfold emptyishP? at h
  split at h
  · exact Option.noConfusion h
  · rename_i r1 h1
    obtain ⟨op, hop, hl⟩ := pOpen?_conv _ _ h1
    obtain ⟨mid, hmid, hm⟩ := eLoop_conv r1
    obtain ⟨cl, hcl, hc⟩ := pClose?_conv _ _ h
    refine ⟨op ++ (mid ++ cl), ⟨op, mid, cl, hop, hmid, hcl, by simp⟩, ?_⟩
    rw [hl, hm, hc]
    simp

theorem emptyP?_sc (u v : List Char) (hu : XStr u) (hv : HeadNW v) :
    emptyP? (u ++ v) = some v := by
  obtain ⟨op, w1, cl, w2, hop, hw1, hcl, hw2, rfl⟩ := hu
  unfold emptyP?
  simp only [List.append_assoc]
  rw [pOpen?_sc _ _ hop]
  obtain ⟨c, hc, rfl⟩ := hcl
  show (match pClose? ((w1 ++ (['<', '/', c, '>'] ++ (w2 ++ v))).dropWhile
    isJsWs) with
    | none => none
    | some r2 => some (r2.dropWhile isJsWs)) = some v
  rw [dropWhile_ws_append _ _ hw1]
  simp only [List.cons_append, List.nil_append]
  rw [dropWhile_head_false _ _ (by decide)]
  have hpc : pClose? ('<' :: '/' :: c :: '>' :: (w2 ++ v)) = some (w2 ++ v) := by
    have := pClose?_sc ['<', '/', c, '>'] (w2 ++ v) ⟨c, hc, rfl⟩
    simpa using this
  rw [hpc]
  show some ((w2 ++ v).dropWhile isJsWs) = some v
  rw [dropWhile_ws_append _ _ hw2, dropWhile_headnw _ hv]

theorem emptyP?_sc_weak (u v : List Char) (hu : XStr u) :
    ∃ r, emptyP? (u ++ v) = some r := by
  obtain ⟨op, w1, cl, w2, hop, hw1, hcl, hw2, rfl⟩ := hu
  unfold emptyP?
  simp only [List.append_assoc]
  rw [pOpen?_sc _ _ hop]
  obtain ⟨c, hc, rfl⟩ := hcl
  show ∃ r, (match pClose? ((w1 ++ (['<', '/', c, '>'] ++ (w2 ++ v))).dropWhile
    isJsWs) with
    | none => none
    | some r2 => some (r2.dropWhile isJsWs)) = some r
  rw [dropWhile_ws_append _ _ hw1]
  simp only [List.cons_append, List.nil_append]
  rw [dropWhile_head_false _ _ (by decide)]
  have hpc : pClose? ('<' :: '/' :: c :: '>' :: (w2 ++ v)) = some (w2 ++ v) := by
    have := pClose?_sc ['<', '/', c, '>'] (w2 ++ v) ⟨c, hc, rfl⟩
    simpa using this
  rw [hpc]
  exact ⟨_, rfl⟩

theorem emptyP?_conv (l r : List Char) (h : emptyP? l = some r) :
    ∃ u, XStr u ∧ l = u ++ r := by
  unfold emptyP? at h
  split at h
  · exact Option.noConfusion h
  · rename_i r1 h1
    split at h
    · exact Option.noConfusion h
    · rename_i r2 h2
      cases h
      obtain ⟨op, hop, hl⟩ := pOpen?_conv _ _ h1
      obtain ⟨cl, hcl, hc⟩ := pClose?_conv _ _ h2
      refine ⟨op ++ (r1.takeWhile isJsWs ++ (cl ++ r2.takeWhile isJsWs)),
        ⟨op, r1.takeWhile isJsWs, cl, r2.takeWhile isJsWs, hop,
          WsStr_takeWhile r1, hcl, WsStr_takeWhile r2, rfl⟩, ?_⟩
      rw [hl]
      simp only [List.append_assoc, List.append_cancel_left_eq]
      conv_lhs => rw [← List.takeWhile_append_dropWhile isJsWs r1]
      rw [hc]
      simp only [List.append_assoc, List.append_cancel_left_eq,
        List.append_cancel_left_eq]
      conv_lhs => rw [← List.takeWhile_append_dropWhile isJsWs r2]

theorem brTok?_sc (u v : List Char) (hu : BrTokStr u) (hv : HeadNW v) :
    brTok? (u ++ v) = some v := by
  obtain ⟨b, w, hb, hw, rfl⟩ := hu
  unfold brTok?
  rw [List.append_assoc, brTag?_sc _ _ hb]
  show some ((w ++ v).dropWhile isJsWs) = some v
  rw [dropWhile_ws_append _ _ hw, dropWhile_headnw _ hv]

theorem brTok?_sc_weak (u v : List Char) (hu : BrTokStr u) :
    ∃ r, brTok? (u ++ v) = some r := by
  obtain ⟨b, w, hb, hw, rfl⟩ := hu
  unfold brTok?
  rw [List.append_assoc, brTag?_sc _ _ hb]
  exact ⟨_, rfl⟩

theorem brTok?_conv (l r : List Char) (h : brTok? l = some r) :
    ∃ u, BrTokStr u ∧ l = u ++ r := by
  unfold brTok? at h
  split at h
  · exact Option.noConfusion h
  · rename_i r1 h1
    cases h
    obtain ⟨b, hb, hl⟩ := brTag?_conv _ _ h1
    refine ⟨b ++ r1.takeWhile isJsWs, ⟨b, r1.takeWhile isJsWs, hb,
      WsStr_takeWhile r1, rfl⟩, ?_⟩
    rw [hl]
    simp only [List.append_assoc, List.append_cancel_left_eq]
    conv_lhs => rw [← List.takeWhile_append_dropWhile isJsWs r1]

theorem xRun_step (l r : List Char) (h : emptyP? l = some r) :
    xRun l = ((xRun r).1 + 1, (xRun r).2) := by
  rw [xRun]
  split
  · rename_i r' h'
    rw [h] at h'
    cases h'
    rfl
  · rename_i h'
    rw [h'] at h
    exact Option.noConfusion h

theorem xRun_stop (l : List Char) (h : emptyP? l = none) : xRun l = (0, l) := by
  rw [xRun]
  split
  · rename_i r' h'
    rw [h'] at h
    exact Option.noConfusion h
  · rfl

theorem xRun_rest_none (l : List Char) : emptyP? ((xRun l).2) = none := by
  rcases h : emptyP? l with - | r
  · rw [xRun_stop _ h]
    exact h
  · have := emptyP?_lt _ _ h
    rw [xRun_step _ _ h]
    exact xRun_rest_none r
termination_by l.length

theorem xRun_decomp (l : List Char) :
    ∃ m, XChain (xRun l).1 m ∧ l = m ++ (xRun l).2 := by
  rcases h : emptyP? l with - | r
  · rw [xRun_stop _ h]
    exact ⟨[], XChain.zero, rfl⟩
  · have hlt := emptyP?_lt _ _ h
    obtain ⟨m, hm, hrm⟩ := xRun_decomp r
    obtain ⟨u, hu, rfl⟩ := emptyP?_conv _ _ h
    rw [xRun_step _ _ h]
    exact ⟨u ++ m, XChain.succ _ u m hu hm, by rw [List.append_assoc, ← hrm]⟩
termination_by l.length

theorem brRun_step (l r : List Char) (h : brTok? l = some r) :
    brRun l = ((brRun r).1 + 1, (brRun r).2) := by
  rw [brRun]
  split
  · rename_i r' h'
    rw [h] at h'
    cases h'
    rfl
  · rename_i h'
    rw [h'] at h
    exact Option.noConfusion h

theorem brRun_stop (l : List Char) (h : brTok? l = none) : brRun l = (0, l) := by
  rw [brRun]
  split
  · rename_i r' h'
    rw [h'] at h
    exact Option.noConfusion h
  · rfl

theorem brRun_rest_none (l : List Char) : brTok? ((brRun l).2) = none := by
  rcases h : brTok? l with - | r
  · rw [brRun_stop _ h]
    exact h
  · have := brTok?_lt _ _ h
    rw [brRun_step _ _ h]
    exact brRun_rest_none r
termination_by l.length

theorem brRun_decomp (l : List Char) :
    ∃ m, BrChain (brRun l).1 m ∧ l = m ++ (brRun l).2 := by
  rcases h : brTok? l with - | r
  · rw [brRun_stop _ h]
    exact ⟨[], BrChain.zero, rfl⟩
  · have hlt := brTok?_lt _ _ h
    obtain ⟨m, hm, hrm⟩ := brRun_decomp r
    obtain ⟨u, hu, rfl⟩ := brTok?_conv _ _ h
    rw [brRun_step _ _ h]
    exact ⟨u ++ m, BrChain.succ _ u m hu hm, by rw [List.append_assoc, ← hrm]⟩
termination_by l.length

theorem headNW_lt (z : List Char) : HeadNW ('<' :: z) := by
  intro c rest heq
  injection heq with h1 h2
  subst h1
  decide

theorem HeadNW_nil : HeadNW ([] : List Char) :=
  fun c rest h => absurd h (by simp)

theorem XStr_head (v : List Char) (h : XStr v) : ∃ z, v = '<' :: z := by
  obtain ⟨op, w1, cl, w2, hop, -, -, -, rfl⟩ := h
  obtain ⟨c, hc, rfl⟩ := hop
  exact ⟨_, rfl⟩

theorem XPlus_head (v : List Char) (h : XPlus v) : ∃ z, v = '<' :: z := by
  induction h with
  | one u hu => exact XStr_head u hu
  | cons u v hu _ _ =>
    obtain ⟨z, rfl⟩ := XStr_head u hu
    exact ⟨z ++ v, rfl⟩

theorem BrStr_head (v : List Char) (h : BrStr v) : ∃ z, v = '<' :: z := by
  obtain ⟨b, r, w, opt, -, -, -, -, rfl⟩ := h
  exact ⟨_, rfl⟩

theorem BrTokStr_head (v : List Char) (h : BrTokStr v) : ∃ z, v = '<' :: z := by
  obtain ⟨b, w, hb, -, rfl⟩ := h
  obtain ⟨z, rfl⟩ := BrStr_head b hb
  exact ⟨z ++ w, rfl⟩

theorem BrTokPlus_head (v : List Char) (h : BrTokPlus v) : ∃ z, v = '<' :: z := by
  induction h with
  | one u hu => exact BrTokStr_head u hu
  | cons u v hu _ _ =>
    obtain ⟨z, rfl⟩ := BrTokStr_head u hu
    exact ⟨z ++ v, rfl⟩

theorem emptyP?_nil : emptyP? [] = none := rfl

theorem brTok?_nil : brTok? [] = none := rfl

theorem xRun_ge2 (u v r : List Char) (hu : XStr u) (hv : XStr v) :
    2 ≤ (xRun (u ++ (v ++ r))).1 := by
  obtain ⟨z, hz⟩ := XStr_head v hv
  have hh : HeadNW (v ++ r) := by
    rw [hz]
    exact headNW_lt _
  rw [xRun_step _ _ (emptyP?_sc u (v ++ r) hu hh)]
  obtain ⟨r', hr'⟩ := emptyP?_sc_weak v r hv
  rw [xRun_step _ _ hr']
  simp only
  omega

theorem brRun_ge2 (u v r : List Char) (hu : BrTokStr u) (hv : BrTokStr v) :
    2 ≤ (brRun (u ++ (v ++ r))).1 := by
  obtain ⟨z, hz⟩ := BrTokStr_head v hv
  have hh : HeadNW (v ++ r) := by
    rw [hz]
    exact headNW_lt _
  rw [brRun_step _ _ (brTok?_sc u (v ++ r) hu hh)]
  obtain ⟨r', hr'⟩ := brTok?_sc_weak v r hv
  rw [brRun_step _ _ hr']
  simp only
  omega

theorem xRun_xplus (l : List Char) (h : XPlus l) :
    1 ≤ (xRun l).1 ∧ (xRun l).2 = [] := by
  induction h with
  | one u hu =>
    have h1 := emptyP?_sc u [] hu HeadNW_nil
    rw [List.append_nil] at h1
    rw [xRun_step _ _ h1, xRun_stop [] emptyP?_nil]
    simp
  | cons u v hu hv ih =>
    obtain ⟨z, hz⟩ := XPlus_head v hv
    have hh : HeadNW v := by
      rw [hz]
      exact headNW_lt _
    rw [xRun_step _ _ (emptyP?_sc u v hu hh)]
    exact ⟨by omega, ih.2⟩

theorem XChain_zero_nil (m : List Char) (h : XChain 0 m) : m = [] := by
  cases h
  rfl

theorem XChain_xplus (n : Nat) (m : List Char) (h : XChain n m) (hn : 1 ≤ n) :
    XPlus m := by
  induction h with
  | zero => omega
  | succ n u v hu hv ih =>
    rcases Nat.eq_zero_or_pos n with rfl | hpos
    · rw [XChain_zero_nil v hv, List.append_nil]
      exact XPlus.one u hu
    · exact XPlus.cons u v hu (ih hpos)

theorem XChain_x2 (n : Nat) (m : List Char) (h : XChain (n + 2) m) : X2Str m := by
  cases h with
  | succ _ u v hu hv =>
    exact ⟨u, v, hu, XChain_xplus _ _ hv (by omega), rfl⟩

theorem BrChain_zero_nil (m : List Char) (h : BrChain 0 m) : m = [] := by
  cases h
  rfl

theorem BrChain_brplus (n : Nat) (m : List Char) (h : BrChain n m)
    (hn : 1 ≤ n) : BrTokPlus m := by
  induction h with
  | zero => omega
  | succ n u v hu hv ih =>
    rcases Nat.eq_zero_or_pos n with rfl | hpos
    · rw [BrChain_zero_nil v hv, List.append_nil]
      exact BrTokPlus.one u hu
    · exact BrTokPlus.cons u v hu (ih hpos)

theorem BrChain_br2 (n : Nat) (m : List Char) (h : BrChain (n + 2) m) :
    Br2Str m := by
  cases h with
  | succ _ u v hu hv =>
    exact ⟨u, v, hu, BrChain_brplus _ _ hv (by omega), rfl⟩

theorem isXRunToEnd_iff (l : List Char) : isXRunToEnd l = true ↔ XPlus l := by
  constructor
  · intro h
    unfold isXRunToEnd at h
    simp only [Bool.and_eq_true, decide_eq_true_eq, List.isEmpty_iff] at h
    obtain ⟨m, hm, hl⟩ := xRun_decomp l
    rw [h.2, List.append_nil] at hl
    subst hl
    exact XChain_xplus _ _ hm h.1
  · intro h
    have h2 := xRun_xplus l h
    unfold isXRunToEnd
    simp [h2.1, h2.2]

theorem Emptyish_getLast (u : List Char) (h : EmptyishStr u) :
    u.getLast? = some '>' := by
  obtain ⟨op, mid, cl, hop, hmid, hcl, rfl⟩ := h
  obtain ⟨c, hc, rfl⟩ := hcl
  have : (['<', '/', c, '>'] : List Char) = ['<', '/', c] ++ ['>'] := rfl
  rw [this, ← List.append_assoc, List.getLast?_concat]

theorem WsStr_last (w : List Char) (hw : WsStr w) (c : Char)
    (h : w.getLast? = some c) : isJsWs c = true := by
  have : c ∈ w := List.mem_of_mem_getLast? h
  exact hw c this

theorem XStr_getLast (v : List Char) (h : XStr v) :
    ∃ c, v.getLast? = some c ∧ (c = '>' ∨ isJsWs c = true) := by
  obtain ⟨op, w1, cl, w2, hop, hw1, hcl, hw2, rfl⟩ := h
  rcases List.eq_nil_or_concat w2 with rfl | ⟨w2a, c, rfl⟩
  · obtain ⟨c, hc, rfl⟩ := hcl
    refine ⟨'>', ?_, Or.inl rfl⟩
    simp [List.getLast?_append]
  · refine ⟨c, ?_, Or.inr (hw2 c (by simp))⟩
    simp [List.getLast?_append]

theorem XPlus_getLast (v : List Char) (h : XPlus v) :
    ∃ c, v.getLast? = some c ∧ (c = '>' ∨ isJsWs c = true) := by
  induction h with
  | one u hu => exact XStr_getLast u hu
  | cons u v hu hv ih =>
    obtain ⟨c, hc, hor⟩ := ih
    obtain ⟨z, rfl⟩ := XPlus_head v hv
    refine ⟨c, ?_, hor⟩
    rw [List.getLast?_append_of_ne_nil u (by simp)]
    exact hc

theorem BrTokStr_getLast (v : List Char) (h : BrTokStr v) :
    ∃ c, v.getLast? = some c ∧ (c = '>' ∨ isJsWs c = true) := by
  obtain ⟨b, w, hb, hw, rfl⟩ := h
  rcases List.eq_nil_or_concat w with rfl | ⟨wa, c, rfl⟩
  · obtain ⟨b2, r2, w2, opt, hb2, hr2, hw2, hopt, rfl⟩ := hb
    refine ⟨'>', ?_, Or.inl rfl⟩
    rcases hopt with rfl | rfl
    · simp [List.getLast?_append, List.getLast?_cons]
    · simp [List.getLast?_append, List.getLast?_cons]
  · refine ⟨c, ?_, Or.inr (hw c (by simp))⟩
    simp [List.getLast?_append]

theorem repl1_nil : repl1 [] = [] := by
  rw [repl1]

theorem repl1_step (c : Char) (cs r : List Char)
    (h : emptyishP? (c :: cs) = some r) :
    repl1 (c :: cs) = canonP ++ repl1 r := by
  rw [repl1]
  split
  · rename_i r' h'
    rw [h] at h'
    cases h'
    rfl
  · rename_i h'
    rw [h'] at h
    exact Option.noConfusion h

theorem repl1_keep (c : Char) (cs : List Char)
    (h : emptyishP? (c :: cs) = none) :
    repl1 (c :: cs) = c :: repl1 cs := by
  rw [repl1]
  split
  · rename_i r' h'
    rw [h'] at h
    exact Option.noConfusion h
  · rfl

theorem repl2_nil : repl2 [] = [] := by
  rw [repl2]

theorem repl2_step (c : Char) (cs : List Char)
    (h : 2 ≤ (xRun (c :: cs)).1) :
    repl2 (c :: cs) = canonP ++ repl2 ((xRun (c :: cs)).2) := by
  rw [repl2]
  rw [dif_pos h]

theorem repl2_keep (c : Char) (cs : List Char)
    (h : ¬2 ≤ (xRun (c :: cs)).1) :
    repl2 (c :: cs) = c :: repl2 cs := by
  rw [repl2]
  rw [dif_neg h]

theorem repl5_nil : repl5 [] = [] := by
  rw [repl5]

theorem repl5_step (c : Char) (cs : List Char)
    (h : 2 ≤ (brRun (c :: cs)).1) :
    repl5 (c :: cs) = canonBr ++ repl5 ((brRun (c :: cs)).2) := by
  rw [repl5]
  rw [dif_pos h]

theorem repl5_keep (c : Char) (cs : List Char)
    (h : ¬2 ≤ (brRun (c :: cs)).1) :
    repl5 (c :: cs) = c :: repl5 cs := by
  rw [repl5]
  rw [dif_neg h]

theorem subst_repl1 (l : List Char) : Subst EmptyishStr canonP l (repl1 l) := by
  rcases l with - | ⟨c, cs⟩
  · rw [repl1_nil]
    exact Subst.nil
  · rcases h : emptyishP? (c :: cs) with - | r
    · rw [repl1_keep _ _ h]
      exact Subst.keep c cs _ (subst_repl1 cs)
    · have hlt := emptyishP?_lt _ _ h
      rw [repl1_step _ _ _ h]
      obtain ⟨u, hu, heq⟩ := emptyishP?_conv _ _ h
      rw [heq]
      exact Subst.repl u r _ hu (subst_repl1 r)
termination_by l.length
decreasing_by
  · simp
  · simp only [List.length_cons] at hlt ⊢
    omega

theorem subst_repl2 (l : List Char) : Subst X2Str canonP l (repl2 l) := by
  rcases l with - | ⟨c, cs⟩
  · rw [repl2_nil]
    exact Subst.nil
  · by_cases h : 2 ≤ (xRun (c :: cs)).1
    · rw [repl2_step _ _ h]
      obtain ⟨m, hm, heq⟩ := xRun_decomp (c :: cs)
      obtain ⟨k, hk⟩ : ∃ k, (xRun (c :: cs)).1 = k + 2 :=
        ⟨(xRun (c :: cs)).1 - 2, by omega⟩
      rw [hk] at hm
      have hrest : ((xRun (c :: cs)).2).length < (c :: cs).length :=
        xRun_rest_lt _ (by omega)
      generalize hr : (xRun (c :: cs)).2 = rest at heq hrest ⊢
      rw [heq]
      exact Subst.repl m rest _ (XChain_x2 _ _ hm) (subst_repl2 rest)
    · rw [repl2_keep _ _ h]
      exact Subst.keep c cs _ (subst_repl2 cs)
termination_by l.length
decreasing_by
  · exact hrest
  · simp

theorem subst_repl5 (l : List Char) : Subst Br2Str canonBr l (repl5 l) := by
  rcases l with - | ⟨c, cs⟩
  · rw [repl5_nil]
    exact Subst.nil
  · by_cases h : 2 ≤ (brRun (c :: cs)).1
    · rw [repl5_step _ _ h]
      obtain ⟨m, hm, heq⟩ := brRun_decomp (c :: cs)
      obtain ⟨k, hk⟩ : ∃ k, (brRun (c :: cs)).1 = k + 2 :=
        ⟨(brRun (c :: cs)).1 - 2, by omega⟩
      rw [hk] at hm
      have hrest : ((brRun (c :: cs)).2).length < (c :: cs).length :=
        brRun_rest_lt _ (by omega)
      generalize hr : (brRun (c :: cs)).2 = rest at heq hrest ⊢
      rw [heq]
      exact Subst.repl m rest _ (BrChain_br2 _ _ hm) (subst_repl5 rest)
    · rw [repl5_keep _ _ h]
      exact Subst.keep c cs _ (subst_repl5 cs)
termination_by l.length
decreasing_by
  · exact hrest
  · simp

/-- Where a prefix of the output of a substitution lives: either it is
verbatim source text, or it runs into a first replaced zone. -/
theorem subst_cut (W : List Char → Prop) (ρ : List Char) (s t : List Char)
    (hst : Subst W ρ s t) :
    ∀ u r, t = u ++ r →
      (∃ r', s = u ++ r' ∧ Subst W ρ r' r) ∨
      (∃ a u₁ m s₁ t₁, u = a ++ u₁ ∧ u₁ ≠ [] ∧ s = a ++ (m ++ s₁) ∧ W m ∧
        t = a ++ (ρ ++ t₁) ∧ Subst W ρ s₁ t₁ ∧ u₁ ++ r = ρ ++ t₁) := by
  induction hst with
  | nil =>
    intro u r h
    obtain ⟨hu, hr⟩ := List.append_eq_nil.mp h.symm
    subst hu
    subst hr
    left
    exact ⟨[], rfl, Subst.nil⟩
  | keep c s' t' hs ih =>
    intro u r h
    rcases u with - | ⟨uc, u'⟩
    · left
      refine ⟨c :: s', rfl, ?_⟩
      simp only [List.nil_append] at h
      rw [← h]
      exact Subst.keep c s' t' hs
    · rw [List.cons_append] at h
      injection h with h1 h2
      subst h1
      rcases ih u' r h2 with ⟨r', hs', hsub⟩ | hzone
      · left
        exact ⟨r', by rw [hs', List.cons_append], hsub⟩
      · obtain ⟨a, u₁, m, s₁, t₁, hu, hne, hs', hW, ht', hsub, heq⟩ := hzone
        right
        exact ⟨c :: a, u₁, m, s₁, t₁, by rw [hu, List.cons_append], hne,
          by rw [hs', List.cons_append], hW, by rw [ht', List.cons_append],
          hsub, heq⟩
  | repl m s' t' hm hs ih =>
    intro u r h
    rcases u with - | ⟨uc, u'⟩
    · left
      refine ⟨m ++ s', rfl, ?_⟩
      simp only [List.nil_append] at h
      rw [← h]
      exact Subst.repl m s' t' hm hs
    · right
      exact ⟨[], uc :: u', m, s', t', rfl, by simp, rfl, hm, rfl, hs, h.symm⟩

/-- A suffix of the output of a substitution starts either at a source
position or strictly inside a zone. -/
theorem subst_drop (W : List Char → Prop) (ρ : List Char) (s t : List Char)
    (hst : Subst W ρ s t) :
    ∀ i, (∃ j, Subst W ρ (s.drop j) (t.drop i)) ∨
      (∃ k t₁ s₁, 0 < k ∧ k < ρ.length ∧ t.drop i = ρ.drop k ++ t₁ ∧
        Subst W ρ s₁ t₁) := by
  induction hst with
  | nil =>
    intro i
    left
    refine ⟨0, ?_⟩
    simp only [List.drop_nil]
    exact Subst.nil
  | keep c s' t' hs ih =>
    intro i
    rcases i with - | i'
    · left
      exact ⟨0, Subst.keep c s' t' hs⟩
    · rcases ih i' with ⟨j, hj⟩ | ⟨k, t₁, s₁, hk0, hklt, ht₁, hsub⟩
      · left
        exact ⟨j + 1, by simpa using hj⟩
      · right
        exact ⟨k, t₁, s₁, hk0, hklt, by simpa using ht₁, hsub⟩
  | repl m s' t' hm hs ih =>
    intro i
    rcases Nat.eq_zero_or_pos i with rfl | hpos
    · left
      exact ⟨0, Subst.repl m s' t' hm hs⟩
    · by_cases hlt : i < ρ.length
      · right
        refine ⟨i, t', s', hpos, hlt, ?_, hs⟩
        rw [List.drop_append_of_le_length (by omega)]
      · have hieq : i = ρ.length + (i - ρ.length) := by omega
        rcases ih (i - ρ.length) with ⟨j, hj⟩ | ⟨k, t₁, s₁, hk0, hklt, ht₁, hsub⟩
        · left
          refine ⟨m.length + j, ?_⟩
          rw [List.drop_append, hieq, List.drop_append]
          exact hj
        · right
          refine ⟨k, t₁, s₁, hk0, hklt, ?_, hsub⟩
          rw [hieq, List.drop_append]
          exact ht₁

/-! ### Character analysis of the regex languages

First two characters of each word class, and where `'<'` can occur inside
a word. -/

theorem EmptyishStr_head2 (u : List Char) (h : EmptyishStr u) :
    ∃ c z, u = '<' :: c :: z ∧ isPch c = true := by
  obtain ⟨op, mid, cl, hop, -, -, rfl⟩ := h
  obtain ⟨c, hc, rfl⟩ := hop
  exact ⟨c, '>' :: (mid ++ cl), by simp, hc⟩

theorem XStr_head2 (u : List Char) (h : XStr u) :
    ∃ c z, u = '<' :: c :: z ∧ isPch c = true := by
  obtain ⟨op, w1, cl, w2, hop, -, -, -, rfl⟩ := h
  obtain ⟨c, hc, rfl⟩ := hop
  exact ⟨c, '>' :: (w1 ++ (cl ++ w2)), by simp, hc⟩

theorem XPlus_head2 (u : List Char) (h : XPlus u) :
    ∃ c z, u = '<' :: c :: z ∧ isPch c = true := by
  induction h with
  | one u hu => exact XStr_head2 u hu
  | cons u v hu _ _ =>
    obtain ⟨c, z, rfl, hc⟩ := XStr_head2 u hu
    exact ⟨c, z ++ v, by simp, hc⟩

theorem BrStr_head2 (u : List Char) (h : BrStr u) :
    ∃ c z, u = '<' :: c :: z ∧ isBch c = true := by
  obtain ⟨b, r, w, opt, hb, -, -, -, rfl⟩ := h
  exact ⟨b, r :: (w ++ opt), rfl, hb⟩

theorem BrTokStr_head2 (u : List Char) (h : BrTokStr u) :
    ∃ c z, u = '<' :: c :: z ∧ isBch c = true := by
  obtain ⟨b, w, hb, -, rfl⟩ := h
  obtain ⟨c, z, rfl, hc⟩ := BrStr_head2 b hb
  exact ⟨c, z ++ w, by simp, hc⟩

theorem WsStr_not_lt (w : List Char) (hw : WsStr w) : '<' ∉ w :=
  fun hc => absurd (hw '<' hc) (by decide)

theorem NbspStr_not_lt (u : List Char) (h : NbspStr u) : '<' ∉ u := by
  obtain ⟨c1, c2, c3, c4, h1, h2, h3, h4, rfl⟩ := h
  intro hc
  simp only [List.mem_cons, List.not_mem_nil, or_false] at hc
  rcases hc with h' | h' | h' | h' | h' | h'
  · exact absurd h' (by decide)
  · rw [← h'] at h1
    exact absurd h1 (by decide)
  · rw [← h'] at h2
    exact absurd h2 (by decide)
  · rw [← h'] at h3
    exact absurd h3 (by decide)
  · rw [← h'] at h4
    exact absurd h4 (by decide)
  · exact absurd h' (by decide)

theorem BrStr_tail_not_lt (u zz : List Char) (h : BrStr u)
    (heq : u = '<' :: zz) : '<' ∉ zz := by
  obtain ⟨b, r, w, opt, hb, hr, hw, hopt, rfl⟩ := h
  injection heq with h1 h2
  rw [← h2]
  intro hmem
  simp only [List.mem_cons, List.mem_append] at hmem
  rcases hmem with h' | h' | h' | h'
  · rw [← h'] at hb
    exact absurd hb (by decide)
  · rw [← h'] at hr
    exact absurd hr (by decide)
  · exact absurd (hw '<' h') (by decide)
  · rcases hopt with rfl | rfl
    · exact absurd h' (by decide)
    · exact absurd h' (by decide)

theorem BrStr_lt_split (u a z : List Char) (h : BrStr u)
    (heq : u = a ++ '<' :: z) : a = [] := by
  obtain ⟨zz, hzz⟩ := BrStr_head u h
  rcases a with - | ⟨a0, a'⟩
  · rfl
  · exfalso
    rw [hzz, List.cons_append] at heq
    injection heq with h1 h2
    refine BrStr_tail_not_lt u zz h hzz ?_
    rw [h2]
    simp

/-- Inside a word of the group `(\s|&nbsp;|<br\s*\/?>)*`, every occurrence
of `'<'` opens a `<br>` tag: the next character is `b` or `B`. -/
theorem EMid_lt_split (m : List Char) (h : EMid m) :
    ∀ a z, m = a ++ '<' :: z → ∃ b z2, z = b :: z2 ∧ isBch b = true := by
  induction h with
  | nil =>
    intro a z heq
    exact absurd heq (by simp)
  | ws c rest hc _ ih =>
    intro a z heq
    rcases a with - | ⟨a0, a'⟩
    · simp only [List.nil_append] at heq
      injection heq with h1 h2
      rw [h1] at hc
      exact absurd hc (by decide)
    · rw [List.cons_append] at heq
      injection heq with h1 h2
      exact ih a' z h2
  | nbsp u rest hu _ ih =>
    intro a z heq
    rcases List.append_eq_append_iff.mp heq with ⟨a', ha', hr'⟩ | ⟨c', hu', hr'⟩
    · exact ih a' z hr'
    · rcases c' with - | ⟨c0, c''⟩
      · simp only [List.nil_append] at hr'
        exact ih [] z (by rw [List.nil_append, ← hr'])
      · rw [List.cons_append] at hr'
        injection hr' with h1 h2
        exfalso
        refine NbspStr_not_lt u hu ?_
        rw [hu', ← h1]
        simp
  | br u rest hu _ ih =>
    intro a z heq
    rcases List.append_eq_append_iff.mp heq with ⟨a', ha', hr'⟩ | ⟨c', hu', hr'⟩
    · exact ih a' z hr'
    · rcases c' with - | ⟨c0, c''⟩
      · simp only [List.nil_append] at hr'
        exact ih [] z (by rw [List.nil_append, ← hr'])
      · rw [List.cons_append] at hr'
        injection hr' with h1 h2
        rw [← h1] at hu'
        have ha0 : a = [] := BrStr_lt_split u a c'' hu hu'
        subst ha0
        simp only [List.nil_append] at hu'
        obtain ⟨b, r, w, opt, hb, -, -, -, hstruct⟩ := hu
        rw [hstruct] at hu'
        injection hu' with h3 h4
        refine ⟨b, r :: (w ++ opt) ++ rest, ?_, hb⟩
        rw [h2, ← h4]
        simp

theorem EMid_getLast (m : List Char) (h : EMid m) :
    ∀ c, m.getLast? = some c → isJsWs c = true ∨ c = ';' ∨ c = '>' := by
  induction h with
  | nil =>
    intro c hc
    exact absurd hc (by simp)
  | ws c0 rest h0 hrest ih =>
    intro c hc
    by_cases hr : rest = []
    · subst hr
      simp only [List.getLast?_singleton, Option.some.injEq] at hc
      rw [← hc]
      exact Or.inl h0
    · rw [show c0 :: rest = [c0] ++ rest from rfl,
        List.getLast?_append_of_ne_nil [c0] hr] at hc
      exact ih c hc
  | nbsp u rest hu hrest ih =>
    intro c hc
    by_cases hr : rest = []
    · subst hr
      rw [List.append_nil] at hc
      obtain ⟨c1, c2, c3, c4, -, -, -, -, rfl⟩ := hu
      rw [show (['&', c1, c2, c3, c4, ';'] : List Char)
        = ['&', c1, c2, c3, c4] ++ [';'] from rfl, List.getLast?_concat] at hc
      injection hc with hc
      exact Or.inr (Or.inl hc.symm)
    · rw [List.getLast?_append_of_ne_nil u hr] at hc
      exact ih c hc
  | br u rest hu hrest ih =>
    intro c hc
    by_cases hr : rest = []
    · subst hr
      rw [List.append_nil] at hc
      obtain ⟨b, r, w, opt, -, -, -, hopt, rfl⟩ := hu
      rcases hopt with rfl | rfl
      · rw [show '<' :: b :: r :: (w ++ ['>'])
          = ('<' :: b :: r :: w) ++ ['>'] by simp, List.getLast?_concat] at hc
        injection hc with hc
        exact Or.inr (Or.inr hc.symm)
      · rw [show '<' :: b :: r :: (w ++ ['/', '>'])
          = ('<' :: b :: r :: w ++ ['/']) ++ ['>'] by simp,
          List.getLast?_concat] at hc
        injection hc with hc
        exact Or.inr (Or.inr hc.symm)
    · rw [List.getLast?_append_of_ne_nil u hr] at hc
      exact ih c hc

theorem isPch_cases (c : Char) (h : isPch c = true) : c = 'p' ∨ c = 'P' := by
  simp only [isPch, Bool.or_eq_true, decide_eq_true_eq] at h
  exact h

theorem isBch_cases (c : Char) (h : isBch c = true) : c = 'b' ∨ c = 'B' := by
  simp only [isBch, Bool.or_eq_true, decide_eq_true_eq] at h
  exact h

theorem isPch_not_isBch (c : Char) (h : isPch c = true) : isBch c = false := by
  rcases isPch_cases c h with rfl | rfl
  · decide
  · decide

theorem isBch_not_isPch (c : Char) (h : isBch c = true) : isPch c = false := by
  rcases isBch_cases c h with rfl | rfl
  · decide
  · decide

theorem isPch_ne_lt (c : Char) (h : isPch c = true) : c ≠ '<' := by
  rcases isPch_cases c h with rfl | rfl
  · decide
  · decide

theorem isBch_ne_lt (c : Char) (h : isBch c = true) : c ≠ '<' := by
  rcases isBch_cases c h with rfl | rfl
  · decide
  · decide

/-! ### Pair safety

`PairSafe P l` says no occurrence of `'<'` inside `l` is directly followed
by a character of class `P`; `PairHeadSafe P l` allows it at the head
only. -/

def PairSafe (P : Char → Bool) (l : List Char) : Prop :=
  ∀ a d z, l = a ++ '<' :: d :: z → P d = false

def PairHeadSafe (P : Char → Bool) (l : List Char) : Prop :=
  ∀ a d z, l = a ++ '<' :: d :: z → P d = true → a = []

theorem pairSafe_of_not_mem (P : Char → Bool) (l : List Char)
    (h : '<' ∉ l) : PairSafe P l := by
  intro a d z heq
  exfalso
  refine h ?_
  rw [heq]
  simp

theorem pairSafe_append (P : Char → Bool) (p q : List Char)
    (hp : PairSafe P p) (hq : PairSafe P q)
    (hpl : p.getLast? ≠ some '<') : PairSafe P (p ++ q) := by
  intro a d z heq
  rcases List.append_eq_append_iff.mp heq with ⟨a', ha', hq'⟩ | ⟨c', hp', hc'⟩
  · exact hq a' d z hq'
  · rcases c' with - | ⟨c0, c''⟩
    · simp only [List.nil_append] at hc'
      exact hq [] d z hc'.symm
    · rw [List.cons_append] at hc'
      injection hc' with h1 h2
      rcases c'' with - | ⟨c1, c'''⟩
      · exfalso
        refine hpl ?_
        rw [hp', ← h1]
        exact List.getLast?_concat a
      · rw [List.cons_append] at h2
        injection h2 with h3 h4
        refine hp a d c''' ?_
        rw [hp', ← h1, ← h3]

theorem pairSafe_headSafe (P : Char → Bool) (l : List Char)
    (h : PairSafe P l) : PairHeadSafe P l := by
  intro a d z heq hd
  rw [h a d z heq] at hd
  exact Bool.noConfusion hd

theorem pairSafe_cons_notmem (P : Char → Bool) (c : Char) (tail : List Char)
    (hc : c ≠ '<') (h : '<' ∉ tail)
    (hd : ∀ d z, tail = '<' :: d :: z → P d = false) :
    PairSafe P (c :: tail) := by
  intro a d z heq
  rcases a with - | ⟨a0, a'⟩
  · simp only [List.nil_append] at heq
    injection heq with h1 h2
    exact absurd h1 hc
  · rw [List.cons_append] at heq
    injection heq with h1 h2
    exfalso
    refine h ?_
    rw [h2]
    simp

theorem pairSafe_triple (P : Char → Bool) (c : Char)
    (hc2 : c ≠ '<') (hc : P c = false) : PairSafe P ['<', c, '>'] := by
  intro a d z heq
  rcases a with - | ⟨a0, - | ⟨a1, - | ⟨a2, a3⟩⟩⟩
  · simp only [List.nil_append] at heq
    injection heq with h1 h2
    injection h2 with h3 h4
    rw [← h3]
    exact hc
  · simp only [List.cons_append, List.nil_append] at heq
    injection heq with h1 h2
    injection h2 with h3 h4
    exact absurd h3 hc2
  · simp only [List.cons_append, List.nil_append] at heq
    injection heq with h1 h2
    injection h2 with h3 h4
    injection h4 with h5 h6
    exact absurd h5 (by decide)
  · exfalso
    simp only [List.cons_append] at heq
    injection heq with h1 h2
    injection h2 with h3 h4
    injection h4 with h5 h6
    have := congrArg List.length h6
    simp at this
    omega

theorem pairSafe_pclose (P : Char → Bool) (cl : List Char)
    (h : PCloseStr cl) (hP : P '/' = false) : PairSafe P cl := by
  obtain ⟨cc, hcc, rfl⟩ := h
  intro a d z heq
  rcases a with - | ⟨a0, - | ⟨a1, - | ⟨a2, - | ⟨a3, a4⟩⟩⟩⟩
  · injection heq with h1 h2
    injection h2 with h3 h4
    rw [← h3]
    exact hP
  · simp only [List.cons_append, List.nil_append] at heq
    injection heq with h1 h2
    injection h2 with h3 h4
    exact absurd h3 (by decide)
  · simp only [List.cons_append, List.nil_append] at heq
    injection heq with h1 h2
    injection h2 with h3 h4
    injection h4 with h5 h6
    exact absurd (isPch_ne_lt cc hcc) (by rw [h5]; simp)
  · simp only [List.cons_append, List.nil_append] at heq
    injection heq with h1 h2
    injection h2 with h3 h4
    injection h4 with h5 h6
    injection h6 with h7 h8
    exact absurd h7 (by decide)
  · exfalso
    simp only [List.cons_append] at heq
    injection heq with h1 h2
    injection h2 with h3 h4
    injection h4 with h5 h6
    injection h6 with h7 h8
    have := congrArg List.length h8
    simp at this
    omega

theorem WsStr_getLast_ne_lt (w : List Char) (hw : WsStr w) :
    w.getLast? ≠ some '<' := by
  intro h
  exact absurd (WsStr_last w hw '<' h) (by decide)

theorem PClose_getLast (cl : List Char) (h : PCloseStr cl) :
    cl.getLast? = some '>' := by
  obtain ⟨cc, hcc, rfl⟩ := h
  rfl

theorem BrStr_getLast (u : List Char) (h : BrStr u) :
    u.getLast? = some '>' := by
  obtain ⟨b, r, w, opt, hb, hr, hw, hopt, rfl⟩ := h
  rcases hopt with rfl | rfl
  · rw [show '<' :: b :: r :: (w ++ ['>'])
      = ('<' :: b :: r :: w) ++ ['>'] by simp, List.getLast?_concat]
  · rw [show '<' :: b :: r :: (w ++ ['/', '>'])
      = ('<' :: b :: r :: w ++ ['/']) ++ ['>'] by simp, List.getLast?_concat]

theorem EMid_getLast_ne_lt (m : List Char) (h : EMid m) :
    m.getLast? ≠ some '<' := by
  intro hc
  rcases EMid_getLast m h '<' hc with h' | h' | h'
  · exact absurd h' (by decide)
  · exact absurd h' (by decide)
  · exact absurd h' (by decide)

theorem pairSafe_ws (P : Char → Bool) (w : List Char) (hw : WsStr w) :
    PairSafe P w :=
  pairSafe_of_not_mem P w (WsStr_not_lt w hw)

theorem pairSafe_lt_cons (P : Char → Bool) (tail : List Char)
    (h : '<' ∉ tail) (hd : ∀ d z, tail = d :: z → P d = false) :
    PairSafe P ('<' :: tail) := by
  intro a d z heq
  rcases a with - | ⟨a0, a'⟩
  · simp only [List.nil_append] at heq
    injection heq with h1 h2
    exact hd d z h2
  · rw [List.cons_append] at heq
    injection heq with h1 h2
    exfalso
    refine h ?_
    rw [h2]
    simp

theorem pairSafe_br (P : Char → Bool) (u : List Char) (hu : BrStr u)
    (hP : ∀ c, isBch c = true → P c = false) : PairSafe P u := by
  obtain ⟨b, r, w, opt, hb, hr, hw, hopt, rfl⟩ := hu
  refine pairSafe_lt_cons P _ ?_ ?_
  · exact BrStr_tail_not_lt ('<' :: b :: r :: (w ++ opt)) _
      ⟨b, r, w, opt, hb, hr, hw, hopt, rfl⟩ rfl
  · intro d z heq
    injection heq with h1 h2
    rw [← h1]
    exact hP b hb

theorem pairSafe_nbsp (P : Char → Bool) (u : List Char) (hu : NbspStr u) :
    PairSafe P u :=
  pairSafe_of_not_mem P u (NbspStr_not_lt u hu)

theorem NbspStr_getLast (u : List Char) (h : NbspStr u) :
    u.getLast? = some ';' := by
  obtain ⟨c1, c2, c3, c4, -, -, -, -, rfl⟩ := h
  rfl

/-- Inside an `EMid` word, `'<'` is never followed by a `p`-class
character. -/
theorem pairSafe_emid (m : List Char) (h : EMid m) : PairSafe isPch m := by
  induction h with
  | nil => exact pairSafe_of_not_mem _ [] (by simp)
  | ws c rest hc hrest ih =>
    rw [show c :: rest = [c] ++ rest from rfl]
    refine pairSafe_append _ [c] rest ?_ ih ?_
    · refine pairSafe_of_not_mem _ [c] ?_
      intro hmem
      simp only [List.mem_singleton] at hmem
      rw [← hmem] at hc
      exact absurd hc (by decide)
    · simp only [List.getLast?_singleton, ne_eq, Option.some.injEq]
      intro h'
      rw [h'] at hc
      exact absurd hc (by decide)
  | nbsp u rest hu hrest ih =>
    refine pairSafe_append _ u rest (pairSafe_nbsp _ u hu) ih ?_
    rw [NbspStr_getLast u hu]
    simp
  | br u rest hu hrest ih =>
    refine pairSafe_append _ u rest
      (pairSafe_br _ u hu (fun c hc => isBch_not_isPch c hc)) ih ?_
    rw [BrStr_getLast u hu]
    simp

theorem pairHeadSafe_op (P : Char → Bool) (c : Char) (tail : List Char)
    (hc2 : c ≠ '<') (htail : PairSafe P tail) :
    PairHeadSafe P ('<' :: c :: '>' :: tail) := by
  intro a d z heq hP
  rcases a with - | ⟨a0, - | ⟨a1, - | ⟨a2, a3⟩⟩⟩
  · rfl
  · simp only [List.cons_append, List.nil_append] at heq
    injection heq with h1 h2
    injection h2 with h3 h4
    exact absurd h3 hc2
  · simp only [List.cons_append, List.nil_append] at heq
    injection heq with h1 h2
    injection h2 with h3 h4
    injection h4 with h5 h6
    exact absurd h5 (by decide)
  · simp only [List.cons_append] at heq
    injection heq with h1 h2
    injection h2 with h3 h4
    injection h4 with h5 h6
    rw [htail a3 d z h6] at hP
    exact Bool.noConfusion hP

theorem pairSafe_xtail (P : Char → Bool) (w1 cl w2 : List Char)
    (hw1 : WsStr w1) (hcl : PCloseStr cl) (hw2 : WsStr w2)
    (hP : P '/' = false) : PairSafe P (w1 ++ (cl ++ w2)) := by
  refine pairSafe_append P w1 _ (pairSafe_ws P w1 hw1) ?_
    (WsStr_getLast_ne_lt w1 hw1)
  refine pairSafe_append P cl w2 (pairSafe_pclose P cl hcl hP)
    (pairSafe_ws P w2 hw2) ?_
  rw [PClose_getLast cl hcl]
  simp

theorem pairHeadSafe_X (u : List Char) (h : XStr u) : PairHeadSafe isPch u := by
  obtain ⟨op, w1, cl, w2, hop, hw1, hcl, hw2, rfl⟩ := h
  obtain ⟨c, hc, rfl⟩ := hop
  exact pairHeadSafe_op _ c _ (isPch_ne_lt c hc)
    (pairSafe_xtail _ w1 cl w2 hw1 hcl hw2 (by decide))

theorem pairHeadSafe_Emptyish (u : List Char) (h : EmptyishStr u) :
    PairHeadSafe isPch u := by
  obtain ⟨op, mid, cl, hop, hmid, hcl, rfl⟩ := h
  obtain ⟨c, hc, rfl⟩ := hop
  refine pairHeadSafe_op _ c _ (isPch_ne_lt c hc) ?_
  exact pairSafe_append _ mid cl (pairSafe_emid mid hmid)
    (pairSafe_pclose _ cl hcl (by decide)) (EMid_getLast_ne_lt mid hmid)

theorem pairSafe_X_isBch (u : List Char) (h : XStr u) : PairSafe isBch u := by
  obtain ⟨op, w1, cl, w2, hop, hw1, hcl, hw2, rfl⟩ := h
  obtain ⟨c, hc, rfl⟩ := hop
  refine pairSafe_append _ ['<', c, '>'] _
    (pairSafe_triple _ c (isPch_ne_lt c hc) (isPch_not_isBch c hc))
    (pairSafe_xtail _ w1 cl w2 hw1 hcl hw2 (by decide)) ?_
  rw [show (['<', c, '>'] : List Char) = ['<', c] ++ ['>'] from rfl,
    List.getLast?_concat]
  simp

theorem pairSafe_XPlus_isBch (u : List Char) (h : XPlus u) :
    PairSafe isBch u := by
  induction h with
  | one u hu => exact pairSafe_X_isBch u hu
  | cons u v hu hv ih =>
    refine pairSafe_append _ u v (pairSafe_X_isBch u hu) ih ?_
    obtain ⟨c, hc, hor⟩ := XStr_getLast u hu
    rw [hc]
    simp only [ne_eq, Option.some.injEq]
    intro h'
    rcases hor with h'' | h''
    · rw [h'] at h''
      exact absurd h'' (by decide)
    · rw [h'] at h''
      exact absurd h'' (by decide)

theorem pairHeadSafe_brTok (u : List Char) (h : BrTokStr u) :
    PairHeadSafe isBch u := by
  obtain ⟨b, w, hb, hw, rfl⟩ := h
  obtain ⟨bb, r, wb, opt, hbb, hr, hwb, hopt, rfl⟩ := hb
  intro a d z heq hP
  rcases a with - | ⟨a0, a'⟩
  · rfl
  · exfalso
    simp only [List.cons_append] at heq
    injection heq with h1 heq2
    have hmem : '<' ∈ bb :: r :: ((wb ++ opt) ++ w) := by
      rw [heq2]
      simp
    simp only [List.mem_cons, List.mem_append] at hmem
    rcases hmem with h' | h' | (h' | h') | h'
    · rw [← h'] at hbb
      exact absurd hbb (by decide)
    · rw [← h'] at hr
      exact absurd hr (by decide)
    · exact absurd (hwb '<' h') (by decide)
    · rcases hopt with rfl | rfl
      · exact absurd h' (by decide)
      · exact absurd h' (by decide)
    · exact absurd (hw '<' h') (by decide)

/-! ### Boundary contacts with the replacement zones -/

/-- An emptyish-paragraph word that is a prefix of `canonP ++ t` is exactly
`canonP`. -/
theorem Emptyish_prefix_canonP (u r t : List Char) (h : EmptyishStr u)
    (heq : u ++ r = canonP ++ t) : u = canonP := by
  obtain ⟨op, mid, cl, hop, hmid, hcl, rfl⟩ := h
  obtain ⟨c, hc, rfl⟩ := hop
  obtain ⟨c', hc', rfl⟩ := hcl
  simp only [canonP, List.cons_append, List.nil_append, List.append_assoc]
    at heq
  injection heq with h1 heq
  injection heq with h2 heq
  injection heq with h3 heq
  rcases mid with - | ⟨m0, mz⟩
  · simp only [List.nil_append] at heq
    injection heq with g1 heq
    injection heq with g2 heq
    injection heq with g3 heq
    rw [h2, g3]
    simp [canonP]
  · rw [List.cons_append] at heq
    injection heq with g1 heq
    obtain ⟨b, z2, hz2, hb⟩ := EMid_lt_split (m0 :: mz) hmid [] mz
      (by rw [g1]; rfl)
    rw [hz2, List.cons_append] at heq
    injection heq with g2 heq
    rw [g2] at hb
    exact absurd hb (by decide)

/-- A `<p>\s*<\/p>\s*` word that is a prefix of `canonP ++ t` is `canonP`
followed by whitespace. -/
theorem XStr_prefix_canonP (u r t : List Char) (h : XStr u)
    (heq : u ++ r = canonP ++ t) : ∃ w2, WsStr w2 ∧ u = canonP ++ w2 := by
  obtain ⟨op, w1, cl, w2, hop, hw1, hcl, hw2, rfl⟩ := h
  obtain ⟨c, hc, rfl⟩ := hop
  obtain ⟨c', hc', rfl⟩ := hcl
  simp only [canonP, List.cons_append, List.nil_append, List.append_assoc]
    at heq
  injection heq with h1 heq
  injection heq with h2 heq
  injection heq with h3 heq
  rcases w1 with - | ⟨x0, x1⟩
  · simp only [List.nil_append] at heq
    injection heq with g1 heq
    injection heq with g2 heq
    injection heq with g3 heq
    refine ⟨w2, hw2, ?_⟩
    rw [h2, g3]
    simp [canonP]
  · rw [List.cons_append] at heq
    injection heq with g1 heq
    have := hw1 x0 (by simp)
    rw [g1] at this
    exact absurd this (by decide)

/-- A `<br\s*\/?>` word that is a prefix of `canonBr ++ t` is exactly
`canonBr`. -/
theorem BrStr_prefix_canonBr (b r t : List Char) (h : BrStr b)
    (heq : b ++ r = canonBr ++ t) : b = canonBr := by
  obtain ⟨bb, rr, w, opt, hbb, hrr, hw, hopt, rfl⟩ := h
  simp only [canonBr, List.cons_append, List.nil_append, List.append_assoc]
    at heq
  injection heq with h1 heq
  injection heq with h2 heq
  injection heq with h3 heq
  rcases w with - | ⟨x0, x1⟩
  · simp only [List.nil_append] at heq
    rcases hopt with rfl | rfl
    · simp only [List.cons_append, List.nil_append] at heq
      injection heq with g1 g2
      exact absurd g1 (by decide)
    · rw [h2, h3]
      simp [canonBr]
  · rw [List.cons_append] at heq
    injection heq with g1 heq
    have := hw x0 (by simp)
    rw [g1] at this
    exact absurd this (by decide)

/-- A `<br\s*\/?>\s*` word that is a prefix of `canonBr ++ t` is `canonBr`
followed by whitespace. -/
theorem BrTok_prefix_canonBr (u r t : List Char) (h : BrTokStr u)
    (heq : u ++ r = canonBr ++ t) : ∃ w, WsStr w ∧ u = canonBr ++ w := by
  obtain ⟨b, w, hb, hw, rfl⟩ := h
  rw [List.append_assoc] at heq
  have hbc := BrStr_prefix_canonBr b (w ++ r) t hb heq
  exact ⟨w, hw, by rw [hbc]⟩

/-- No word that begins `'<'` followed by a `p`-class character starts
strictly inside the zone `"<p></p>"`. -/
theorem pzone_interior (k : Nat) (hk0 : 0 < k) (hk : k < 7) (c : Char)
    (w T : List Char) (hc : isPch c = true) :
    '<' :: c :: w ≠ canonP.drop k ++ T := by
  intro h
  interval_cases k
  · simp only [canonP, List.drop_succ_cons, List.drop_zero, List.cons_append,
      List.nil_append] at h
    injection h with h1 h2
    exact absurd h1 (by decide)
  · simp only [canonP, List.drop_succ_cons, List.drop_zero, List.cons_append,
      List.nil_append] at h
    injection h with h1 h2
    exact absurd h1 (by decide)
  · simp only [canonP, List.drop_succ_cons, List.drop_zero, List.cons_append,
      List.nil_append] at h
    injection h with h1 h2
    injection h2 with h3 h4
    rw [h3] at hc
    exact absurd hc (by decide)
  · simp only [canonP, List.drop_succ_cons, List.drop_zero, List.cons_append,
      List.nil_append] at h
    injection h with h1 h2
    exact absurd h1 (by decide)
  · simp only [canonP, List.drop_succ_cons, List.drop_zero, List.cons_append,
      List.nil_append] at h
    injection h with h1 h2
    exact absurd h1 (by decide)
  · simp only [canonP, List.drop_succ_cons, List.drop_zero, List.cons_append,
      List.nil_append] at h
    injection h with h1 h2
    exact absurd h1 (by decide)

/-- No word that begins `'<'` starts strictly inside the zone `"<br/>"`. -/
theorem brzone_interior (k : Nat) (hk0 : 0 < k) (hk : k < 5)
    (zz T : List Char) : '<' :: zz ≠ canonBr.drop k ++ T := by
  intro h
  interval_cases k
  · simp only [canonBr, List.drop_succ_cons, List.drop_zero, List.cons_append,
      List.nil_append] at h
    injection h with h1 h2
    exact absurd h1 (by decide)
  · simp only [canonBr, List.drop_succ_cons, List.drop_zero, List.cons_append,
      List.nil_append] at h
    injection h with h1 h2
    exact absurd h1 (by decide)
  · simp only [canonBr, List.drop_succ_cons, List.drop_zero, List.cons_append,
      List.nil_append] at h
    injection h with h1 h2
    exact absurd h1 (by decide)
  · simp only [canonBr, List.drop_succ_cons, List.drop_zero, List.cons_append,
      List.nil_append] at h
    injection h with h1 h2
    exact absurd h1 (by decide)

/-! ### Establishment of the normal forms -/

/-- After the first replace, every emptyish-paragraph occurrence is the
canonical `"<p></p>"`. -/
theorem canonEmptyish_repl1 (z : List Char) : CanonEmptyish (repl1 z) := by
  rcases z with - | ⟨c, cs⟩
  · rw [repl1_nil]
    intro i u r hu hocc
    obtain ⟨c', w, hshape, hc'⟩ := EmptyishStr_head2 u hu
    rw [List.drop_nil, hshape] at hocc
    exact absurd hocc.symm (by simp)
  · rcases h : emptyishP? (c :: cs) with - | rest
    · rw [repl1_keep _ _ h]
      intro i u r hu hocc
      rcases i with - | i'
      · simp only [List.drop_zero] at hocc
        have hsub : Subst EmptyishStr canonP (c :: cs) (c :: repl1 cs) :=
          Subst.keep c cs _ (subst_repl1 cs)
        rcases subst_cut _ _ _ _ hsub u r hocc with ⟨r', hs', -⟩ | hzone
        · rw [hs', emptyishP?_sc u r' hu] at h
          exact Option.noConfusion h
        · obtain ⟨a, u₁, m, s₁, t₁, hdecomp, hne, hs, hW, -, -, hcontact⟩ :=
            hzone
          rcases a with - | ⟨a0, a'⟩
          · simp only [List.nil_append] at hs
            rw [hs, emptyishP?_sc m s₁ hW] at h
            exact Option.noConfusion h
          · exfalso
            rcases u₁ with - | ⟨x0, - | ⟨x1, u₁'⟩⟩
            · exact hne rfl
            · simp only [canonP, List.cons_append, List.nil_append]
                at hcontact
              injection hcontact with g1 g2
              have hlast := Emptyish_getLast u hu
              rw [hdecomp, List.getLast?_concat] at hlast
              injection hlast with hlast
              rw [g1] at hlast
              exact absurd hlast (by decide)
            · simp only [canonP, List.cons_append, List.nil_append]
                at hcontact
              injection hcontact with g1 g2
              injection g2 with g3 g4
              have := pairHeadSafe_Emptyish u hu (a0 :: a') 'p' u₁'
                (by rw [hdecomp, g1, g3]) (by decide)
              exact List.noConfusion this
      · simp only [List.drop_succ_cons] at hocc
        exact canonEmptyish_repl1 cs i' u r hu hocc
    · have hlt := emptyishP?_lt _ _ h
      rw [repl1_step _ _ _ h]
      intro i u r hu hocc
      by_cases hge : 7 ≤ i
      · have h7 : i = canonP.length + (i - 7) := by
          simp [canonP]
          omega
        rw [h7, List.drop_append] at hocc
        exact canonEmptyish_repl1 rest (i - 7) u r hu hocc
      · rcases Nat.eq_zero_or_pos i with rfl | hpos
        · simp only [List.drop_zero] at hocc
          exact Emptyish_prefix_canonP u r _ hu hocc.symm
        · exfalso
          rw [List.drop_append_of_le_length (by simp [canonP]; omega)] at hocc
          obtain ⟨c', w, hshape, hc'⟩ := EmptyishStr_head2 u hu
          rw [hshape] at hocc
          refine pzone_interior i hpos (by omega) c' (w ++ r) (repl1 rest)
            hc' ?_
          rw [show '<' :: c' :: (w ++ r) = ('<' :: c' :: w) ++ r by simp]
          exact hocc.symm
termination_by z.length
decreasing_by
  · simp
  · simp only [List.length_cons] at hlt ⊢
    omega

theorem headNW_dropWhile (l : List Char) : HeadNW (l.dropWhile isJsWs) := by
  induction l with
  | nil => exact HeadNW_nil
  | cons c cs ih =>
    by_cases hc : isJsWs c = true
    · rw [List.dropWhile_cons, if_pos hc]
      exact ih
    · rw [List.dropWhile_cons, if_neg hc]
      intro c' rest' heq
      injection heq with h1 h2
      rw [← h1]
      rw [Bool.not_eq_true] at hc
      exact hc

theorem emptyP?_headNW (l r : List Char) (h : emptyP? l = some r) :
    HeadNW r := by
  unfold emptyP? at h
  split at h
  · exact Option.noConfusion h
  · split at h
    · exact Option.noConfusion h
    · cases h
      exact headNW_dropWhile _

theorem brTok?_headNW (l r : List Char) (h : brTok? l = some r) :
    HeadNW r := by
  unfold brTok? at h
  split at h
  · exact Option.noConfusion h
  · cases h
    exact headNW_dropWhile _

theorem xRun_rest_headNW (l : List Char) (h : 1 ≤ (xRun l).1) :
    HeadNW ((xRun l).2) := by
  rcases hs : emptyP? l with - | r
  · rw [xRun_stop _ hs] at h
    exact absurd h (by simp)
  · have hlt := emptyP?_lt _ _ hs
    rw [xRun_step _ _ hs]
    by_cases h1 : 1 ≤ (xRun r).1
    · exact xRun_rest_headNW r h1
    · rcases hr : emptyP? r with - | r'
      · rw [xRun_stop _ hr]
        exact emptyP?_headNW l r hs
      · rw [xRun_step _ _ hr] at h1
        simp at h1
termination_by l.length

theorem brRun_rest_headNW (l : List Char) (h : 1 ≤ (brRun l).1) :
    HeadNW ((brRun l).2) := by
  rcases hs : brTok? l with - | r
  · rw [brRun_stop _ hs] at h
    exact absurd h (by simp)
  · have hlt := brTok?_lt _ _ hs
    rw [brRun_step _ _ hs]
    by_cases h1 : 1 ≤ (brRun r).1
    · exact brRun_rest_headNW r h1
    · rcases hr : brTok? r with - | r'
      · rw [brRun_stop _ hr]
        exact brTok?_headNW l r hs
      · rw [brRun_step _ _ hr] at h1
        simp at h1
termination_by l.length

theorem XPlus_split_first (x : List Char) (h : XPlus x) :
    ∃ w x', XStr w ∧ x = w ++ x' := by
  cases h with
  | one _ hu => exact ⟨x, [], hu, by simp⟩
  | cons u v hu hv => exact ⟨u, v, hu, rfl⟩

theorem BrTokPlus_split_first (x : List Char) (h : BrTokPlus x) :
    ∃ w x', BrTokStr w ∧ x = w ++ x' := by
  cases h with
  | one _ hu => exact ⟨x, [], hu, by simp⟩
  | cons u v hu hv => exact ⟨u, v, hu, rfl⟩

/-- If no `<p>\s*<\/p>\s*` word starts the source, none starts the output
of the second replace. -/
theorem noXHead_repl2_of_none (rest : List Char) (hn : emptyP? rest = none)
    (v rr : List Char) (hv : XStr v) : repl2 rest ≠ v ++ rr := by
  intro heq
  rcases subst_cut _ _ _ _ (subst_repl2 rest) v rr heq with ⟨r', hs', -⟩ | hzone
  · obtain ⟨r2, hr2⟩ := emptyP?_sc_weak v r' hv
    rw [hs', hr2] at hn
    exact Option.noConfusion hn
  · obtain ⟨a, u₁, m, s₁, t₁, hdecomp, hne, hs, hW, -, -, hcontact⟩ := hzone
    obtain ⟨x1, x2, hx1, hx2, rfl⟩ := hW
    rcases a with - | ⟨a0, a'⟩
    · simp only [List.nil_append] at hs
      rw [List.append_assoc] at hs
      obtain ⟨r2, hr2⟩ := emptyP?_sc_weak x1 (x2 ++ s₁) hx1
      rw [hs, hr2] at hn
      exact Option.noConfusion hn
    · rcases u₁ with - | ⟨x0, - | ⟨xx1, u₁'⟩⟩
      · exact hne rfl
      · simp only [canonP, List.cons_append, List.nil_append] at hcontact
        injection hcontact with g1 g2
        obtain ⟨cl, hcl, hor⟩ := XStr_getLast v hv
        rw [hdecomp, List.getLast?_concat] at hcl
        injection hcl with hcl
        rw [g1] at hcl
        rcases hor with h'' | h''
        · rw [← hcl] at h''
          exact absurd h'' (by decide)
        · rw [← hcl] at h''
          exact absurd h'' (by decide)
      · simp only [canonP, List.cons_append, List.nil_append] at hcontact
        injection hcontact with g1 g2
        injection g2 with g3 g4
        have := pairHeadSafe_X v hv (a0 :: a') 'p' u₁'
          (by rw [hdecomp, g1, g3]) (by decide)
        exact List.noConfusion this

/-- If no `<br\s*\/?>\s*` word starts the source, none starts the output
of the fifth replace. -/
theorem noBrHead_repl5_of_none (rest : List Char) (hn : brTok? rest = none)
    (v rr : List Char) (hv : BrTokStr v) : repl5 rest ≠ v ++ rr := by
  intro heq
  rcases subst_cut _ _ _ _ (subst_repl5 rest) v rr heq with ⟨r', hs', -⟩ | hzone
  · obtain ⟨r2, hr2⟩ := brTok?_sc_weak v r' hv
    rw [hs', hr2] at hn
    exact Option.noConfusion hn
  · obtain ⟨a, u₁, m, s₁, t₁, hdecomp, hne, hs, hW, -, -, hcontact⟩ := hzone
    obtain ⟨x1, x2, hx1, hx2, rfl⟩ := hW
    rcases a with - | ⟨a0, a'⟩
    · simp only [List.nil_append] at hs
      rw [List.append_assoc] at hs
      obtain ⟨r2, hr2⟩ := brTok?_sc_weak x1 (x2 ++ s₁) hx1
      rw [hs, hr2] at hn
      exact Option.noConfusion hn
    · rcases u₁ with - | ⟨x0, - | ⟨xx1, u₁'⟩⟩
      · exact hne rfl
      · simp only [canonBr, List.cons_append, List.nil_append] at hcontact
        injection hcontact with g1 g2
        obtain ⟨cl, hcl, hor⟩ := BrTokStr_getLast v hv
        rw [hdecomp, List.getLast?_concat] at hcl
        injection hcl with hcl
        rw [g1] at hcl
        rcases hor with h'' | h''
        · rw [← hcl] at h''
          exact absurd h'' (by decide)
        · rw [← hcl] at h''
          exact absurd h'' (by decide)
      · simp only [canonBr, List.cons_append, List.nil_append] at hcontact
        injection hcontact with g1 g2
        injection g2 with g3 g4
        have := pairHeadSafe_brTok v hv (a0 :: a') 'b' u₁'
          (by rw [hdecomp, g1, g3]) (by decide)
        exact List.noConfusion this

/-- After the second replace, no two consecutive `<p>\s*<\/p>\s*` words
occur anywhere. -/
theorem noXX_repl2 (z : List Char) : NoXX (repl2 z) := by
  rcases z with - | ⟨c, cs⟩
  · rw [repl2_nil]
    intro i u v r hu hv hocc
    obtain ⟨c', w, hshape, hc'⟩ := XStr_head2 u hu
    rw [List.drop_nil, hshape] at hocc
    simp at hocc
  · by_cases hk : 2 ≤ (xRun (c :: cs)).1
    · have hrest : ((xRun (c :: cs)).2).length < (c :: cs).length :=
        xRun_rest_lt _ (by omega)
      have hnone : emptyP? ((xRun (c :: cs)).2) = none := xRun_rest_none _
      have hhead : HeadNW ((xRun (c :: cs)).2) := xRun_rest_headNW _ (by omega)
      rw [repl2_step _ _ hk]
      generalize hg : (xRun (c :: cs)).2 = rest at hrest hnone hhead ⊢
      intro i u v r hu hv hocc
      by_cases hge : 7 ≤ i
      · have h7 : i = canonP.length + (i - 7) := by
          simp [canonP]
          omega
        rw [h7, List.drop_append] at hocc
        exact noXX_repl2 rest (i - 7) u v r hu hv hocc
      · rcases Nat.eq_zero_or_pos i with rfl | hpos
        · simp only [List.drop_zero] at hocc
          obtain ⟨w2, hw2, hu2⟩ :=
            XStr_prefix_canonP u (v ++ r) (repl2 rest) hu hocc.symm
          rw [hu2] at hocc
          simp only [List.append_assoc, List.append_cancel_left_eq] at hocc
          rcases w2 with - | ⟨d, w2'⟩
          · simp only [List.nil_append] at hocc
            exact noXHead_repl2_of_none rest hnone v r hv hocc
          · rcases rest with - | ⟨r0, rest'⟩
            · rw [repl2_nil] at hocc
              simp at hocc
            · have hk0 : ¬ 2 ≤ (xRun (r0 :: rest')).1 := by
                rw [xRun_stop _ hnone]
                simp
              rw [repl2_keep _ _ hk0, List.cons_append] at hocc
              injection hocc with g1 g2
              have hws := hhead r0 rest' rfl
              rw [g1] at hws
              have hd := hw2 d (by simp)
              rw [hws] at hd
              exact Bool.noConfusion hd
        · rw [List.drop_append_of_le_length (by simp [canonP]; omega)] at hocc
          obtain ⟨c', w, hshape, hc'⟩ := XStr_head2 u hu
          rw [hshape] at hocc
          refine pzone_interior i hpos (by omega) c' (w ++ (v ++ r))
            (repl2 rest) hc' ?_
          rw [show '<' :: c' :: (w ++ (v ++ r))
            = ('<' :: c' :: w) ++ (v ++ r) by simp]
          exact hocc.symm
    · rw [repl2_keep _ _ hk]
      intro i u v r hu hv hocc
      rcases i with - | i'
      · simp only [List.drop_zero] at hocc
        have hsub : Subst X2Str canonP (c :: cs) (c :: repl2 cs) :=
          Subst.keep c cs _ (subst_repl2 cs)
        have hocc2 : c :: repl2 cs = (u ++ v) ++ r := by
          rw [hocc, List.append_assoc]
        rcases subst_cut _ _ _ _ hsub (u ++ v) r hocc2 with
          ⟨r', hs', -⟩ | hzone
        · rw [List.append_assoc] at hs'
          refine hk ?_
          rw [hs']
          exact xRun_ge2 u v r' hu hv
        · obtain ⟨a, u₁, m, s₁, t₁, hdecomp, hne, hs, hW, -, -, hcontact⟩ :=
            hzone
          obtain ⟨x1, x2, hx1, hx2, rfl⟩ := hW
          rcases a with - | ⟨a0, a'⟩
          · simp only [List.nil_append] at hs
            obtain ⟨xw, x2', hxw, hx2eq⟩ := XPlus_split_first x2 hx2
            refine hk ?_
            rw [hs, hx2eq]
            simp only [List.append_assoc]
            exact xRun_ge2 x1 xw _ hx1 hxw
          · rcases u₁ with - | ⟨x0, - | ⟨xx1, u₁'⟩⟩
            · exact hne rfl
            · simp only [canonP, List.cons_append, List.nil_append]
                at hcontact
              injection hcontact with g1 g2
              obtain ⟨cl, hcl, hor⟩ := XStr_getLast v hv
              have hcl2 : (u ++ v).getLast? = some cl := by
                obtain ⟨zv, hzv⟩ := XStr_head v hv
                rw [List.getLast?_append_of_ne_nil u (by rw [hzv]; simp)]
                exact hcl
              rw [hdecomp, List.getLast?_concat] at hcl2
              injection hcl2 with hcl2
              rw [g1] at hcl2
              rcases hor with h'' | h''
              · rw [← hcl2] at h''
                exact absurd h'' (by decide)
              · rw [← hcl2] at h''
                exact absurd h'' (by decide)
            · simp only [canonP, List.cons_append, List.nil_append]
                at hcontact
              injection hcontact with g1 g2
              injection g2 with g3 g4
              have hdecomp2 : u ++ v = (a0 :: a') ++ '<' :: 'p' :: u₁' := by
                rw [hdecomp, g1, g3]
              rcases List.append_eq_append_iff.mp hdecomp2 with
                ⟨a2, ha2, hv2⟩ | ⟨c2, hu2, hc2⟩
              · have ha0 := pairHeadSafe_X v hv a2 'p' u₁' hv2 (by decide)
                subst ha0
                simp only [List.append_nil] at ha2
                refine hk ?_
                have hs2 : c :: cs = u ++ (x1 ++ (x2 ++ s₁)) := by
                  rw [hs, ← ha2]
                  simp
                rw [hs2]
                exact xRun_ge2 u x1 _ hu hx1
              · rcases c2 with - | ⟨y0, - | ⟨y1, c2'⟩⟩
                · simp only [List.append_nil] at hu2
                  refine hk ?_
                  have hs2 : c :: cs = u ++ (x1 ++ (x2 ++ s₁)) := by
                    rw [hs, hu2]
                    simp
                  rw [hs2]
                  exact xRun_ge2 u x1 _ hu hx1
                · simp only [List.cons_append, List.nil_append] at hc2
                  injection hc2 with q1 q2
                  obtain ⟨zv, hzv⟩ := XStr_head v hv
                  rw [hzv] at q2
                  injection q2 with q3 q4
                  exact absurd q3 (by decide)
                · rw [List.cons_append, List.cons_append] at hc2
                  injection hc2 with q1 q2
                  injection q2 with q3 q4
                  have := pairHeadSafe_X u hu (a0 :: a') 'p' c2'
                    (by rw [hu2, ← q1, ← q3]) (by decide)
                  exact List.noConfusion this
      · simp only [List.drop_succ_cons] at hocc
        exact noXX_repl2 cs i' u v r hu hv hocc
termination_by z.length
decreasing_by
  · exact hrest
  · simp

/-- After the fifth replace, no two consecutive `<br\s*\/?>\s*` words
occur anywhere. -/
theorem noBrBr_repl5 (z : List Char) : NoBrBr (repl5 z) := by
  rcases z with - | ⟨c, cs⟩
  · rw [repl5_nil]
    intro i u v r hu hv hocc
    obtain ⟨c', w, hshape, hc'⟩ := BrTokStr_head2 u hu
    rw [List.drop_nil, hshape] at hocc
    simp at hocc
  · by_cases hk : 2 ≤ (brRun (c :: cs)).1
    · have hrest : ((brRun (c :: cs)).2).length < (c :: cs).length :=
        brRun_rest_lt _ (by omega)
      have hnone : brTok? ((brRun (c :: cs)).2) = none := brRun_rest_none _
      have hhead : HeadNW ((brRun (c :: cs)).2) := brRun_rest_headNW _ (by omega)
      rw [repl5_step _ _ hk]
      generalize hg : (brRun (c :: cs)).2 = rest at hrest hnone hhead ⊢
      intro i u v r hu hv hocc
      by_cases hge : 5 ≤ i
      · have h5 : i = canonBr.length + (i - 5) := by
          simp [canonBr]
          omega
        rw [h5, List.drop_append] at hocc
        exact noBrBr_repl5 rest (i - 5) u v r hu hv hocc
      · rcases Nat.eq_zero_or_pos i with rfl | hpos
        · simp only [List.drop_zero] at hocc
          obtain ⟨w2, hw2, hu2⟩ :=
            BrTok_prefix_canonBr u (v ++ r) (repl5 rest) hu hocc.symm
          rw [hu2] at hocc
          simp only [List.append_assoc, List.append_cancel_left_eq] at hocc
          rcases w2 with - | ⟨d, w2'⟩
          · simp only [List.nil_append] at hocc
            exact noBrHead_repl5_of_none rest hnone v r hv hocc
          · rcases rest with - | ⟨r0, rest'⟩
            · rw [repl5_nil] at hocc
              simp at hocc
            · have hk0 : ¬ 2 ≤ (brRun (r0 :: rest')).1 := by
                rw [brRun_stop _ hnone]
                simp
              rw [repl5_keep _ _ hk0, List.cons_append] at hocc
              injection hocc with g1 g2
              have hws := hhead r0 rest' rfl
              rw [g1] at hws
              have hd := hw2 d (by simp)
              rw [hws] at hd
              exact Bool.noConfusion hd
        · rw [List.drop_append_of_le_length (by simp [canonBr]; omega)]
            at hocc
          obtain ⟨zw, hshape⟩ := BrTokStr_head u hu
          rw [hshape] at hocc
          refine brzone_interior i hpos (by omega) (zw ++ (v ++ r))
            (repl5 rest) ?_
          rw [show '<' :: (zw ++ (v ++ r)) = ('<' :: zw) ++ (v ++ r) by simp]
          exact hocc.symm
    · rw [repl5_keep _ _ hk]
      intro i u v r hu hv hocc
      rcases i with - | i'
      · simp only [List.drop_zero] at hocc
        have hsub : Subst Br2Str canonBr (c :: cs) (c :: repl5 cs) :=
          Subst.keep c cs _ (subst_repl5 cs)
        have hocc2 : c :: repl5 cs = (u ++ v) ++ r := by
          rw [hocc, List.append_assoc]
        rcases subst_cut _ _ _ _ hsub (u ++ v) r hocc2 with
          ⟨r', hs', -⟩ | hzone
        · rw [List.append_assoc] at hs'
          refine hk ?_
          rw [hs']
          exact brRun_ge2 u v r' hu hv
        · obtain ⟨a, u₁, m, s₁, t₁, hdecomp, hne, hs, hW, -, -, hcontact⟩ :=
            hzone
          obtain ⟨x1, x2, hx1, hx2, rfl⟩ := hW
          rcases a with - | ⟨a0, a'⟩
          · simp only [List.nil_append] at hs
            obtain ⟨xw, x2', hxw, hx2eq⟩ := BrTokPlus_split_first x2 hx2
            refine hk ?_
            rw [hs, hx2eq]
            simp only [List.append_assoc]
            exact brRun_ge2 x1 xw _ hx1 hxw
          · rcases u₁ with - | ⟨x0, - | ⟨xx1, u₁'⟩⟩
            · exact hne rfl
            · simp only [canonBr, List.cons_append, List.nil_append]
                at hcontact
              injection hcontact with g1 g2
              obtain ⟨cl, hcl, hor⟩ := BrTokStr_getLast v hv
              have hcl2 : (u ++ v).getLast? = some cl := by
                obtain ⟨zv, hzv⟩ := BrTokStr_head v hv
                rw [List.getLast?_append_of_ne_nil u (by rw [hzv]; simp)]
                exact hcl
              rw [hdecomp, List.getLast?_concat] at hcl2
              injection hcl2 with hcl2
              rw [g1] at hcl2
              rcases hor with h'' | h''
              · rw [← hcl2] at h''
                exact absurd h'' (by decide)
              · rw [← hcl2] at h''
                exact absurd h'' (by decide)
            · simp only [canonBr, List.cons_append, List.nil_append]
                at hcontact
              injection hcontact with g1 g2
              injection g2 with g3 g4
              have hdecomp2 : u ++ v = (a0 :: a') ++ '<' :: 'b' :: u₁' := by
                rw [hdecomp, g1, g3]
              rcases List.append_eq_append_iff.mp hdecomp2 with
                ⟨a2, ha2, hv2⟩ | ⟨c2, hu2, hc2⟩
              · have ha0 := pairHeadSafe_brTok v hv a2 'b' u₁' hv2 (by decide)
                subst ha0
                simp only [List.append_nil] at ha2
                refine hk ?_
                have hs2 : c :: cs = u ++ (x1 ++ (x2 ++ s₁)) := by
                  rw [hs, ← ha2]
                  simp
                rw [hs2]
                exact brRun_ge2 u x1 _ hu hx1
              · rcases c2 with - | ⟨y0, - | ⟨y1, c2'⟩⟩
                · simp only [List.append_nil] at hu2
                  refine hk ?_
                  have hs2 : c :: cs = u ++ (x1 ++ (x2 ++ s₁)) := by
                    rw [hs, hu2]
                    simp
                  rw [hs2]
                  exact brRun_ge2 u x1 _ hu hx1
                · simp only [List.cons_append, List.nil_append] at hc2
                  injection hc2 with q1 q2
                  obtain ⟨zv, hzv⟩ := BrTokStr_head v hv
                  rw [hzv] at q2
                  injection q2 with q3 q4
                  exact absurd q3 (by decide)
                · rw [List.cons_append, List.cons_append] at hc2
                  injection hc2 with q1 q2
                  injection q2 with q3 q4
                  have := pairHeadSafe_brTok u hu (a0 :: a') 'b' c2'
                    (by rw [hu2, ← q1, ← q3]) (by decide)
                  exact List.noConfusion this
      · simp only [List.drop_succ_cons] at hocc
        exact noBrBr_repl5 cs i' u v r hu hv hocc
termination_by z.length
decreasing_by
  · exact hrest
  · simp

/-- After the third replace, no `<p>\s*<\/p>\s*` word remains at the
start. -/
theorem noXHead_dropXRun (l : List Char) : NoXHead (dropXRun l) := by
  intro u r hu heq
  obtain ⟨r2, hr2⟩ := emptyP?_sc_weak u r hu
  have hrn := xRun_rest_none l
  unfold dropXRun at heq
  rw [heq, hr2] at hrn
  exact Option.noConfusion hrn

theorem XPlus_append (a b : List Char) (ha : XPlus a) (hb : XPlus b) :
    XPlus (a ++ b) := by
  induction ha with
  | one u hu => exact XPlus.cons u b hu hb
  | cons u v hu hv ih =>
    rw [List.append_assoc]
    exact XPlus.cons u (v ++ b) hu ih

/-- The fourth replace deletes a trailing `(<p>\s*<\/p>\s*)+` run (or
nothing). -/
theorem repl4_decomp (l : List Char) :
    repl4 l = l ∨ ∃ d, XPlus d ∧ l = repl4 l ++ d := by
  induction l with
  | nil => exact Or.inl rfl
  | cons c cs ih =>
    by_cases hx : isXRunToEnd (c :: cs) = true
    · refine Or.inr ⟨c :: cs, (isXRunToEnd_iff _).mp hx, ?_⟩
      show c :: cs = (if isXRunToEnd (c :: cs) then [] else c :: repl4 cs)
        ++ (c :: cs)
      rw [if_pos hx]
      rfl
    · have hr : repl4 (c :: cs) = c :: repl4 cs := by
        show (if isXRunToEnd (c :: cs) then [] else c :: repl4 cs) = _
        rw [if_neg hx]
      rcases ih with h | ⟨d, hd, hcs⟩
      · rw [hr, h]
        exact Or.inl rfl
      · refine Or.inr ⟨d, hd, ?_⟩
        rw [hr]
        rw [List.cons_append, ← hcs]

/-- After the fourth replace, no suffix is a complete run. -/
theorem noXSuffix_repl4 (l : List Char) : NoXSuffix (repl4 l) := by
  induction l with
  | nil =>
    intro i h
    rw [show repl4 ([] : List Char) = [] from rfl, List.drop_nil] at h
    obtain ⟨zz, hzz⟩ := XPlus_head _ h
    exact absurd hzz (by simp)
  | cons c cs ih =>
    by_cases hx : isXRunToEnd (c :: cs) = true
    · intro i h
      have hr : repl4 (c :: cs) = [] := by
        show (if isXRunToEnd (c :: cs) then [] else c :: repl4 cs) = _
        rw [if_pos hx]
      rw [hr, List.drop_nil] at h
      obtain ⟨zz, hzz⟩ := XPlus_head _ h
      exact absurd hzz (by simp)
    · have hr : repl4 (c :: cs) = c :: repl4 cs := by
        show (if isXRunToEnd (c :: cs) then [] else c :: repl4 cs) = _
        rw [if_neg hx]
      intro i h
      rw [hr] at h
      rcases i with - | i'
      · rw [List.drop_zero] at h
        rcases repl4_decomp cs with h4 | ⟨d, hd, hcs⟩
        · rw [h4] at h
          exact hx ((isXRunToEnd_iff _).mpr h)
        · refine hx ((isXRunToEnd_iff _).mpr ?_)
          have : c :: cs = (c :: repl4 cs) ++ d := by
            rw [List.cons_append, ← hcs]
          rw [this]
          exact XPlus_append _ _ h hd
      · rw [List.drop_succ_cons] at h
        exact ih i' h

/-! ### Closure of the normal forms under the later pipeline stages -/

theorem EmptyishStr_ne_nil (u : List Char) (h : EmptyishStr u) : u ≠ [] := by
  obtain ⟨c, z, rfl, -⟩ := EmptyishStr_head2 u h
  simp

theorem XStr_ne_nil (u : List Char) (h : XStr u) : u ≠ [] := by
  obtain ⟨z, rfl⟩ := XStr_head u h
  simp

theorem BrTokStr_ne_nil (u : List Char) (h : BrTokStr u) : u ≠ [] := by
  obtain ⟨z, rfl⟩ := BrTokStr_head u h
  simp

theorem XPlus_ne_nil (u : List Char) (h : XPlus u) : u ≠ [] := by
  obtain ⟨z, rfl⟩ := XPlus_head u h
  simp

theorem drop_infix_eq (p y s : List Char) (i : Nat) (hi : i < y.length) :
    (p ++ (y ++ s)).drop (p.length + i) = y.drop i ++ s := by
  rw [List.drop_append, List.drop_append_of_le_length (by omega)]

theorem canonEmptyish_infix (p y s : List Char)
    (h : CanonEmptyish (p ++ (y ++ s))) : CanonEmptyish y := by
  intro i u r hu hocc
  have hne := EmptyishStr_ne_nil u hu
  have hi : i < y.length := by
    by_contra hge
    rw [List.drop_eq_nil_of_le (by omega)] at hocc
    rcases u with - | _
    · exact hne rfl
    · exact absurd hocc (by simp)
  refine h (p.length + i) u (r ++ s) hu ?_
  rw [drop_infix_eq p y s i hi, hocc, List.append_assoc]

theorem noXX_infix (p y s : List Char) (h : NoXX (p ++ (y ++ s))) :
    NoXX y := by
  intro i u v r hu hv hocc
  have hne := XStr_ne_nil u hu
  have hi : i < y.length := by
    by_contra hge
    rw [List.drop_eq_nil_of_le (by omega)] at hocc
    rcases u with - | _
    · exact hne rfl
    · exact absurd hocc (by simp)
  refine h (p.length + i) u v (r ++ s) hu hv ?_
  rw [drop_infix_eq p y s i hi, hocc]
  simp [List.append_assoc]

theorem noBrBr_infix (p y s : List Char) (h : NoBrBr (p ++ (y ++ s))) :
    NoBrBr y := by
  intro i u v r hu hv hocc
  have hne := BrTokStr_ne_nil u hu
  have hi : i < y.length := by
    by_contra hge
    rw [List.drop_eq_nil_of_le (by omega)] at hocc
    rcases u with - | _
    · exact hne rfl
    · exact absurd hocc (by simp)
  refine h (p.length + i) u v (r ++ s) hu hv ?_
  rw [drop_infix_eq p y s i hi, hocc]
  simp [List.append_assoc]

theorem noXHead_prefix (y d : List Char) (h : NoXHead (y ++ d)) :
    NoXHead y := by
  intro u r hu heq
  refine h u (r ++ d) hu ?_
  rw [heq, List.append_assoc]

theorem headNW_prefix (l y w : List Char) (h : HeadNW l) (heq : l = y ++ w) :
    HeadNW y := by
  intro c rest hy
  refine h c (rest ++ w) ?_
  rw [heq, hy, List.cons_append]

theorem XStr_append_ws (u w : List Char) (hu : XStr u) (hw : WsStr w) :
    XStr (u ++ w) := by
  obtain ⟨op, w1, cl, w2, hop, hw1, hcl, hw2, rfl⟩ := hu
  exact ⟨op, w1, cl, w2 ++ w, hop, hw1, hcl, WsStr_append w2 w hw2 hw,
    by simp [List.append_assoc]⟩

theorem XPlus_append_ws (u w : List Char) (hu : XPlus u) (hw : WsStr w) :
    XPlus (u ++ w) := by
  induction hu with
  | one v hv => exact XPlus.one _ (XStr_append_ws v w hv hw)
  | cons v v' hv hv' ih =>
    rw [List.append_assoc]
    exact XPlus.cons v (v' ++ w) hv ih

/-- The trim of a list with a non-whitespace head only removes a
whitespace tail. -/
theorem trim_tail_decomp (l : List Char) (hh : HeadNW l) :
    ∃ w, WsStr w ∧ l = jsTrimList l ++ w := by
  refine ⟨(l.reverse.takeWhile isJsWs).reverse, ?_, ?_⟩
  · intro c hc
    rw [List.mem_reverse] at hc
    exact List.mem_takeWhile_imp hc
  · unfold jsTrimList
    rw [dropWhile_headnw l hh]
    rw [← List.reverse_append, List.takeWhile_append_dropWhile,
      List.reverse_reverse]

theorem headNW_repl1 (l : List Char) (h : HeadNW l) : HeadNW (repl1 l) := by
  rcases l with - | ⟨c, cs⟩
  · rw [repl1_nil]
    exact HeadNW_nil
  · rcases hm : emptyishP? (c :: cs) with - | rest
    · rw [repl1_keep _ _ hm]
      intro c' rest' heq
      injection heq with h1 h2
      rw [← h1]
      exact h c cs rfl
    · rw [repl1_step _ _ _ hm]
      intro c' rest' heq
      simp only [canonP, List.cons_append] at heq
      injection heq with h1 h2
      rw [← h1]
      decide

theorem headNW_repl2 (l : List Char) (h : HeadNW l) : HeadNW (repl2 l) := by
  rcases l with - | ⟨c, cs⟩
  · rw [repl2_nil]
    exact HeadNW_nil
  · by_cases hk : 2 ≤ (xRun (c :: cs)).1
    · rw [repl2_step _ _ hk]
      intro c' rest' heq
      simp only [canonP, List.cons_append] at heq
      injection heq with h1 h2
      rw [← h1]
      decide
    · rw [repl2_keep _ _ hk]
      intro c' rest' heq
      injection heq with h1 h2
      rw [← h1]
      exact h c cs rfl

theorem headNW_repl5 (l : List Char) (h : HeadNW l) : HeadNW (repl5 l) := by
  rcases l with - | ⟨c, cs⟩
  · rw [repl5_nil]
    exact HeadNW_nil
  · by_cases hk : 2 ≤ (brRun (c :: cs)).1
    · rw [repl5_step _ _ hk]
      intro c' rest' heq
      simp only [canonBr, List.cons_append] at heq
      injection heq with h1 h2
      rw [← h1]
      decide
    · rw [repl5_keep _ _ hk]
      intro c' rest' heq
      injection heq with h1 h2
      rw [← h1]
      exact h c cs rfl

theorem headNW_dropXRun (l : List Char) (h : HeadNW l) :
    HeadNW (dropXRun l) := by
  by_cases h1 : 1 ≤ (xRun l).1
  · exact xRun_rest_headNW l h1
  · rcases hr : emptyP? l with - | r
    · rw [show dropXRun l = (xRun l).2 from rfl, xRun_stop _ hr]
      exact h
    · exfalso
      refine h1 ?_
      rw [xRun_step _ _ hr]
      simp

theorem headNW_repl4 (l : List Char) (h : HeadNW l) : HeadNW (repl4 l) := by
  rcases repl4_decomp l with h4 | ⟨d, hd, hdec⟩
  · rw [h4]
    exact h
  · exact headNW_prefix l (repl4 l) d h hdec

theorem XStr_not_mem_b (u : List Char) (h : XStr u) : 'b' ∉ u := by
  obtain ⟨op, w1, cl, w2, hop, hw1, hcl, hw2, rfl⟩ := h
  obtain ⟨c, hc, rfl⟩ := hop
  obtain ⟨c', hc', rfl⟩ := hcl
  intro hmem
  simp only [List.mem_append, List.mem_cons, List.not_mem_nil, or_false]
    at hmem
  rcases hmem with (h' | h' | h') | h' | (h' | h' | h' | h') | h'
  · exact absurd h' (by decide)
  · rw [← h'] at hc
    exact absurd hc (by decide)
  · exact absurd h' (by decide)
  · exact absurd (hw1 'b' h') (by decide)
  · exact absurd h' (by decide)
  · exact absurd h' (by decide)
  · rw [← h'] at hc'
    exact absurd hc' (by decide)
  · exact absurd h' (by decide)
  · exact absurd (hw2 'b' h') (by decide)

theorem XPlus_not_mem_b (u : List Char) (h : XPlus u) : 'b' ∉ u := by
  induction h with
  | one v hv => exact XStr_not_mem_b v hv
  | cons v v' hv hv' ih =>
    intro hmem
    rcases List.mem_append.mp hmem with h' | h'
    · exact XStr_not_mem_b v hv h'
    · exact ih h'

theorem subst_eq_of_not_mem (W : List Char → Prop) (ρ : List Char)
    (s t : List Char) (h : Subst W ρ s t) (c : Char) (hc : c ∈ ρ)
    (hn : c ∉ t) : s = t := by
  induction h with
  | nil => rfl
  | keep c' s' t' hs ih =>
    have hn' : c ∉ t' := fun hm => hn (by simp [hm])
    rw [ih hn']
  | repl m s' t' hm hs ih =>
    exact absurd (by simp [hc] : c ∈ ρ ++ t') hn

theorem uv_getLast_ne_lt (u v : List Char) (hu : XStr u) (hv : XStr v) :
    (u ++ v).getLast? ≠ some '<' := by
  obtain ⟨cl, hcl, hor⟩ := XStr_getLast v hv
  obtain ⟨zv, hzv⟩ := XStr_head v hv
  rw [List.getLast?_append_of_ne_nil u (by rw [hzv]; simp), hcl]
  simp only [ne_eq, Option.some.injEq]
  intro h'
  rcases hor with h'' | h''
  · rw [h'] at h''
    exact absurd h'' (by decide)
  · rw [h'] at h''
    exact absurd h'' (by decide)

/-- The fifth replace cannot create a pair of consecutive paragraph
words. -/
theorem noXX_repl5 (l : List Char) (h : NoXX l) : NoXX (repl5 l) := by
  intro i u v r hu hv hocc
  rcases subst_drop _ _ _ _ (subst_repl5 l) i with
    ⟨j, hj⟩ | ⟨k, t₁, s₁, hk0, hklt, ht₁, -⟩
  · rcases subst_cut _ _ _ _ hj (u ++ v) r
      (by rw [hocc, List.append_assoc]) with ⟨r', hs', -⟩ | hzone
    · refine h j u v r' hu hv ?_
      rw [hs', List.append_assoc]
    · obtain ⟨a, u₁, m, s₁, t₁, hdecomp, hne, -, -, -, -, hcontact⟩ := hzone
      rcases u₁ with - | ⟨x0, - | ⟨x1, u₁'⟩⟩
      · exact hne rfl
      · simp only [canonBr, List.cons_append, List.nil_append] at hcontact
        injection hcontact with g1 g2
        have hcl2 := uv_getLast_ne_lt u v hu hv
        rw [hdecomp, List.getLast?_concat, g1] at hcl2
        exact hcl2 rfl
      · simp only [canonBr, List.cons_append, List.nil_append] at hcontact
        injection hcontact with g1 g2
        injection g2 with g3 g4
        have hps : PairSafe isBch (u ++ v) := by
          refine pairSafe_append _ u v (pairSafe_X_isBch u hu)
            (pairSafe_X_isBch v hv) ?_
          obtain ⟨cl, hcl, hor⟩ := XStr_getLast u hu
          rw [hcl]
          simp only [ne_eq, Option.some.injEq]
          intro h'
          rcases hor with h'' | h''
          · rw [h'] at h''
            exact absurd h'' (by decide)
          · rw [h'] at h''
            exact absurd h'' (by decide)
        have := hps a 'b' u₁' (by rw [hdecomp, g1, g3])
        exact absurd this (by decide)
  · rw [ht₁] at hocc
    obtain ⟨zu, hzu⟩ := XStr_head u hu
    rw [hzu] at hocc
    refine brzone_interior k hk0 (by simpa [canonBr] using hklt)
      (zu ++ (v ++ r)) t₁ ?_
    rw [show '<' :: (zu ++ (v ++ r)) = ('<' :: zu) ++ (v ++ r) by simp]
    exact hocc.symm

/-- The fifth replace cannot create a paragraph word at the start. -/
theorem noXHead_repl5 (l : List Char) (h : NoXHead l) :
    NoXHead (repl5 l) := by
  intro u r hu heq
  rcases subst_cut _ _ _ _ (subst_repl5 l) u r heq with ⟨r', hs', -⟩ | hzone
  · exact h u r' hu hs'
  · obtain ⟨a, u₁, m, s₁, t₁, hdecomp, hne, -, -, -, -, hcontact⟩ := hzone
    rcases u₁ with - | ⟨x0, - | ⟨x1, u₁'⟩⟩
    · exact hne rfl
    · simp only [canonBr, List.cons_append, List.nil_append] at hcontact
      injection hcontact with g1 g2
      obtain ⟨cl, hcl, hor⟩ := XStr_getLast u hu
      rw [hdecomp, List.getLast?_concat] at hcl
      injection hcl with hcl
      rw [g1] at hcl
      rcases hor with h'' | h''
      · rw [← hcl] at h''
        exact absurd h'' (by decide)
      · rw [← hcl] at h''
        exact absurd h'' (by decide)
    · simp only [canonBr, List.cons_append, List.nil_append] at hcontact
      injection hcontact with g1 g2
      injection g2 with g3 g4
      have := pairSafe_X_isBch u hu a 'b' u₁' (by rw [hdecomp, g1, g3])
      exact absurd this (by decide)

/-- The fifth replace cannot create a trailing paragraph run. -/
theorem noXSuffix_repl5 (l : List Char) (h : NoXSuffix l) :
    NoXSuffix (repl5 l) := by
  intro i hx
  rcases subst_drop _ _ _ _ (subst_repl5 l) i with
    ⟨j, hj⟩ | ⟨k, t₁, s₁, hk0, hklt, ht₁, -⟩
  · have hb : 'b' ∉ (repl5 l).drop i := XPlus_not_mem_b _ hx
    have heq := subst_eq_of_not_mem _ _ _ _ hj 'b' (by simp [canonBr]) hb
    rw [← heq] at hx
    exact h j hx
  · obtain ⟨zu, hzu⟩ := XPlus_head _ hx
    rw [ht₁] at hzu
    exact brzone_interior k hk0 (by simpa [canonBr] using hklt) zu t₁
      hzu.symm

/-- The second replace keeps every emptyish-paragraph occurrence
canonical. -/
theorem canonEmptyish_repl2 (l : List Char) (h : CanonEmptyish l) :
    CanonEmptyish (repl2 l) := by
  intro i u r hu hocc
  rcases subst_drop _ _ _ _ (subst_repl2 l) i with
    ⟨j, hj⟩ | ⟨k, t₁, s₁, hk0, hklt, ht₁, -⟩
  · rcases subst_cut _ _ _ _ hj u r hocc with ⟨r', hs', -⟩ | hzone
    · exact h j u r' hu hs'
    · obtain ⟨a, u₁, m, s₁, t₁, hdecomp, hne, -, -, -, -, hcontact⟩ := hzone
      rcases a with - | ⟨a0, a'⟩
      · simp only [List.nil_append] at hdecomp
        rw [hdecomp]
        exact Emptyish_prefix_canonP u₁ r t₁ (hdecomp ▸ hu) hcontact
      · exfalso
        rcases u₁ with - | ⟨x0, - | ⟨x1, u₁'⟩⟩
        · exact hne rfl
        · simp only [canonP, List.cons_append, List.nil_append] at hcontact
          injection hcontact with g1 g2
          have hlast := Emptyish_getLast u hu
          rw [hdecomp, List.getLast?_concat] at hlast
          injection hlast with hlast
          rw [g1] at hlast
          exact absurd hlast (by decide)
        · simp only [canonP, List.cons_append, List.nil_append] at hcontact
          injection hcontact with g1 g2
          injection g2 with g3 g4
          have := pairHeadSafe_Emptyish u hu (a0 :: a') 'p' u₁'
            (by rw [hdecomp, g1, g3]) (by decide)
          exact List.noConfusion this
  · exfalso
    rw [ht₁] at hocc
    obtain ⟨c', w, hshape, hc'⟩ := EmptyishStr_head2 u hu
    rw [hshape] at hocc
    refine pzone_interior k hk0 (by simpa [canonP] using hklt) c' (w ++ r)
      t₁ hc' ?_
    rw [show '<' :: c' :: (w ++ r) = ('<' :: c' :: w) ++ r by simp]
    exact hocc.symm

theorem canonEmptyish_dropXRun (l : List Char) (h : CanonEmptyish l) :
    CanonEmptyish (dropXRun l) := by
  obtain ⟨m, hm, hdec⟩ := xRun_decomp l
  refine canonEmptyish_infix m (dropXRun l) [] ?_
  rw [List.append_nil, show dropXRun l = (xRun l).2 from rfl, ← hdec]
  exact h

theorem noXX_dropXRun (l : List Char) (h : NoXX l) : NoXX (dropXRun l) := by
  obtain ⟨m, hm, hdec⟩ := xRun_decomp l
  refine noXX_infix m (dropXRun l) [] ?_
  rw [List.append_nil, show dropXRun l = (xRun l).2 from rfl, ← hdec]
  exact h

theorem canonEmptyish_repl4 (l : List Char) (h : CanonEmptyish l) :
    CanonEmptyish (repl4 l) := by
  rcases repl4_decomp l with h4 | ⟨d, hd, hdec⟩
  · rw [h4]
    exact h
  · refine canonEmptyish_infix [] (repl4 l) d ?_
    rw [List.nil_append, ← hdec]
    exact h

theorem noXX_repl4 (l : List Char) (h : NoXX l) : NoXX (repl4 l) := by
  rcases repl4_decomp l with h4 | ⟨d, hd, hdec⟩
  · rw [h4]
    exact h
  · refine noXX_infix [] (repl4 l) d ?_
    rw [List.nil_append, ← hdec]
    exact h

theorem noXHead_repl4 (l : List Char) (h : NoXHead l) : NoXHead (repl4 l) := by
  rcases repl4_decomp l with h4 | ⟨d, hd, hdec⟩
  · rw [h4]
    exact h
  · refine noXHead_prefix (repl4 l) d ?_
    rw [← hdec]
    exact h

theorem WsStr_emid (w : List Char) (hw : WsStr w) : EMid w := by
  induction w with
  | nil => exact EMid.nil
  | cons c cs ih =>
    exact EMid.ws c cs (hw c (by simp)) (ih (fun d hd => hw d (by simp [hd])))

theorem EMid_append (x y : List Char) (hx : EMid x) (hy : EMid y) :
    EMid (x ++ y) := by
  induction hx with
  | nil => exact hy
  | ws c rest hc hrest ih => exact EMid.ws c _ hc ih
  | nbsp u rest hu hrest ih =>
    rw [List.append_assoc]
    exact EMid.nbsp u _ hu ih
  | br u rest hu hrest ih =>
    rw [List.append_assoc]
    exact EMid.br u _ hu ih

theorem BrTokStr_emid (u : List Char) (h : BrTokStr u) : EMid u := by
  obtain ⟨b, w, hb, hw, rfl⟩ := h
  exact EMid.br b w hb (WsStr_emid w hw)

theorem BrTokPlus_emid (u : List Char) (h : BrTokPlus u) : EMid u := by
  induction h with
  | one v hv => exact BrTokStr_emid v hv
  | cons v v' hv hv' ih => exact EMid_append v v' (BrTokStr_emid v hv) ih

theorem Br2Str_emid (m : List Char) (h : Br2Str m) : EMid m := by
  obtain ⟨u, v, hu, hv, rfl⟩ := h
  exact EMid_append u v (BrTokStr_emid u hu) (BrTokPlus_emid v hv)

theorem Br2Str_head (m : List Char) (h : Br2Str m) : ∃ z, m = '<' :: z := by
  obtain ⟨u, v, hu, hv, rfl⟩ := h
  obtain ⟨z, rfl⟩ := BrTokStr_head u hu
  exact ⟨z ++ v, by simp⟩

/-- Inside an `EMid` word, a `'<'` splits it into a complete-brick prefix,
a `<br>` tag and a remaining `EMid` word. -/
theorem EMid_split_lt2 (m : List Char) (h : EMid m) :
    ∀ a z, m = a ++ '<' :: z →
    ∃ brw m2, BrStr brw ∧ EMid m2 ∧ '<' :: z = brw ++ m2 ∧ EMid a := by
  induction h with
  | nil =>
    intro a z heq
    exact absurd heq (by simp)
  | ws c rest hc hrest ih =>
    intro a z heq
    rcases a with - | ⟨a0, a'⟩
    · simp only [List.nil_append] at heq
      injection heq with h1 h2
      rw [h1] at hc
      exact absurd hc (by decide)
    · rw [List.cons_append] at heq
      injection heq with h1 h2
      obtain ⟨brw, m2, hbrw, hm2, hsplit, ha⟩ := ih a' z h2
      exact ⟨brw, m2, hbrw, hm2, hsplit, EMid.ws a0 a' (h1 ▸ hc) ha⟩
  | nbsp u rest hu hrest ih =>
    intro a z heq
    rcases List.append_eq_append_iff.mp heq with ⟨a', ha', hr'⟩ | ⟨c', hu', hr'⟩
    · obtain ⟨brw, m2, hbrw, hm2, hsplit, ha2⟩ := ih a' z hr'
      refine ⟨brw, m2, hbrw, hm2, hsplit, ?_⟩
      rw [ha']
      exact EMid.nbsp u a' hu ha2
    · rcases c' with - | ⟨c0, c''⟩
      · simp only [List.nil_append] at hr'
        obtain ⟨brw, m2, hbrw, hm2, hsplit, ha2⟩ := ih [] z
          (by simp only [List.nil_append]; exact hr'.symm)
        refine ⟨brw, m2, hbrw, hm2, hsplit, ?_⟩
        have ha3 : a = u := by simpa using hu'.symm
        rw [ha3]
        have h3 : EMid (u ++ []) := EMid.nbsp u [] hu EMid.nil
        rw [List.append_nil] at h3
        exact h3
      · rw [List.cons_append] at hr'
        injection hr' with h1 h2
        exfalso
        refine NbspStr_not_lt u hu ?_
        rw [hu', ← h1]
        simp
  | br u rest hu hrest ih =>
    intro a z heq
    rcases List.append_eq_append_iff.mp heq with ⟨a', ha', hr'⟩ | ⟨c', hu', hr'⟩
    · obtain ⟨brw, m2, hbrw, hm2, hsplit, ha2⟩ := ih a' z hr'
      refine ⟨brw, m2, hbrw, hm2, hsplit, ?_⟩
      rw [ha']
      exact EMid.br u a' hu ha2
    · rcases c' with - | ⟨c0, c''⟩
      · simp only [List.nil_append] at hr'
        obtain ⟨brw, m2, hbrw, hm2, hsplit, ha2⟩ := ih [] z
          (by simp only [List.nil_append]; exact hr'.symm)
        refine ⟨brw, m2, hbrw, hm2, hsplit, ?_⟩
        have ha3 : a = u := by simpa using hu'.symm
        rw [ha3]
        have h3 : EMid (u ++ []) := EMid.br u [] hu EMid.nil
        rw [List.append_nil] at h3
        exact h3
      · rw [List.cons_append] at hr'
        injection hr' with h1 h2
        rw [← h1] at hu'
        have ha0 : a = [] := BrStr_lt_split u a c'' hu hu'
        subst ha0
        simp only [List.nil_append] at heq
        exact ⟨u, rest, hu, hrest, heq.symm, EMid.nil⟩

/-- Pre-image of an `EMid ++ close-tag` segment at the head of the output
of a `<br>`-zone substitution: the source also starts with such a segment,
with the same close tag, and its middle is empty only if the image middle
is. -/
theorem emid_pre (mid : List Char) : ∀ cl s₂ t₂ r,
    EMid mid → PCloseStr cl → Subst Br2Str canonBr s₂ t₂ →
    t₂ = (mid ++ cl) ++ r →
    ∃ mid' r', EMid mid' ∧ s₂ = (mid' ++ cl) ++ r' ∧
      (mid' = [] → mid = []) := by
  intro cl s₂ t₂ r hmid hcl hsub ht
  rcases subst_cut _ _ _ _ hsub (mid ++ cl) r ht with ⟨r', hs', -⟩ | hzone
  · exact ⟨mid, r', hmid, hs', fun h => h⟩
  · obtain ⟨a2, u₁, m, s₃, t₃, hdecomp, hne, hs, hW, -, hsub₃, hcontact⟩ :=
      hzone
    rcases u₁ with - | ⟨x0, - | ⟨x1, u₁'⟩⟩
    · exact absurd rfl hne
    · exfalso
      simp only [canonBr, List.cons_append, List.nil_append] at hcontact
      injection hcontact with g1 g2
      have hlast : (mid ++ cl).getLast? = some '>' := by
        obtain ⟨cc, hcc, hclstruct⟩ := hcl
        rw [hclstruct, show mid ++ ['<', '/', cc, '>']
          = (mid ++ ['<', '/', cc]) ++ ['>'] by simp, List.getLast?_concat]
      rw [hdecomp, List.getLast?_concat] at hlast
      injection hlast with hlast
      rw [g1] at hlast
      exact absurd hlast (by decide)
    · simp only [canonBr, List.cons_append, List.nil_append] at hcontact
      injection hcontact with g1 g2
      injection g2 with g3 g4
      have hsplit2 : mid ++ cl = a2 ++ '<' :: 'b' :: u₁' := by
        rw [hdecomp, g1, g3]
      rcases List.append_eq_append_iff.mp hsplit2 with
        ⟨a3, ha3, hcl3⟩ | ⟨c3, hmid3, hc3⟩
      · exfalso
        have := pairSafe_pclose isBch cl hcl (by decide) a3 'b' u₁' hcl3
        exact absurd this (by decide)
      · rcases c3 with - | ⟨y0, - | ⟨y1, c3''⟩⟩
        · exfalso
          simp only [List.nil_append] at hc3
          obtain ⟨cc, hcc, hclstruct⟩ := hcl
          rw [hclstruct] at hc3
          injection hc3 with q1 q2
          injection q2 with q3 q4
          exact absurd q3 (by decide)
        · exfalso
          simp only [List.cons_append, List.nil_append] at hc3
          injection hc3 with q1 q2
          have hlast := EMid_getLast_ne_lt mid hmid
          rw [hmid3, List.getLast?_concat, ← q1] at hlast
          exact hlast rfl
        · rw [List.cons_append, List.cons_append] at hc3
          injection hc3 with q1 q2
          injection q2 with q3 q4
          obtain ⟨brw, m2, hbrw, hm2E, hsplitw, hEa⟩ :=
            EMid_split_lt2 mid hmid a2 (y1 :: c3'') (by rw [hmid3, ← q1])
          rw [← q3] at hsplitw
          have hcb : '<' :: 'b' :: (u₁' ++ r) = canonBr ++ t₃ := by
            simp only [canonBr, List.cons_append, List.nil_append]
            rw [g4]
          have hcontact2 : brw ++ (m2 ++ (cl ++ r)) = canonBr ++ t₃ := by
            calc brw ++ (m2 ++ (cl ++ r))
                = (brw ++ m2) ++ (cl ++ r) := by simp [List.append_assoc]
              _ = ('<' :: 'b' :: c3'') ++ (cl ++ r) := by rw [hsplitw]
              _ = '<' :: 'b' :: (u₁' ++ r) := by
                  rw [q4]
                  simp
              _ = canonBr ++ t₃ := hcb
          have hbrc : brw = canonBr :=
            BrStr_prefix_canonBr brw _ t₃ hbrw hcontact2
          have ht₃ : t₃ = (m2 ++ cl) ++ r := by
            rw [hbrc] at hcontact2
            simp only [List.append_cancel_left_eq] at hcontact2
            rw [← hcontact2]
            simp [List.append_assoc]
          have hL1 := congrArg List.length hsplitw
          simp at hL1
          have hL2 : brw.length = 5 := by
            rw [hbrc]
            rfl
          have hL3 := congrArg List.length hmid3
          simp at hL3
          have hdec : m2.length < mid.length := by omega
          obtain ⟨mid2'', r'', hE'', hs₃'', -⟩ :=
            emid_pre m2 cl s₃ t₃ r hm2E hcl hsub₃ ht₃
          refine ⟨a2 ++ (m ++ mid2''), r'', ?_, ?_, ?_⟩
          · exact EMid_append _ _ hEa
              (EMid_append _ _ (Br2Str_emid m hW) hE'')
          · rw [hs, hs₃'']
            simp [List.append_assoc]
          · intro hnil
            exfalso
            obtain ⟨zm, hzm⟩ := Br2Str_head m hW
            rw [hzm] at hnil
            simp at hnil
termination_by mid.length
decreasing_by exact hdec

/-- The fifth replace keeps every emptyish-paragraph occurrence
canonical. -/
theorem canonEmptyish_repl5 (l : List Char) (h : CanonEmptyish l) :
    CanonEmptyish (repl5 l) := by
  intro i u r hu hocc
  rcases subst_drop _ _ _ _ (subst_repl5 l) i with
    ⟨j, hj⟩ | ⟨k, t₁, s₁, hk0, hklt, ht₁, -⟩
  · obtain ⟨op, mid, cl, hop, hmid, hcl, hustruct⟩ := hu
    obtain ⟨c, hc, hopstruct⟩ := hop
    have hocc2 : (repl5 l).drop i = op ++ ((mid ++ cl) ++ r) := by
      rw [hocc, hustruct]
      simp [List.append_assoc]
    rcases subst_cut _ _ _ _ hj op ((mid ++ cl) ++ r) hocc2 with
      ⟨r₁, hs₁, hsub₁⟩ | hzone
    · obtain ⟨mid', r', hE', hsrc, hnil⟩ :=
        emid_pre mid cl r₁ _ r hmid hcl hsub₁ rfl
      have hu' : EmptyishStr (op ++ (mid' ++ cl)) :=
        ⟨op, mid', cl, ⟨c, hc, hopstruct⟩, hE', hcl,
          (List.append_assoc op mid' cl).symm⟩
      have hdrop : l.drop j = (op ++ (mid' ++ cl)) ++ r' := by
        rw [hs₁, hsrc]
        simp [List.append_assoc]
      have hcanon := h j _ r' hu' hdrop
      have hlen := congrArg List.length hcanon
      obtain ⟨cc, hcc, hclstruct⟩ := hcl
      rw [hopstruct, hclstruct] at hlen
      simp only [canonP, List.length_append, List.length_cons,
        List.length_nil] at hlen
      have hmidnil : mid' = [] := by
        rw [← List.length_eq_zero]
        omega
      have hmid0 : mid = [] := hnil hmidnil
      rw [hmidnil, hopstruct, hclstruct] at hcanon
      rw [hustruct, hmid0, hopstruct, hclstruct]
      simpa using hcanon
    · exfalso
      obtain ⟨a, u₁, m, s₂, t₂, hdecomp, hne, -, hW, -, -, hcontact⟩ := hzone
      rw [hopstruct] at hdecomp
      rcases a with - | ⟨b0, - | ⟨b1, - | ⟨b2, brest⟩⟩⟩
      · simp only [List.nil_append] at hdecomp
        rw [← hdecomp] at hcontact
        simp only [canonBr, List.cons_append, List.nil_append] at hcontact
        injection hcontact with g1 g2
        injection g2 with g3 g4
        rw [g3] at hc
        exact absurd hc (by decide)
      · simp only [List.cons_append, List.nil_append] at hdecomp
        injection hdecomp with g1 g2
        rw [← g2] at hcontact
        simp only [canonBr, List.cons_append, List.nil_append] at hcontact
        injection hcontact with g3 g4
        injection g4 with g5 g6
        rw [g3] at hc
        exact absurd hc (by decide)
      · simp only [List.cons_append, List.nil_append] at hdecomp
        injection hdecomp with g1 g2
        injection g2 with g3 g4
        rw [← g4] at hcontact
        simp only [canonBr, List.cons_append, List.nil_append] at hcontact
        injection hcontact with g5 g6
        exact absurd g5 (by decide)
      · simp only [List.cons_append, List.nil_append] at hdecomp
        injection hdecomp with g1 g2
        injection g2 with g3 g4
        injection g4 with g5 g6
        rcases List.append_eq_nil.mp g6.symm with ⟨-, h2⟩
        exact hne h2
  · exfalso
    rw [ht₁] at hocc
    obtain ⟨c', w, hshape, hc'⟩ := EmptyishStr_head2 u hu
    rw [hshape] at hocc
    refine brzone_interior k hk0 (by simpa [canonBr] using hklt)
      (c' :: w ++ r) t₁ ?_
    rw [show '<' :: (c' :: w ++ r) = ('<' :: c' :: w) ++ r by simp]
    exact hocc.symm

/-! ### The normal forms are fixed points of the pipeline stages -/

theorem canonEmptyish_drop (l : List Char) (n : Nat) (h : CanonEmptyish l) :
    CanonEmptyish (l.drop n) := by
  refine canonEmptyish_infix (l.take n) (l.drop n) [] ?_
  rw [List.append_nil, List.take_append_drop]
  exact h

theorem noXX_drop (l : List Char) (n : Nat) (h : NoXX l) :
    NoXX (l.drop n) := by
  refine noXX_infix (l.take n) (l.drop n) [] ?_
  rw [List.append_nil, List.take_append_drop]
  exact h

theorem noBrBr_drop (l : List Char) (n : Nat) (h : NoBrBr l) :
    NoBrBr (l.drop n) := by
  refine noBrBr_infix (l.take n) (l.drop n) [] ?_
  rw [List.append_nil, List.take_append_drop]
  exact h

theorem XChain_split2 (n : Nat) (m : List Char) (h : XChain (n + 2) m) :
    ∃ u v w, XStr u ∧ XStr v ∧ m = u ++ (v ++ w) := by
  cases h with
  | succ _ u v' hu hv' =>
    cases hv' with
    | succ _ v w hv hw => exact ⟨u, v, w, hu, hv, rfl⟩

theorem BrChain_split2 (n : Nat) (m : List Char) (h : BrChain (n + 2) m) :
    ∃ u v w, BrTokStr u ∧ BrTokStr v ∧ m = u ++ (v ++ w) := by
  cases h with
  | succ _ u v' hu hv' =>
    cases hv' with
    | succ _ v w hv hw => exact ⟨u, v, w, hu, hv, rfl⟩

/-- On canonical-emptyish input, the first replace is the identity. -/
theorem repl1_id (l : List Char) : CanonEmptyish l → repl1 l = l := by
  rcases l with - | ⟨c, cs⟩
  · intro h
    rw [repl1_nil]
  · intro h
    rcases hm : emptyishP? (c :: cs) with - | rest
    · rw [repl1_keep _ _ hm]
      rw [repl1_id cs (canonEmptyish_drop (c :: cs) 1 h)]
    · have hlt := emptyishP?_lt _ _ hm
      rw [repl1_step _ _ _ hm]
      obtain ⟨u, hu, heq⟩ := emptyishP?_conv _ _ hm
      have hcan := h 0 u rest hu (by rw [List.drop_zero]; exact heq)
      have hrest : CanonEmptyish rest := by
        refine canonEmptyish_infix u rest [] ?_
        rw [List.append_nil, ← heq]
        exact h
      rw [repl1_id rest hrest, ← hcan, ← heq]
termination_by l.length
decreasing_by
  · simp
  · simp only [List.length_cons] at hlt ⊢
    omega

/-- On `NoXX` input, the second replace is the identity. -/
theorem repl2_id (l : List Char) : NoXX l → repl2 l = l := by
  rcases l with - | ⟨c, cs⟩
  · intro h
    rw [repl2_nil]
  · intro h
    by_cases hk : 2 ≤ (xRun (c :: cs)).1
    · exfalso
      obtain ⟨mch, hmch, hdec⟩ := xRun_decomp (c :: cs)
      obtain ⟨k, hk2⟩ : ∃ k, (xRun (c :: cs)).1 = k + 2 :=
        ⟨(xRun (c :: cs)).1 - 2, by omega⟩
      rw [hk2] at hmch
      obtain ⟨u, v, w, hu, hv, hm⟩ := XChain_split2 k mch hmch
      generalize hrest : (xRun (c :: cs)).2 = rest at hdec
      refine h 0 u v (w ++ rest) hu hv ?_
      rw [List.drop_zero, hdec, hm]
      simp [List.append_assoc]
    · rw [repl2_keep _ _ hk, repl2_id cs (noXX_drop (c :: cs) 1 h)]
termination_by l.length
decreasing_by simp

/-- On `NoXHead` input, the third replace is the identity. -/
theorem dropXRun_id (l : List Char) (h : NoXHead l) : dropXRun l = l := by
  rcases hm : emptyP? l with - | r
  · rw [show dropXRun l = (xRun l).2 from rfl, xRun_stop _ hm]
  · exfalso
    obtain ⟨u, hu, heq⟩ := emptyP?_conv _ _ hm
    exact h u r hu heq

/-- On `NoXSuffix` input, the fourth replace is the identity. -/
theorem repl4_id (l : List Char) (h : NoXSuffix l) : repl4 l = l := by
  induction l with
  | nil => rfl
  | cons c cs ih =>
    by_cases hx : isXRunToEnd (c :: cs) = true
    · exact absurd ((isXRunToEnd_iff _).mp hx) (by simpa using h 0)
    · show (if isXRunToEnd (c :: cs) then [] else c :: repl4 cs) = c :: cs
      rw [if_neg hx,
        ih (fun i hXp => h (i + 1) (by rw [List.drop_succ_cons]; exact hXp))]

/-- On `NoBrBr` input, the fifth replace is the identity. -/
theorem repl5_id (l : List Char) : NoBrBr l → repl5 l = l := by
  rcases l with - | ⟨c, cs⟩
  · intro h
    rw [repl5_nil]
  · intro h
    by_cases hk : 2 ≤ (brRun (c :: cs)).1
    · exfalso
      obtain ⟨mch, hmch, hdec⟩ := brRun_decomp (c :: cs)
      obtain ⟨k, hk2⟩ : ∃ k, (brRun (c :: cs)).1 = k + 2 :=
        ⟨(brRun (c :: cs)).1 - 2, by omega⟩
      rw [hk2] at hmch
      obtain ⟨u, v, w, hu, hv, hm⟩ := BrChain_split2 k mch hmch
      generalize hrest : (brRun (c :: cs)).2 = rest at hdec
      refine h 0 u v (w ++ rest) hu hv ?_
      rw [List.drop_zero, hdec, hm]
      simp [List.append_assoc]
    · rw [repl5_keep _ _ hk, repl5_id cs (noBrBr_drop (c :: cs) 1 h)]
termination_by l.length
decreasing_by simp

/-- The trim of any list has a non-whitespace head. -/
theorem headNW_jsTrimList (z : List Char) : HeadNW (jsTrimList z) := by
  have hA : HeadNW (z.dropWhile isJsWs) := headNW_dropWhile z
  have hdec : z.dropWhile isJsWs = jsTrimList z ++
      ((z.dropWhile isJsWs).reverse.takeWhile isJsWs).reverse := by
    unfold jsTrimList
    rw [← List.reverse_append, List.takeWhile_append_dropWhile,
      List.reverse_reverse]
  exact headNW_prefix _ _ _ hA hdec

/-- The reverse of a trimmed list has a non-whitespace head. -/
theorem trim_reverse_headNW (l : List Char) :
    HeadNW ((jsTrimList l).reverse) := by
  unfold jsTrimList
  rw [List.reverse_reverse]
  exact headNW_dropWhile _

/-- Trimming a list already trimmed on both ends changes nothing. -/
theorem jsTrimList_eq_self (l : List Char) (hh : HeadNW l)
    (hl : HeadNW l.reverse) : jsTrimList l = l := by
  unfold jsTrimList
  rw [dropWhile_headnw _ hh, dropWhile_headnw _ hl, List.reverse_reverse]

/-! ### Idempotence of the full pipeline -/

/-- The character-list pipeline of `cleanHtml` is idempotent: its output
satisfies all five normal forms and is trimmed, so every stage of a second
pass is the identity. -/
theorem cleanHtmlList_idem (l : List Char) :
    cleanHtmlList (cleanHtmlList l) = cleanHtmlList l := by
  have hH1 : HeadNW (jsTrimList l) := headNW_jsTrimList l
  have hH2 : HeadNW (repl1 (jsTrimList l)) := headNW_repl1 _ hH1
  have hH3 : HeadNW (repl2 (repl1 (jsTrimList l))) := headNW_repl2 _ hH2
  have hH4 : HeadNW (dropXRun (repl2 (repl1 (jsTrimList l)))) :=
    headNW_dropXRun _ hH3
  have hH5 : HeadNW (repl4 (dropXRun (repl2 (repl1 (jsTrimList l))))) :=
    headNW_repl4 _ hH4
  have hH6 : HeadNW (repl5 (repl4 (dropXRun (repl2 (repl1
      (jsTrimList l)))))) := headNW_repl5 _ hH5
  have hC2 : CanonEmptyish (repl1 (jsTrimList l)) := canonEmptyish_repl1 _
  have hC3 : CanonEmptyish (repl2 (repl1 (jsTrimList l))) :=
    canonEmptyish_repl2 _ hC2
  have hX3 : NoXX (repl2 (repl1 (jsTrimList l))) := noXX_repl2 _
  have hC4 : CanonEmptyish (dropXRun (repl2 (repl1 (jsTrimList l)))) :=
    canonEmptyish_dropXRun _ hC3
  have hX4 : NoXX (dropXRun (repl2 (repl1 (jsTrimList l)))) :=
    noXX_dropXRun _ hX3
  have hHd4 : NoXHead (dropXRun (repl2 (repl1 (jsTrimList l)))) :=
    noXHead_dropXRun _
  have hC5 : CanonEmptyish (repl4 (dropXRun (repl2 (repl1
      (jsTrimList l))))) := canonEmptyish_repl4 _ hC4
  have hX5 : NoXX (repl4 (dropXRun (repl2 (repl1 (jsTrimList l))))) :=
    noXX_repl4 _ hX4
  have hHd5 : NoXHead (repl4 (dropXRun (repl2 (repl1 (jsTrimList l))))) :=
    noXHead_repl4 _ hHd4
  have hS5 : NoXSuffix (repl4 (dropXRun (repl2 (repl1 (jsTrimList l))))) :=
    noXSuffix_repl4 _
  have hC6 : CanonEmptyish (repl5 (repl4 (dropXRun (repl2 (repl1
      (jsTrimList l)))))) := canonEmptyish_repl5 _ hC5
  have hX6 : NoXX (repl5 (repl4 (dropXRun (repl2 (repl1
      (jsTrimList l)))))) := noXX_repl5 _ hX5
  have hHd6 : NoXHead (repl5 (repl4 (dropXRun (repl2 (repl1
      (jsTrimList l)))))) := noXHead_repl5 _ hHd5
  have hS6 : NoXSuffix (repl5 (repl4 (dropXRun (repl2 (repl1
      (jsTrimList l)))))) := noXSuffix_repl5 _ hS5
  have hB6 : NoBrBr (repl5 (repl4 (dropXRun (repl2 (repl1
      (jsTrimList l)))))) := noBrBr_repl5 _
  obtain ⟨w, hw, hdec⟩ := trim_tail_decomp _ hH6
  have hHy : HeadNW (cleanHtmlList l) := by
    simp only [cleanHtmlList]
    exact headNW_jsTrimList _
  have hRy : HeadNW ((cleanHtmlList l).reverse) := by
    simp only [cleanHtmlList]
    exact trim_reverse_headNW _
  have hCy : CanonEmptyish (cleanHtmlList l) := by
    refine canonEmptyish_infix [] _ w ?_
    simp only [cleanHtmlList, List.nil_append]
    rw [← hdec]
    exact hC6
  have hXy : NoXX (cleanHtmlList l) := by
    refine noXX_infix [] _ w ?_
    simp only [cleanHtmlList, List.nil_append]
    rw [← hdec]
    exact hX6
  have hBy : NoBrBr (cleanHtmlList l) := by
    refine noBrBr_infix [] _ w ?_
    simp only [cleanHtmlList, List.nil_append]
    rw [← hdec]
    exact hB6
  have hHdy : NoXHead (cleanHtmlList l) := by
    refine noXHead_prefix _ w ?_
    simp only [cleanHtmlList]
    rw [← hdec]
    exact hHd6
  have hSy : NoXSuffix (cleanHtmlList l) := by
    intro i hx
    have hne := XPlus_ne_nil _ hx
    have hi : i < (cleanHtmlList l).length := by
      by_contra hge
      rw [List.drop_eq_nil_of_le (by omega)] at hx
      exact XPlus_ne_nil [] hx rfl
    refine hS6 i ?_
    have hstep : (repl5 (repl4 (dropXRun (repl2 (repl1
        (jsTrimList l)))))).drop i = (cleanHtmlList l).drop i ++ w := by
      rw [hdec]
      show (cleanHtmlList l ++ w).drop i = _
      rw [List.drop_append_of_le_length (by omega)]
    rw [hstep]
    exact XPlus_append_ws _ w hx hw
  simp only [cleanHtmlList] at hHy hRy hCy hXy hBy hHdy hSy ⊢
  rw [jsTrimList_eq_self _ hHy hRy, repl1_id _ hCy, repl2_id _ hXy,
    dropXRun_id _ hHdy, repl4_id _ hSy, repl5_id _ hBy,
    jsTrimList_eq_self _ hHy hRy]

/-- C1: the content normalizer `cleanHtml` is idempotent — for every input
HTML string `s`, applying the normalization (trim, collapse whitespace-only
paragraphs to `"<p></p>"`, collapse runs of empty paragraphs, strip leading
and trailing empty-paragraph runs, collapse repeated `<br>`s to `"<br/>"`,
trim) twice yields the same string as applying it once:
`cleanHtml (cleanHtml s) = cleanHtml s`. -/
theorem cleanHtml_idempotent (s : String) :
    cleanHtml (cleanHtml s) = cleanHtml s := by
  by_cases hs : s = ""
  · subst hs
    simp [cleanHtml]
  · rw [show cleanHtml s = String.mk (cleanHtmlList s.data) from by
      simp [cleanHtml, hs]]
    by_cases h2 : String.mk (cleanHtmlList s.data) = ""
    · rw [h2]
      simp [cleanHtml]
    · rw [show cleanHtml (String.mk (cleanHtmlList s.data))
        = String.mk (cleanHtmlList (String.mk (cleanHtmlList s.data)).data)
        from by simp [cleanHtml, h2]]
      rw [show (String.mk (cleanHtmlList s.data)).data
        = cleanHtmlList s.data from rfl]
      rw [cleanHtmlList_idem]

end Blog
